import Mathlib

/-!
Shallow embedding of the lego-mosaic-rs core (src/lib.rs) in Lean 4.

Conventions used throughout this development:
* Rust u8 / u32 / usize values are modelled as natural numbers.  Where the
  source guards against machine-integer overflow (the usize overflow check in
  build_chunks, the u8 guards in Chunk::fits) the guards are translated
  literally, so the Lean functions agree with the Rust ones on all inputs in
  the machine range.
* BTreeSet is modelled as Finset, BTreeMap as a key-sorted association list,
  the BoolVec visited bitset as a Finset of coordinates (the flat index
  h * length * width + w * length + l is injective on in-bounds coordinates,
  and the algorithm only ever queries in-bounds coordinates).
* Rust FnMut callbacks are modelled as state-passing functions
  s -> args -> s * result; the caller-visible closure state is threaded
  through and returned, which is how a Rust caller observes it after
  from_image returns.
* Divergence (the Rust while loops) is modelled with explicit fuel; the fuel
  passed at each call site provably dominates the loop variant of the source
  loop, so the embedded function equals the source semantics whenever the
  source terminates.
-/

namespace LegoMosaic

/-- Srgba color with four 8-bit channels, from src/lib.rs. -/
structure Srgba where
  red : ℕ
  green : ℕ
  blue : ℕ
  alpha : ℕ
  deriving DecidableEq, Repr

/-- RawColor type alias from src/lib.rs. -/
abbrev RawColor := Srgba

/-- Error enum from src/lib.rs; its only variant is PointerTooSmall. -/
inductive MosaicError where
  | pointerTooSmall
  deriving DecidableEq, Repr

instance : Fintype MosaicError :=
  ⟨{MosaicError.pointerTooSmall}, fun e => by cases e; simp⟩

/-- Brick sum type from src/lib.rs: a unit-brick identity or a non-unit shape. -/
inductive Brick (U B : Type) where
  | unit (u : U)
  | nonUnit (b : B)
  deriving DecidableEq, Repr

/-- Bundle of the NonUnitBrick trait methods from src/lib.rs, supplied by the
caller for the non-unit shape type B. -/
structure NonUnitOps (U B : Type) where
  length : B → ℕ
  width : B → ℕ
  height : B → ℕ
  unitBrick : B → U
  rotate90 : B → B
  isRotationOf : B → B → Bool

variable {U B C : Type}

/-- Brick::length from src/lib.rs. -/
def Brick.length (ops : NonUnitOps U B) : Brick U B → ℕ
  | .unit _ => 1
  | .nonUnit b => ops.length b

/-- Brick::width from src/lib.rs. -/
def Brick.width (ops : NonUnitOps U B) : Brick U B → ℕ
  | .unit _ => 1
  | .nonUnit b => ops.width b

/-- Brick::height from src/lib.rs. -/
def Brick.height (ops : NonUnitOps U B) : Brick U B → ℕ
  | .unit _ => 1
  | .nonUnit b => ops.height b

/-- Brick::unit_brick from src/lib.rs. -/
def Brick.unitBrickOf (ops : NonUnitOps U B) : Brick U B → U
  | .unit u => u
  | .nonUnit b => ops.unitBrick b

/-- PlacedBrick from src/lib.rs: a brick at global coordinates with a color. -/
structure PlacedBrick (U B C : Type) where
  l : ℕ
  w : ℕ
  h : ℕ
  brick : Brick U B
  color : C
  deriving DecidableEq, Repr

/-- ChunkPlacedBrick from src/lib.rs: a brick at chunk-local coordinates. -/
structure ChunkPlacedBrick (U B : Type) where
  l : ℕ
  w : ℕ
  h : ℕ
  brick : Brick U B
  deriving DecidableEq, Repr

/-- Chunk from src/lib.rs: a same-color, same-unit-brick region with constant
footprint, storing per-l-column membership sets of included w values. -/
structure Chunk (U B C : Type) where
  unitBrick : U
  color : C
  l : ℕ
  w : ℕ
  h : ℕ
  length : ℕ
  width : ℕ
  height : ℕ
  wsIncluded : List (Finset ℕ)
  bricks : List (ChunkPlacedBrick U B)
  deriving DecidableEq

/-- Section type from src/lib.rs (there a tuple type alias, here a structure
with named fields): global l, w, h offsets plus the section's chunks. -/
structure MosaicSection (U B C : Type) where
  l : ℕ
  w : ℕ
  h : ℕ
  chunks : List (Chunk U B C)
  deriving DecidableEq

/-- Mosaic from src/lib.rs. -/
structure Mosaic (U B C : Type) where
  sections : List (MosaicSection U B C)
  length : ℕ
  width : ℕ
  deriving DecidableEq

/-- Decision of the per-section predicate in Mosaic::new: every chunk of the
section has positive length, width and height. -/
def sectionAllPositive (s : MosaicSection U B C) : Bool :=
  s.chunks.all fun chunk =>
    decide (0 < chunk.length) && decide (0 < chunk.width) &&
      decide (0 < chunk.height)

/-- Mosaic::new from src/lib.rs: keeps exactly the sections all of whose
chunks have positive length, width and height. -/
def Mosaic.new (sections : List (MosaicSection U B C)) (length width : ℕ) :
    Mosaic U B C :=
  { sections := sections.filter sectionAllPositive,
    length := length,
    width := width }

/-- Mosaic::iter from src/lib.rs: every chunk-local brick translated by the
chunk offset and then the section offset, with the chunk color attached. -/
def Mosaic.iter (m : Mosaic U B C) : List (PlacedBrick U B C) :=
  m.sections.flatMap fun s =>
    s.chunks.flatMap fun chunk =>
      chunk.bricks.map fun brick =>
        { l := s.l + chunk.l + brick.l,
          w := s.w + chunk.w + brick.w,
          h := s.h + chunk.h + brick.h,
          brick := brick.brick,
          color := chunk.color }

/-- VolumeSortedBrick from src/lib.rs. -/
structure VolumeSortedBrick (U B : Type) where
  brick : Brick U B
  deriving DecidableEq, Repr

/-- VolumeSortedBrick::volume from src/lib.rs. -/
def VolumeSortedBrick.volume (ops : NonUnitOps U B) (b : VolumeSortedBrick U B) : ℕ :=
  b.brick.length ops * b.brick.width ops * b.brick.height ops

/-- Stable insertion into a list sorted by the boolean relation le: the new
element is placed before the first element it is le-related to, so elements
comparing equal keep their original relative order. -/
def stableInsert {α : Type} (le : α → α → Bool) (x : α) : List α → List α
  | [] => [x]
  | y :: ys => if le x y then x :: y :: ys else y :: stableInsert le x ys

/-- Stable sort by the boolean relation le, realised as insertion sort.
Vec::sort in Rust is specified as a stable sort by the element ordering; a
stable insertion sort implements exactly that contract. -/
def stableSort {α : Type} (le : α → α → Bool) : List α → List α
  | [] => []
  | x :: xs => stableInsert le x (stableSort le xs)

/-- Comparison used by the Vec::sort call in Mosaic::reduce_bricks: bricks are
ordered by descending volume (VolumeSortedBrick::cmp); the sort is stable. -/
def sortBricksByVolume (ops : NonUnitOps U B) (bs : List (VolumeSortedBrick U B)) :
    List (VolumeSortedBrick U B) :=
  stableSort (fun b1 b2 => decide (b2.volume ops ≤ b1.volume ops)) bs

/-- Association-list update backing the BTreeMap entry().or_insert_with(Vec::new)
followed by pushes in Mosaic::reduce_bricks: appends the given values to the
entry for the key, creating an empty entry first when the key is absent. -/
def assocAppend [DecidableEq U] :
    List (U × List (VolumeSortedBrick U B)) → U → List (VolumeSortedBrick U B) →
      List (U × List (VolumeSortedBrick U B))
  | [], k, vs => [(k, vs)]
  | (k0, vs0) :: rest, k, vs =>
      if k = k0 then (k0, vs0 ++ vs) :: rest else (k0, vs0) :: assocAppend rest k vs

/-- Association-list lookup backing BTreeMap indexing. -/
def assocLookup [DecidableEq U] {α : Type} : List (U × α) → U → Option α
  | [], _ => none
  | (k0, v) :: rest, k => if k = k0 then some v else assocLookup rest k

/-- Entries one catalog brick pushes onto its partition in the bricks_by_type
fold of Mosaic::reduce_bricks: nothing when some dimension is zero, otherwise
the brick itself followed by its 90-degree rotation when it is not square. -/
def brickPushes (ops : NonUnitOps U B) (b : B) : List (VolumeSortedBrick U B) :=
  if 0 < ops.length b ∧ 0 < ops.width b ∧ 0 < ops.height b then
    ⟨Brick.nonUnit b⟩ ::
      (if ops.length b ≠ ops.width b then [⟨Brick.nonUnit (ops.rotate90 b)⟩] else [])
  else []

/-- Fold step of the bricks_by_type fold in Mosaic::reduce_bricks: an entry is
created for the brick's unit-brick type, and when the brick has positive
dimensions the brick is pushed, followed by its 90-degree rotation when it is
not square. -/
def addBrickToPartitions [DecidableEq U] (ops : NonUnitOps U B)
    (m : List (U × List (VolumeSortedBrick U B))) (b : B) :
    List (U × List (VolumeSortedBrick U B)) :=
  assocAppend m (ops.unitBrick b) (brickPushes ops b)

/-- The bricks_by_type map computed at the start of Mosaic::reduce_bricks:
catalog bricks partitioned by unit-brick type, the unit brick appended to every
partition, and every partition sorted by descending volume. -/
def bricksByType [DecidableEq U] (ops : NonUnitOps U B) (bricks : List B) :
    List (U × List (VolumeSortedBrick U B)) :=
  (bricks.foldl (addBrickToPartitions ops) []).map fun e =>
    (e.1, sortBricksByVolume ops (e.2 ++ [⟨Brick.unit e.1⟩]))

/-- The bricks_by_height filter in Mosaic::reduce_bricks: a non-unit candidate
is dropped when some exclusion entry has the chunk's color and is a rotation of
the candidate; unit candidates are always kept. -/
def filterExclusions [DecidableEq C] (ops : NonUnitOps U B)
    (exclusions : List (B × C)) (chunkColor : C)
    (bs : List (VolumeSortedBrick U B)) : List (VolumeSortedBrick U B) :=
  bs.filter fun vb =>
    match vb.brick with
    | .nonUnit nb =>
        !(exclusions.any fun e => decide (chunkColor = e.2) && ops.isRotationOf e.1 nb)
    | .unit _ => true

/-- State of the packing loops in Chunk::reduce_bricks: the mutable
ws_included_by_h grid of still-empty cells (outer index h, inner index l, set
of included w) together with the bricks vector accumulated so far. -/
structure PackState (U B : Type) where
  grid : List (List (Finset ℕ))
  bricks : List (ChunkPlacedBrick U B)
  deriving DecidableEq

/-- Chunk::fits_layer from src/lib.rs: the brick footprint lies inside the
layer and every cell the brick would occupy is still empty (the count of
included w values in the window w..w+width is not below width). -/
def Chunk.fitsLayer (l w length width : ℕ) (wsIncludedByL : List (Finset ℕ)) : Bool :=
  let maxL := l + length
  let maxW := w + width
  if wsIncludedByL.length < maxL then false
  else (List.range' l length).all fun testL =>
    decide (width ≤ ((wsIncludedByL.getD testL ∅).filter fun x => w ≤ x ∧ x < maxW).card)

/-- Chunk::fits from src/lib.rs, including its u8 overflow guards. -/
def Chunk.fits (l w h length width height : ℕ)
    (wsIncludedByH : List (List (Finset ℕ))) : Bool :=
  if 255 - height < h ∨ 255 - length < l ∨ 255 - width < w then false
  else
    let maxH := h + height
    if wsIncludedByH.length < maxH then false
    else (List.range' h height).all fun testH =>
      Chunk.fitsLayer l w length width (wsIncludedByH.getD testH [])

/-- Chunk::remove_brick_layer from src/lib.rs: in the rows l..l+length that
exist, every included w value inside the window w..w+width is removed. -/
def Chunk.removeBrickLayer (l w length width : ℕ)
    (wsIncludedByL : List (Finset ℕ)) : List (Finset ℕ) :=
  let maxW := w + width
  wsIncludedByL.mapIdx fun i s =>
    if l ≤ i ∧ i < l + length then s.filter fun x => ¬(w ≤ x ∧ x < maxW) else s

/-- Chunk::remove_brick from src/lib.rs: remove_brick_layer applied to the
layers h..h+height. -/
def Chunk.removeBrick (l w h length width height : ℕ)
    (wsIncludedByH : List (List (Finset ℕ))) : List (List (Finset ℕ)) :=
  wsIncludedByH.mapIdx fun i layer =>
    if h ≤ i ∧ i < h + height then Chunk.removeBrickLayer l w length width layer
    else layer

/-- Body of one candidate trial in the inner for-size loop of
Chunk::reduce_bricks: when the size fits at the seed cell (l, w, h) against
the current grid, its cells are removed from the grid and the brick is pushed
onto the bricks vector; otherwise the state is unchanged. -/
def packPlace (ops : NonUnitOps U B) (sz : VolumeSortedBrick U B)
    (l w h : ℕ) (st : PackState U B) : PackState U B :=
  if Chunk.fits l w h (sz.brick.length ops) (sz.brick.width ops)
      (sz.brick.height ops) st.grid then
    { grid := Chunk.removeBrick l w h (sz.brick.length ops)
        (sz.brick.width ops) (sz.brick.height ops) st.grid,
      bricks := st.bricks ++ [⟨l, w, h, sz.brick⟩] }
  else st

/-- Body of the inner for-size loop in Chunk::reduce_bricks: every candidate
size is tried in order against the current grid, and each one that fits is
removed from the grid and pushed onto the bricks vector at seed cell
(l, w, h). -/
def placeSizes (ops : NonUnitOps U B) (sizes : List (VolumeSortedBrick U B))
    (l w h : ℕ) (st : PackState U B) : PackState U B :=
  sizes.foldl (fun acc size => packPlace ops size l w h acc) st

/-- While loop of Chunk::reduce_bricks at one (h, l) position: while the cell
set is non-empty, its least element w is taken and every candidate size is
tried at (l, w, h).  The Rust loop has no fuel; the fuel passed at the call
site dominates its variant whenever the unit brick is among the sizes. -/
def packCellLoop (ops : NonUnitOps U B) (sizes : List (VolumeSortedBrick U B))
    (h l : ℕ) : ℕ → PackState U B → PackState U B
  | 0, st => st
  | fuel + 1, st =>
    let ws := (st.grid.getD h []).getD l ∅
    if hne : ws.Nonempty then
      packCellLoop ops sizes h l fuel (placeSizes ops sizes l (ws.min' hne) h st)
    else st

/-- Total number of still-empty cells recorded in a packing grid. -/
def PackState.totalCells (st : PackState U B) : ℕ :=
  (st.grid.map fun row => (row.map Finset.card).sum).sum

/-- Chunk::reduce_bricks from src/lib.rs: the grid starts as height copies of
the chunk's column sets, the h and l loops run the packing loop at every
position, and the chunk is rebuilt with the accumulated bricks and all other
fields unchanged. -/
def Chunk.reduceBricks (ops : NonUnitOps U B) (chunk : Chunk U B C)
    (sizes : List (VolumeSortedBrick U B)) : Chunk U B C :=
  let st0 : PackState U B :=
    { grid := (List.range chunk.height).map fun _ => chunk.wsIncluded, bricks := [] }
  let final :=
    (List.range chunk.height).foldl
      (fun st h =>
        (List.range chunk.length).foldl
          (fun st l => packCellLoop ops sizes h l (st.totalCells + 1) st) st)
      st0
  { chunk with bricks := final.bricks }

/-- Per-chunk branch of Mosaic::reduce_bricks: when the chunk's unit brick has
an entry in bricks_by_type the chunk is reduced with the exclusion-filtered
candidate list, otherwise it is passed through unchanged. -/
def reduceChunk [DecidableEq U] [DecidableEq C] (ops : NonUnitOps U B)
    (byType : List (U × List (VolumeSortedBrick U B))) (exclusions : List (B × C))
    (chunk : Chunk U B C) : Chunk U B C :=
  match assocLookup byType chunk.unitBrick with
  | some bs => chunk.reduceBricks ops (filterExclusions ops exclusions chunk.color bs)
  | none => chunk

/-- Mosaic::reduce_bricks from src/lib.rs. -/
def Mosaic.reduceBricks [DecidableEq U] [DecidableEq C] (ops : NonUnitOps U B)
    (m : Mosaic U B C) (bricks : List B) (exclusions : List (B × C)) :
    Except MosaicError (Mosaic U B C) :=
  let byType := bricksByType ops bricks
  let sections := m.sections.map fun s =>
    { s with chunks := s.chunks.map (reduceChunk ops byType exclusions) }
  Except.ok (Mosaic.new sections m.length m.width)

/-- TestBrick from the repository's test module in src/lib.rs: the concrete
NonUnitBrick implementation used to exercise the library. -/
structure TestBrick where
  id : String
  rotationCount : ℕ
  length : ℕ
  width : ℕ
  height : ℕ
  unitBrick : ℕ
  deriving DecidableEq, Repr

/-- NonUnitBrick implementation for TestBrick from src/lib.rs tests:
rotate_90 swaps length and width and bumps the rotation count mod 4;
is_rotation_of compares id and unit brick only, ignoring orientation. -/
def testOps : NonUnitOps ℕ TestBrick where
  length b := b.length
  width b := b.width
  height b := b.height
  unitBrick b := b.unitBrick
  rotate90 b :=
    { id := b.id, rotationCount := (b.rotationCount + 1) % 4, length := b.width,
      width := b.length, height := b.height, unitBrick := b.unitBrick }
  isRotationOf a b := decide (a.id = b.id) && decide (a.unitBrick = b.unitBrick)

/-- Lexicographic order on coordinate pairs, matching the Ord instance of
Rust tuples used by BTreeSet of (u8, u8). -/
def pairLe (a b : ℕ × ℕ) : Prop := a.1 < b.1 ∨ (a.1 = b.1 ∧ a.2 ≤ b.2)

instance : DecidableRel pairLe := fun a b => by unfold pairLe; infer_instance

instance : IsTrans (ℕ × ℕ) pairLe :=
  ⟨fun a b c hab hbc => by unfold pairLe at *; omega⟩

instance : IsAntisymm (ℕ × ℕ) pairLe :=
  ⟨fun a b hab hba => by
    cases a; cases b
    unfold pairLe at *
    simp only [Prod.mk.injEq]
    omega⟩

instance : IsTotal (ℕ × ℕ) pairLe := ⟨fun a b => by unfold pairLe; omega⟩

/-- Iteration order of a BTreeSet of coordinate pairs: ascending lexicographic,
realised by filtering the lexicographic enumeration up to the coordinate
maxima by membership in the set. -/
def sortedPairs (s : Finset (ℕ × ℕ)) : List (ℕ × ℕ) :=
  ((List.range (s.sup (fun p => p.1) + 1)).flatMap fun l =>
    (List.range (s.sup (fun p => p.2) + 1)).map fun w => (l, w)).filter
    fun p => p ∈ s

/-- Loop state of the run-length scan in Mosaic::slice_chunk: last is the
previously seen column set and height the length of the current run; a run
length is emitted whenever the column set changes, and the final run is
emitted when positive. -/
def runLengthsGo {α : Type} [DecidableEq α] (last : α) (height : ℕ) :
    List α → List ℕ
  | [] => if 0 < height then [height] else []
  | c :: rest =>
    if last ≠ c then height :: runLengthsGo c 1 rest
    else runLengthsGo last (height + 1) rest

/-- Per-slice ws_included construction in Mosaic::slice_chunk: a vector of
chunk_length sets, where the set at relative column l - min_l holds the
relative values w - min_w of the slice's own coordinates. -/
def sliceWs (chunkLength minL minW : ℕ) (coords : Finset (ℕ × ℕ)) :
    List (Finset ℕ) :=
  (List.range chunkLength).map fun relL =>
    (coords.filter fun p => p.1 - minL = relL).image fun p => p.2 - minW

/-- Per-slice bricks construction in Mosaic::slice_chunk: for every coordinate
of the slice in BTreeSet order, one unit brick per relative height. -/
def sliceBricks (u : U) (minL minW height : ℕ) (coords : Finset (ℕ × ℕ)) :
    List (ChunkPlacedBrick U B) :=
  (sortedPairs coords).flatMap fun p =>
    (List.range height).map fun relH =>
      { l := p.1 - minL, w := p.2 - minW, h := relH, brick := Brick.unit u }

/-- One output slice of Mosaic::slice_chunk: it reuses the whole region's
bounding box (min_l, min_w and the extents from the region's min and max), and
its column sets and unit bricks come from the region's coordinates at its own
start height. -/
def mkSlice (unitBrick : U) (color : C)
    (coordsInChunk : List (ℕ × Finset (ℕ × ℕ)))
    (minL maxL minW maxW : ℕ) (sliceH height : ℕ) : Chunk U B C :=
  { unitBrick := unitBrick, color := color, l := minL, w := minW,
    h := sliceH, length := maxL - minL + 1, width := maxW - minW + 1,
    height := height,
    wsIncluded := sliceWs (maxL - minL + 1) minL minW
      ((assocLookup coordsInChunk sliceH).getD ∅),
    bricks := sliceBricks unitBrick minL minW height
      ((assocLookup coordsInChunk sliceH).getD ∅) }

/-- Mosaic::slice_chunk from src/lib.rs: the fully-explored region's
coordinates, grouped by height in a key-sorted association list, are cut into
slices at every height where the column set changes; every slice reuses the
whole region's bounding box and carries its own column sets and unit bricks. -/
def sliceChunk (unitBrick : U) (color : C)
    (coordsInChunk : List (ℕ × Finset (ℕ × ℕ)))
    (minL maxL minW maxW minH : ℕ) : List (Chunk U B C) :=
  match coordsInChunk with
  | [] => []
  | (_, s0) :: restPairs =>
    let heights := runLengthsGo s0 1 (restPairs.map Prod.snd)
    (heights.foldl
      (fun (acc : ℕ × List (Chunk U B C)) height =>
        (acc.1 + height,
         acc.2 ++ [mkSlice unitBrick color coordsInChunk minL maxL minW maxW acc.1 height]))
      (minH, [])).2

/-- Partial sums of a list of run lengths: the start positions of the runs. -/
def partialSums (s : ℕ) : List ℕ → List ℕ
  | [] => []
  | h :: t => s :: partialSums (s + h) t

/-- Sorted-key insertion into the coords_in_chunk BTreeMap of
Mosaic::build_chunks: entry(h).or_insert_with(BTreeSet::new).insert((l, w)). -/
def mapInsert : List (ℕ × Finset (ℕ × ℕ)) → ℕ → ℕ × ℕ →
    List (ℕ × Finset (ℕ × ℕ))
  | [], h, p => [(h, {p})]
  | (k, s) :: rest, h, p =>
    if h < k then (h, {p}) :: (k, s) :: rest
    else if h = k then (k, insert p s) :: rest
    else (k, s) :: mapInsert rest h p

/-- State of the breadth-first search in Mosaic::build_chunks.  The brick
callback is a state-passing function (the Rust closure is FnMut), so its
state is carried here; visited models the BoolVec bitset as the set of
coordinates whose flat index holds true. -/
structure BfsState (τ : Type) where
  brickSt : τ
  visited : Finset (ℕ × ℕ × ℕ)
  queue : List (ℕ × ℕ × ℕ)
  coords : List (ℕ × Finset (ℕ × ℕ))
  minL : ℕ
  maxL : ℕ
  minW : ℕ
  maxW : ℕ
  minH : ℕ

/-- Function is_new_pos from src/lib.rs: a neighbor is admitted when it is
unvisited, its brick (queried with the seed's color, as in the source) equals
the seed's brick, and its color equals the seed's color; the brick callback is
not invoked when the position was already visited, mirroring the Rust
short-circuit. -/
def isNewPos {τ : Type} [DecidableEq U] [DecidableEq C]
    (brickFn : τ → ℕ → ℕ → ℕ → C → τ × U) (colorFn : ℕ → ℕ → C)
    (visited : Finset (ℕ × ℕ × ℕ)) (l w h : ℕ)
    (startBrick : U) (startColor : C) (t : τ) : τ × Bool :=
  if (l, w, h) ∈ visited then (t, false)
  else
    let r := brickFn t l w h startColor
    (r.1, decide (r.2 = startBrick) && decide (colorFn l w = startColor))

/-- While loop of the breadth-first search in Mosaic::build_chunks.  Each
popped coordinate that is not yet visited is marked visited, recorded in the
coords map and the bounding box, and its six neighbors are enqueued in the
source order (west, east, south, north, below, above) when their guards and
is_new_pos admit them.  The fuel passed at the call site dominates the loop
variant 7 * (unvisited domain size) + queue length. -/
def bfsLoop {τ : Type} [DecidableEq U] [DecidableEq C]
    (heightFn : ℕ → ℕ → ℕ) (brickFn : τ → ℕ → ℕ → ℕ → C → τ × U)
    (colorFn : ℕ → ℕ → C) (length width : ℕ)
    (startBrick : U) (startColor : C) : ℕ → BfsState τ → BfsState τ
  | 0, st => st
  | fuel + 1, st =>
    match st.queue with
    | [] => st
    | (l, w, h) :: rest =>
      let height := heightFn l w
      if (l, w, h) ∈ st.visited then
        bfsLoop heightFn brickFn colorFn length width startBrick startColor fuel
          { st with queue := rest }
      else
        let visited := insert (l, w, h) st.visited
        let r1 :=
          if 0 < l ∧ h < heightFn (l - 1) w then
            isNewPos brickFn colorFn visited (l - 1) w h startBrick startColor st.brickSt
          else (st.brickSt, false)
        let r2 :=
          if l < length - 1 ∧ h < heightFn (l + 1) w then
            isNewPos brickFn colorFn visited (l + 1) w h startBrick startColor r1.1
          else (r1.1, false)
        let r3 :=
          if 0 < w ∧ h < heightFn l (w - 1) then
            isNewPos brickFn colorFn visited l (w - 1) h startBrick startColor r2.1
          else (r2.1, false)
        let r4 :=
          if w < width - 1 ∧ h < heightFn l (w + 1) then
            isNewPos brickFn colorFn visited l (w + 1) h startBrick startColor r3.1
          else (r3.1, false)
        let r5 :=
          if 0 < h then
            isNewPos brickFn colorFn visited l w (h - 1) startBrick startColor r4.1
          else (r4.1, false)
        let r6 :=
          if h < height - 1 then
            isNewPos brickFn colorFn visited l w (h + 1) startBrick startColor r5.1
          else (r5.1, false)
        bfsLoop heightFn brickFn colorFn length width startBrick startColor fuel
          { brickSt := r6.1,
            visited := visited,
            queue := rest ++
              (if r1.2 then [(l - 1, w, h)] else []) ++
              (if r2.2 then [(l + 1, w, h)] else []) ++
              (if r3.2 then [(l, w - 1, h)] else []) ++
              (if r4.2 then [(l, w + 1, h)] else []) ++
              (if r5.2 then [(l, w, h - 1)] else []) ++
              (if r6.2 then [(l, w, h + 1)] else []),
            coords := mapInsert st.coords h (l, w),
            minL := min st.minL l,
            maxL := max st.maxL l,
            minW := min st.minW w,
            maxW := max st.maxW w,
            minH := min st.minH h }

/-- Accumulated state of the seed loops of Mosaic::build_chunks. -/
structure BuildState (τ U B C : Type) where
  brickSt : τ
  visited : Finset (ℕ × ℕ × ℕ)
  chunks : List (Chunk U B C)

/-- Body of the seed loops of Mosaic::build_chunks: an unvisited seed has its
color and brick computed, a breadth-first search explores its region, and the
region's slices are appended to the chunk list. -/
def processSeed {τ : Type} [DecidableEq U] [DecidableEq C]
    (heightFn : ℕ → ℕ → ℕ) (brickFn : τ → ℕ → ℕ → ℕ → C → τ × U)
    (colorFn : ℕ → ℕ → C) (length width maxHeight : ℕ)
    (st : BuildState τ U B C) (l w h : ℕ) : BuildState τ U B C :=
  if (l, w, h) ∈ st.visited then st
  else
    let startColor := colorFn l w
    let rb := brickFn st.brickSt l w h startColor
    let bfs := bfsLoop heightFn brickFn colorFn length width rb.2 startColor
      (7 * (length * width * maxHeight) + 1)
      { brickSt := rb.1, visited := st.visited, queue := [(l, w, h)], coords := [],
        minL := l, maxL := l, minW := w, maxW := w, minH := h }
    { brickSt := bfs.brickSt,
      visited := bfs.visited,
      chunks := st.chunks ++
        sliceChunk rb.2 startColor bfs.coords bfs.minL bfs.maxL bfs.minW bfs.maxW bfs.minH }

/-- Largest usize value on the 64-bit targets the crate addresses. -/
def usizeMax : ℕ := 2 ^ 64 - 1

/-- Size of the visited bitset allocated by Mosaic::build_chunks. -/
def visitedBitsetSize (length width maxHeight : ℕ) : ℕ :=
  length * width * maxHeight

/-- Mosaic::build_chunks from src/lib.rs: after the usize overflow guard, the
seed loops (w outer, l middle, h inner up to the column height) run the
breadth-first search from every unvisited filled voxel and collect the
resulting chunk slices.  The brick callback state is returned alongside the
chunks, which is how a Rust caller observes its FnMut closure afterwards. -/
def buildChunks {τ : Type} [DecidableEq U] [DecidableEq C]
    (length width maxHeight : ℕ) (heightFn : ℕ → ℕ → ℕ)
    (brickFn : τ → ℕ → ℕ → ℕ → C → τ × U) (colorFn : ℕ → ℕ → C) (t0 : τ) :
    Except MosaicError (τ × List (Chunk U B C)) :=
  if 0 < maxHeight ∧ usizeMax / length / width / maxHeight = 0 then
    Except.error MosaicError.pointerTooSmall
  else
    let final :=
      (List.range width).foldl
        (fun st w =>
          (List.range length).foldl
            (fun st l =>
              (List.range (heightFn l w)).foldl
                (fun st h =>
                  processSeed heightFn brickFn colorFn length width maxHeight st l w h)
                st)
            st)
        { brickSt := t0, visited := ∅, chunks := ([] : List (Chunk U B C)) }
    Except.ok (final.brickSt, final.chunks)

/-- Pixels buffer from src/lib.rs: row-major values (w outer, l inner). -/
structure Pixels (T : Type) where
  valuesByRow : List T
  length : ℕ

instance : Inhabited Srgba := ⟨⟨0, 0, 0, 0⟩⟩

/-- Pixels::value from src/lib.rs: the entry at index w * length + l. -/
def Pixels.value {T : Type} [Inhabited T] (p : Pixels T) (l w : ℕ) : T :=
  p.valuesByRow.getD (w * p.length + l) default

/-- Pixels::from_fn from src/lib.rs, with a state-passing callback standing
for the FnMut closure: f is called once per coordinate, w outer, l inner. -/
def Pixels.fromFn {σ T : Type} (f : σ → ℕ → ℕ → σ × T) (length width : ℕ)
    (s : σ) : σ × Pixels T :=
  let r :=
    (List.range width).foldl
      (fun acc w =>
        (List.range length).foldl
          (fun (acc : σ × List T) l =>
            let fr := f acc.1 l w
            (fr.1, acc.2 ++ [fr.2]))
          acc)
      (s, [])
  (r.1, { valuesByRow := r.2, length := length })

/-- Pixels::with_palette from src/lib.rs: nearest is applied to every buffered
raw color in order, a None result becoming the default color. -/
def Pixels.withPalette {σ C : Type} [Inhabited C]
    (nearest : σ → RawColor → σ × Option C) (p : Pixels RawColor) (s : σ) :
    σ × Pixels C :=
  let r :=
    p.valuesByRow.foldl
      (fun (acc : σ × List C) c =>
        let nr := nearest acc.1 c
        (nr.1, acc.2 ++ [nr.2.getD default]))
      (s, [])
  (r.1, { valuesByRow := r.2, length := p.length })

/-- Value of height_map.max().map_or(0, ..) in Mosaic::from_image. -/
def Pixels.maxOrZero (p : Pixels ℕ) : ℕ := (p.valuesByRow.max?).getD 0

/-- Caller-supplied capabilities consumed by Mosaic::from_image, modelled as
state-passing functions over a single caller-owned state: the image pixel
accessor, the palette nearest lookup, and the height and brick callbacks. -/
structure Callbacks (σ C U : Type) where
  pixel : σ → ℕ → ℕ → σ × RawColor
  nearest : σ → RawColor → σ × Option C
  height : σ → ℕ → ℕ → C → σ × ℕ
  brick : σ → ℕ → ℕ → ℕ → C → σ × U

/-- Memoizing brick closure built per height slab in Mosaic::from_image: the
BTreeMap cache keyed by local (l, w, h) is consulted first and the underlying
callback, invoked at global coordinates, is called only on a miss. -/
def memoBrick {σ : Type} [DecidableEq U] (cb : Callbacks σ C U)
    (sectionL sectionW sectionH : ℕ) :
    σ × List ((ℕ × ℕ × ℕ) × U) → ℕ → ℕ → ℕ → C →
      (σ × List ((ℕ × ℕ × ℕ) × U)) × U :=
  fun t l w h color =>
    match assocLookup t.2 (l, w, h) with
    | some u => (t, u)
    | none =>
      let r := cb.brick t.1 (l + sectionL) (w + sectionW) (h + sectionH) color
      ((r.1, t.2 ++ [((l, w, h), r.2)]), r.2)

/-- Section size constant from Mosaic::from_image: u8::MAX. -/
def sectionSize : ℕ := 255

/-- Inner while loop of Mosaic::make_sections: tiles of width at most
section_size covering the image width.  The loop advances by at least one per
iteration, so the fuel passed at the call site (the image width) dominates the
loop variant imageWidth - sectionW. -/
def colsLoop (imageWidth sectionL sectionLength : ℕ) :
    ℕ → ℕ → List (ℕ × ℕ × ℕ × ℕ)
  | 0, _ => []
  | fuel + 1, sectionW =>
    if sectionW < imageWidth then
      let sectionWidth := min sectionSize (imageWidth - sectionW)
      (sectionL, sectionW, sectionLength, sectionWidth) ::
        colsLoop imageWidth sectionL sectionLength fuel (sectionW + sectionWidth)
    else []

/-- Outer while loop of Mosaic::make_sections, with the image length as fuel
dominating the loop variant imageLength - sectionL. -/
def rowsLoop (imageLength imageWidth : ℕ) :
    ℕ → ℕ → List (ℕ × ℕ × ℕ × ℕ)
  | 0, _ => []
  | fuel + 1, sectionL =>
    if sectionL < imageLength then
      let sectionLength := min sectionSize (imageLength - sectionL)
      colsLoop imageWidth sectionL sectionLength imageWidth 0 ++
        rowsLoop imageLength imageWidth fuel (sectionL + sectionLength)
    else []

/-- Mosaic::make_sections from src/lib.rs: raster-order tiles, each with its
global offset and its length and width, every extent at most 255. -/
def makeSections (imageLength imageWidth : ℕ) : List (ℕ × ℕ × ℕ × ℕ) :=
  rowsLoop imageLength imageWidth imageLength 0

/-- Height-slab while loop of Mosaic::from_image: for every slab a fresh brick
cache is created, build_chunks runs on the slab-clamped height function, and
the slab's chunks become a section entry; an error aborts everything.  The
loop advances by at least one per iteration, so the fuel passed at the call
site (the section's maximum height) dominates the variant
maxHeight - sectionH. -/
def slabLoop {σ : Type} [Inhabited C] [DecidableEq U] [DecidableEq C]
    (cb : Callbacks σ C U) (sectionL sectionW sectionLength sectionWidth : ℕ)
    (colors : Pixels C) (heightMap : Pixels ℕ) (maxHeight : ℕ) :
    ℕ → ℕ → σ → σ × Except MosaicError (List (MosaicSection U B C))
  | 0, _, s => (s, .ok [])
  | fuel + 1, sectionH, s =>
    if sectionH < maxHeight then
      let sectionHeight := min sectionSize (maxHeight - sectionH)
      let heightClosure := fun l w =>
        let height := heightMap.value l w
        if sectionH < height then min sectionSize (height - sectionH) else 0
      match buildChunks (U := U) (B := B) (C := C) sectionLength sectionWidth
          sectionHeight heightClosure (memoBrick cb sectionL sectionW sectionH)
          (fun l w => colors.value l w) (s, []) with
      | .error e => (s, .error e)
      | .ok (t2, chunks) =>
        match slabLoop cb sectionL sectionW sectionLength sectionWidth colors
            heightMap maxHeight fuel (sectionH + sectionHeight) t2.1 with
        | (s3, .error e) => (s3, .error e)
        | (s3, .ok secs) =>
          (s3, .ok (⟨sectionL, sectionW, sectionH, chunks⟩ :: secs))
    else (s, .ok [])

/-- Per-section body of Mosaic::from_image followed by the remaining sections:
the raw pixels are buffered (pixel once per coordinate), quantized through the
palette (nearest once per buffered pixel), the height map is buffered (height
once per coordinate), and the slab loop builds the section's chunk lists. -/
def sectionsLoop {σ : Type} [Inhabited C] [DecidableEq U] [DecidableEq C]
    (cb : Callbacks σ C U) :
    List (ℕ × ℕ × ℕ × ℕ) → σ → σ × Except MosaicError (List (MosaicSection U B C))
  | [], s => (s, .ok [])
  | (sectionL, sectionW, sectionLength, sectionWidth) :: rest, s =>
    let pr := Pixels.fromFn
      (fun s l w => cb.pixel s (l + sectionL) (w + sectionW))
      sectionLength sectionWidth s
    let cr := pr.2.withPalette cb.nearest pr.1
    let hr := Pixels.fromFn
      (fun s l w => cb.height s (l + sectionL) (w + sectionW) (cr.2.value l w))
      sectionLength sectionWidth cr.1
    let maxHeight := hr.2.maxOrZero
    match slabLoop (U := U) (B := B) cb sectionL sectionW sectionLength
        sectionWidth cr.2 hr.2 maxHeight maxHeight 0 hr.1 with
    | (s2, .error e) => (s2, .error e)
    | (s2, .ok secs) =>
      match sectionsLoop cb rest s2 with
      | (s3, .error e) => (s3, .error e)
      | (s3, .ok secsRest) => (s3, .ok (secs ++ secsRest))

/-- Mosaic::from_image from src/lib.rs, returning the final callback state
alongside the result, which is how a Rust caller observes its FnMut closures
after the call. -/
def fromImage {σ : Type} [Inhabited C] [DecidableEq U] [DecidableEq C]
    (cb : Callbacks σ C U) (imageLength imageWidth : ℕ) (s0 : σ) :
    σ × Except MosaicError (Mosaic U B C) :=
  match sectionsLoop (U := U) (B := B) cb (makeSections imageLength imageWidth) s0 with
  | (s, .error e) => (s, .error e)
  | (s, .ok secs) => (s, .ok (Mosaic.new secs imageLength imageWidth))

/-- Stateless callbacks built from pure functions: the instantiation used to
state properties of from_image for ordinary mathematical callbacks. -/
def pureCallbacks (pixelF : ℕ → ℕ → RawColor) (nearestF : RawColor → Option C)
    (heightF : ℕ → ℕ → C → ℕ) (brickF : ℕ → ℕ → ℕ → C → U) :
    Callbacks Unit C U :=
  { pixel := fun s l w => (s, pixelF l w),
    nearest := fun s c => (s, nearestF c),
    height := fun s l w c => (s, heightF l w c),
    brick := fun s l w h c => (s, brickF l w h c) }

/-- Call log for observing how often from_image invokes each callback. -/
structure CallLog where
  pixelCalls : List (ℕ × ℕ)
  nearestCalls : ℕ
  heightCalls : List (ℕ × ℕ)
  brickCalls : List (ℕ × ℕ × ℕ)
  deriving DecidableEq, Repr

/-- Callbacks that compute with the given pure functions while recording every
invocation and its global coordinates in the call log. -/
def loggedCallbacks (pixelF : ℕ → ℕ → RawColor) (nearestF : RawColor → Option C)
    (heightF : ℕ → ℕ → C → ℕ) (brickF : ℕ → ℕ → ℕ → C → U) :
    Callbacks CallLog C U :=
  { pixel := fun s l w => ({ s with pixelCalls := s.pixelCalls ++ [(l, w)] }, pixelF l w),
    nearest := fun s c => ({ s with nearestCalls := s.nearestCalls + 1 }, nearestF c),
    height := fun s l w c => ({ s with heightCalls := s.heightCalls ++ [(l, w)] }, heightF l w c),
    brick := fun s l w h c =>
      ({ s with brickCalls := s.brickCalls ++ [(l, w, h)] }, brickF l w h c) }

/-- Global (l, w) coordinates of one section tile, in the raster order
(w outer, l inner) that Pixels::from_fn uses in Mosaic::from_image. -/
def tileCoords (sL sW len wid : ℕ) : List (ℕ × ℕ) :=
  (List.range wid).flatMap fun w => (List.range len).map fun l => (l + sL, w + sW)

/-- Volume of one placed brick, as length times width times height. -/
def brickVolume (ops : NonUnitOps U B) (b : ChunkPlacedBrick U B) : ℕ :=
  b.brick.length ops * b.brick.width ops * b.brick.height ops

/-- Total voxel volume of a chunk's brick list. -/
def chunkVolume (ops : NonUnitOps U B) (c : Chunk U B C) : ℕ :=
  (c.bricks.map (brickVolume ops)).sum

/-- Number of footprint cells of a chunk: the summed sizes of its column sets. -/
def colsCells (c : Chunk U B C) : ℕ := (c.wsIncluded.map Finset.card).sum

/-- Well-formedness invariant of chunks as produced by Mosaic::from_image and
preserved by Mosaic::reduce_bricks: positive u8-ranged dimensions, the column
vector not longer than the length, column entries below 255, and the brick
list carrying exactly height times the footprint cells of volume. -/
def ChunkWF (ops : NonUnitOps U B) (c : Chunk U B C) : Prop :=
  chunkVolume ops c = c.height * colsCells c ∧
    0 < c.length ∧ 0 < c.width ∧ 0 < c.height ∧
    c.length ≤ 255 ∧ c.height ≤ 255 ∧
    c.wsIncluded.length ≤ c.length ∧
    ∀ s ∈ c.wsIncluded, ∀ x ∈ s, x < 255

instance (ops : NonUnitOps U B) (c : Chunk U B C) : Decidable (ChunkWF ops c) := by
  unfold ChunkWF
  infer_instance

/-- Set of still-empty cells (h, l, w) recorded in a packing grid. -/
def gridCells (grid : List (List (Finset ℕ))) : Finset (ℕ × ℕ × ℕ) :=
  (Finset.range grid.length).biUnion fun h =>
    (Finset.range (grid.getD h []).length).biUnion fun l =>
      ((grid.getD h []).getD l ∅).image fun w => (h, l, w)

/-- Voxel volume [l, l+length) x [w, w+width) x [h, h+height) occupied by a
placed brick. -/
def pbCells (ops : NonUnitOps U B) (pb : PlacedBrick U B C) :
    Finset (ℕ × ℕ × ℕ) :=
  Finset.Ico pb.l (pb.l + pb.brick.length ops) ×ˢ
    (Finset.Ico pb.w (pb.w + pb.brick.width ops) ×ˢ
      Finset.Ico pb.h (pb.h + pb.brick.height ops))

/-- Voxels recorded in a coords_in_chunk map: each key height paired with each
of its column coordinates. -/
def mapCells (m : List (ℕ × Finset (ℕ × ℕ))) : Finset (ℕ × ℕ × ℕ) :=
  m.foldr (fun e acc => (e.2.image fun p => (p.1, p.2, e.1)) ∪ acc) ∅

/-- Domain explored by Mosaic::build_chunks: every position whose height index
lies below the column height reported by the height function. -/
def bfsDomain (length width : ℕ) (heightFn : ℕ → ℕ → ℕ) :
    Finset (ℕ × ℕ × ℕ) :=
  (Finset.range length).biUnion fun l =>
    (Finset.range width).biUnion fun w =>
      (Finset.range (heightFn l w)).image fun h => (l, w, h)

/-- Section-local cells occupied by a chunk's bricks, each brick placed at its
chunk-relative coordinates translated by the chunk offset. -/
def chunkCells (c : Chunk U B C) : List (ℕ × ℕ × ℕ) :=
  c.bricks.map fun b => (c.l + b.l, c.w + b.w, c.h + b.h)

/-- Global cells occupied by a section's chunks' bricks. -/
def sectionCells (sec : MosaicSection U B C) : List (ℕ × ℕ × ℕ) :=
  (sec.chunks.flatMap fun c => chunkCells c).map fun v =>
    (sec.l + v.1, sec.w + v.2.1, sec.h + v.2.2)

/-- Invariant of the breadth-first search loop state relative to the visited
set v₀ at region start: queue entries lie in the explored domain, the visited
set is v₀ plus exactly the recorded coords cells, the recorded keys form a
contiguous ascending interval starting at the tracked minimum height, queue
entries stay within one of the key interval, and recorded cells lie at or
above the tracked minimum l and w. -/
def BfsInv {τ : Type} (length width : ℕ) (heightFn : ℕ → ℕ → ℕ)
    (v₀ : Finset (ℕ × ℕ × ℕ)) (st : BfsState τ) : Prop :=
  (∀ q ∈ st.queue, q ∈ bfsDomain length width heightFn) ∧
  st.visited = v₀ ∪ mapCells st.coords ∧
  Disjoint v₀ (mapCells st.coords) ∧
  st.coords.map Prod.fst = List.range' st.minH st.coords.length ∧
  (∀ q ∈ st.queue, st.minH ≤ q.2.2 + 1 ∧ q.2.2 ≤ st.minH + st.coords.length) ∧
  (∀ v ∈ mapCells st.coords, st.minL ≤ v.1 ∧ st.minW ≤ v.2.1) ∧
  (∀ v ∈ mapCells st.coords, v ∈ bfsDomain length width heightFn)

/-- Invariant of the seed loops of Mosaic::build_chunks: the chunks' brick
cells are pairwise distinct and coincide exactly with the visited set, the
visited set stays inside the explored domain, every chunk has positive
dimensions, and every recorded brick is a unit brick. -/
def BuildInv {τ : Type} (length width : ℕ) (heightFn : ℕ → ℕ → ℕ)
    (st : BuildState τ U B C) : Prop :=
  (st.chunks.flatMap chunkCells).Nodup ∧
  (∀ v : ℕ × ℕ × ℕ, v ∈ st.chunks.flatMap chunkCells ↔ v ∈ st.visited) ∧
  (∀ v ∈ st.visited, v ∈ bfsDomain length width heightFn) ∧
  (∀ c ∈ st.chunks, 0 < c.length ∧ 0 < c.width ∧ 0 < c.height) ∧
  (∀ c ∈ st.chunks, ∀ b ∈ c.bricks, ∃ u2 : U, b.brick = Brick.unit u2)

/-- Tail of the specification-side boundary list: the heights, counted from h
onward, at which the column set differs from the set one height below. -/
def changeBoundariesGo {α : Type} [DecidableEq α] (prev : α) (h : ℕ) :
    List α → List ℕ
  | [] => []
  | v :: vs =>
    if v ≠ prev then h :: changeBoundariesGo v (h + 1) vs
    else changeBoundariesGo prev (h + 1) vs

/-- Specification-side description of where new chunks begin when a region is
height-sliced: at the minimum height, and exactly at each height whose column
set differs from the previous height's. -/
def changeBoundaries {α : Type} [DecidableEq α] (minH : ℕ) : List α → List ℕ
  | [] => []
  | v :: vs => minH :: changeBoundariesGo v (minH + 1) vs

/-- TestBrick constant TWO_BY_ONE_PLATE from the src/lib.rs tests. -/
def twoByOnePlate : TestBrick :=
  { id := "2x1x1", rotationCount := 0, length := 2, width := 1, height := 1,
    unitBrick := 0 }

/-- Rotated orientation of TWO_BY_ONE_PLATE. -/
def oneByTwoVariant : TestBrick := testOps.rotate90 twoByOnePlate

/-- TestBrick constant TWO_BY_TWO_PLATE from the src/lib.rs tests. -/
def twoByTwoPlate : TestBrick :=
  { id := "2x2x1", rotationCount := 0, length := 2, width := 2, height := 1,
    unitBrick := 0 }

/-- Test shape of footprint 1 x 1 and height 2, compatible with unit brick 0. -/
def oneOneTwoBrick : TestBrick :=
  { id := "1x1x2", rotationCount := 0, length := 1, width := 1, height := 2,
    unitBrick := 0 }

/-- Concrete 2 x 2 x 2 full chunk used as a test input. -/
def testChunk222 : Chunk ℕ TestBrick ℕ :=
  { unitBrick := 0, color := 7, l := 0, w := 0, h := 0, length := 2, width := 2,
    height := 2, wsIncluded := [{0, 1}, {0, 1}],
    bricks :=
      [⟨0, 0, 0, Brick.unit 0⟩, ⟨0, 1, 0, Brick.unit 0⟩,
       ⟨1, 0, 0, Brick.unit 0⟩, ⟨1, 1, 0, Brick.unit 0⟩,
       ⟨0, 0, 1, Brick.unit 0⟩, ⟨0, 1, 1, Brick.unit 0⟩,
       ⟨1, 0, 1, Brick.unit 0⟩, ⟨1, 1, 1, Brick.unit 0⟩] }

/-- Concrete chunk with a zero length. -/
def zeroLengthChunk : Chunk ℕ TestBrick ℕ :=
  { unitBrick := 0, color := 3, l := 0, w := 0, h := 0, length := 0, width := 1,
    height := 1, wsIncluded := [], bricks := [] }

/-- Concrete 1 x 1 x 1 chunk with all dimensions positive. -/
def unitCubeChunk : Chunk ℕ TestBrick ℕ :=
  { unitBrick := 0, color := 4, l := 0, w := 0, h := 0, length := 1, width := 1,
    height := 1, wsIncluded := [{0}], bricks := [⟨0, 0, 0, Brick.unit 0⟩] }

/-- Concrete chunk whose unit brick matches no catalog entry in the tests. -/
def foreignChunk : Chunk ℕ TestBrick ℕ :=
  { unitBrick := 9, color := 2, l := 0, w := 0, h := 0, length := 1, width := 1,
    height := 1, wsIncluded := [{0}], bricks := [⟨0, 0, 0, Brick.unit 9⟩] }

/-- Concrete one-section mosaic holding the unit cube chunk and the foreign
chunk. -/
def testMosaic : Mosaic ℕ TestBrick ℕ :=
  { sections := [⟨0, 0, 0, [unitCubeChunk, foreignChunk]⟩], length := 1, width := 1 }

/-- Voxel box occupied by a brick of the given dimensions placed at (l, w, h),
in the (h, l, w) coordinate order of the packing grid. -/
def brickBox (l w h length width height : ℕ) : Finset (ℕ × ℕ × ℕ) :=
  Finset.Ico h (h + height) ×ˢ (Finset.Ico l (l + length) ×ˢ Finset.Ico w (w + width))

/-- Total volume of the bricks accumulated in a packing state. -/
def packVolume (ops : NonUnitOps U B) (st : PackState U B) : ℕ :=
  (st.bricks.map (brickVolume ops)).sum

/-- Pointwise refinement of packing grids: same shape, and every cell set of
the left grid contained in the corresponding cell set of the right grid. -/
def gridLe (g' g : List (List (Finset ℕ))) : Prop :=
  g'.length = g.length ∧
    (∀ i, (g'.getD i []).length = (g.getD i []).length) ∧
    ∀ i j, (g'.getD i []).getD j ∅ ⊆ (g.getD i []).getD j ∅

/-- All cell entries of a packing grid lie below 255. -/
def gridBounded (g : List (List (Finset ℕ))) : Prop :=
  ∀ i j x, x ∈ (g.getD i []).getD j ∅ → x < 255

/-!  Theorems.  Supporting lemmas come first, followed by the claim theorems,
their counterexamples and their witnesses. -/

theorem mem_stableInsert {α : Type} (le : α → α → Bool) (x a : α) (l : List α) :
    a ∈ stableInsert le x l ↔ a = x ∨ a ∈ l := by
  induction l with
  | nil => simp [stableInsert]
  | cons y ys ih =>
    simp only [stableInsert]
    by_cases hxy : le x y
    · rw [if_pos hxy]
      simp [List.mem_cons]
    · rw [if_neg hxy]
      simp only [List.mem_cons, ih]
      tauto

theorem mem_stableSort {α : Type} (le : α → α → Bool) (a : α) (l : List α) :
    a ∈ stableSort le l ↔ a ∈ l := by
  induction l with
  | nil => simp [stableSort]
  | cons y ys ih => simp [stableSort, mem_stableInsert, ih]

theorem sorted_stableInsert {α : Type} (le : α → α → Bool)
    (htot : ∀ a b, le a b = true ∨ le b a = true)
    (htrans : ∀ a b c, le a b = true → le b c = true → le a c = true)
    (x : α) (l : List α) (hl : l.Pairwise fun a b => le a b = true) :
    (stableInsert le x l).Pairwise fun a b => le a b = true := by
  induction l with
  | nil => simp [stableInsert]
  | cons y ys ih =>
    rcases List.pairwise_cons.mp hl with ⟨hy, hys⟩
    simp only [stableInsert]
    by_cases hxy : le x y
    · rw [if_pos hxy]
      refine List.pairwise_cons.mpr ⟨?_, hl⟩
      intro b hb
      rcases List.mem_cons.mp hb with rfl | hb
      · exact hxy
      · exact htrans x y b hxy (hy b hb)
    · rw [if_neg hxy]
      have hyx : le y x = true := (htot x y).resolve_left hxy
      refine List.pairwise_cons.mpr ⟨?_, ih hys⟩
      intro b hb
      rcases (mem_stableInsert le x b ys).mp hb with rfl | hb
      · exact hyx
      · exact hy b hb

theorem sorted_stableSort {α : Type} (le : α → α → Bool)
    (htot : ∀ a b, le a b = true ∨ le b a = true)
    (htrans : ∀ a b c, le a b = true → le b c = true → le a c = true)
    (l : List α) : (stableSort le l).Pairwise fun a b => le a b = true := by
  induction l with
  | nil => simp [stableSort]
  | cons y ys ih => exact sorted_stableInsert le htot htrans y _ ih

theorem mem_sortBricksByVolume (ops : NonUnitOps U B)
    (bs : List (VolumeSortedBrick U B)) (vb : VolumeSortedBrick U B) :
    vb ∈ sortBricksByVolume ops bs ↔ vb ∈ bs :=
  mem_stableSort _ vb bs

theorem sorted_sortBricksByVolume (ops : NonUnitOps U B)
    (bs : List (VolumeSortedBrick U B)) :
    (sortBricksByVolume ops bs).Pairwise fun a b => b.volume ops ≤ a.volume ops := by
  have h := sorted_stableSort
    (fun b1 b2 : VolumeSortedBrick U B => decide (b2.volume ops ≤ b1.volume ops))
    (fun a b => by
      rcases le_total (b.volume ops) (a.volume ops) with h | h
      · exact Or.inl (by simpa using h)
      · exact Or.inr (by simpa using h))
    (fun a b c hab hbc => by
      simp only [decide_eq_true_eq] at *
      omega)
    bs
  exact h.imp fun hab => by simpa using hab

theorem assocLookup_assocAppend [DecidableEq U]
    (m : List (U × List (VolumeSortedBrick U B))) (k q : U)
    (vs : List (VolumeSortedBrick U B)) :
    assocLookup (assocAppend m k vs) q =
      if q = k then some ((assocLookup m k).getD [] ++ vs)
      else assocLookup m q := by
  induction m with
  | nil =>
    by_cases h : q = k <;> simp [assocAppend, assocLookup, h]
  | cons e rest ih =>
    obtain ⟨k0, vs0⟩ := e
    simp only [assocAppend]
    by_cases hk : k = k0
    · subst hk
      by_cases hq : q = k <;> simp [assocLookup, hq]
    · rw [if_neg hk]
      by_cases hq : q = k0
      · have hk0 : ¬k0 = k := fun h => hk h.symm
        simp [assocLookup, hq, hk0]
      · by_cases hqk : q = k
        · subst hqk
          simp [assocLookup, hk, ih]
        · simp [assocLookup, hq, hqk, ih]

theorem lookup_foldl_addBrick [DecidableEq U] (ops : NonUnitOps U B)
    (catalog : List B) :
    ∀ (acc : List (U × List (VolumeSortedBrick U B))) (u : U),
      (assocLookup (catalog.foldl (addBrickToPartitions ops) acc) u).getD [] =
        (assocLookup acc u).getD [] ++
          catalog.flatMap fun b =>
            if ops.unitBrick b = u then brickPushes ops b else [] := by
  induction catalog with
  | nil => intro acc u; simp
  | cons b rest ih =>
    intro acc u
    simp only [List.foldl_cons, List.flatMap_cons]
    rw [ih]
    unfold addBrickToPartitions
    rw [assocLookup_assocAppend]
    by_cases hu : u = ops.unitBrick b
    · subst hu
      simp [List.append_assoc]
    · have : ¬ops.unitBrick b = u := fun h => hu h.symm
      simp [hu, this]

theorem lookup_foldl_isSome [DecidableEq U] (ops : NonUnitOps U B)
    (catalog : List B) :
    ∀ (acc : List (U × List (VolumeSortedBrick U B))) (u : U),
      (assocLookup (catalog.foldl (addBrickToPartitions ops) acc) u).isSome =
        ((assocLookup acc u).isSome ||
          catalog.any fun b => decide (ops.unitBrick b = u)) := by
  induction catalog with
  | nil => intro acc u; simp
  | cons b rest ih =>
    intro acc u
    simp only [List.foldl_cons, List.any_cons]
    rw [ih]
    unfold addBrickToPartitions
    rw [assocLookup_assocAppend]
    by_cases hu : u = ops.unitBrick b
    · subst hu
      simp
    · have : ¬ops.unitBrick b = u := fun h => hu h.symm
      simp [hu, this, Bool.or_assoc]

theorem assocLookup_bricksByType [DecidableEq U] (ops : NonUnitOps U B)
    (catalog : List B) (u : U) :
    assocLookup (bricksByType ops catalog) u =
      (assocLookup (catalog.foldl (addBrickToPartitions ops) []) u).map
        fun v => sortBricksByVolume ops (v ++ [⟨Brick.unit u⟩]) := by
  unfold bricksByType
  generalize catalog.foldl (addBrickToPartitions ops) [] = m
  induction m with
  | nil => simp [assocLookup]
  | cons e rest ih =>
    obtain ⟨k0, v0⟩ := e
    simp only [List.map_cons, assocLookup]
    by_cases hq : u = k0
    · subst hq
      simp
    · simp [hq, ih]

theorem mem_bricksByType [DecidableEq U] (ops : NonUnitOps U B)
    (catalog : List B) (u : U) (vb : VolumeSortedBrick U B) :
    vb ∈ (assocLookup (bricksByType ops catalog) u).getD [] ↔
      ((vb = ⟨Brick.unit u⟩ ∧ ∃ b ∈ catalog, ops.unitBrick b = u) ∨
        ∃ b ∈ catalog, ops.unitBrick b = u ∧ vb ∈ brickPushes ops b) := by
  rw [assocLookup_bricksByType]
  rcases hlk : assocLookup (catalog.foldl (addBrickToPartitions ops) []) u with _ | v
  · have hsome := lookup_foldl_isSome ops catalog [] u
    rw [hlk] at hsome
    simp only [assocLookup, Option.isSome_none, Bool.false_or] at hsome
    have hnb : ¬∃ b ∈ catalog, ops.unitBrick b = u := by
      intro ⟨b, hb, hbu⟩
      have hany : catalog.any (fun b => decide (ops.unitBrick b = u)) = true :=
        List.any_eq_true.mpr ⟨b, hb, by simp [hbu]⟩
      rw [hany] at hsome
      exact Bool.false_ne_true hsome
    refine iff_of_false (fun h => List.not_mem_nil vb h) ?_
    rintro (⟨_, hex⟩ | ⟨b, hb, hbu, _⟩)
    · exact hnb hex
    · exact hnb ⟨b, hb, hbu⟩
  · have hval := lookup_foldl_addBrick ops catalog [] u
    rw [hlk] at hval
    have hv : v = catalog.flatMap fun b =>
        if ops.unitBrick b = u then brickPushes ops b else [] := by
      simpa [assocLookup] using hval
    have hex : ∃ b ∈ catalog, ops.unitBrick b = u := by
      have hsome := lookup_foldl_isSome ops catalog [] u
      rw [hlk] at hsome
      simp only [assocLookup, Option.isSome_some, Option.isSome_none,
        Bool.false_or] at hsome
      rcases List.any_eq_true.mp hsome.symm with ⟨b, hb, hbu⟩
      exact ⟨b, hb, by simpa using hbu⟩
    show vb ∈ sortBricksByVolume ops (v ++ [⟨Brick.unit u⟩]) ↔ _
    rw [mem_sortBricksByVolume, List.mem_append, hv, List.mem_flatMap]
    constructor
    · rintro (⟨b, hb, hin⟩ | hunit)
      · by_cases hbu : ops.unitBrick b = u
        · exact Or.inr ⟨b, hb, hbu, by simpa [hbu] using hin⟩
        · simp [hbu] at hin
      · exact Or.inl ⟨by simpa using hunit, hex⟩
    · rintro (⟨rfl, _⟩ | ⟨b, hb, hbu, hin⟩)
      · simp
      · exact Or.inl ⟨b, hb, by simp [hbu, hin]⟩

/-- C2: the claim asserts a fatal NotUnitBrick error carrying an offending
non-unit value, distinct from PointerTooSmall; the error enum of the code has
exactly one value, so no such variant exists. -/
theorem C2_counterexample : Fintype.card MosaicError = 1 := rfl

/-- C2 (amended): the brick-selector callback returns a unit-brick identity by
type, so it can never resolve to a non-unit shape; correspondingly the error
enum has no NotUnitBrick variant, and PointerTooSmall is the only error value
from_image can ever produce. -/
theorem C2_theorem : ∀ e : MosaicError, e = MosaicError.pointerTooSmall :=
  fun e => by cases e; rfl

/-- C5: at this concrete input, a chunk with all dimensions positive shares a
section with a zero-length chunk, and construction removes the whole section,
so the positive chunk is not retained, contradicting the claim. -/
theorem C5_counterexample :
    0 < unitCubeChunk.length ∧ 0 < unitCubeChunk.width ∧
      0 < unitCubeChunk.height ∧
      (Mosaic.new [⟨0, 0, 0, [zeroLengthChunk, unitCubeChunk]⟩] 1 1).sections = [] := by
  decide

/-- C5 (amended): construction filters at section granularity: a section is
retained exactly when every chunk in it has positive length, width and height.
Hence no zero-dimension chunk ever appears, but a positive-dimension chunk is
dropped together with its section when a zero-dimension chunk shares it. -/
theorem C5_theorem (sections : List (MosaicSection U B C)) (length width : ℕ) :
    ∀ s, s ∈ (Mosaic.new sections length width).sections ↔
      s ∈ sections ∧ ∀ c ∈ s.chunks, 0 < c.length ∧ 0 < c.width ∧ 0 < c.height := by
  intro s
  simp only [Mosaic.new, List.mem_filter, sectionAllPositive, List.all_eq_true,
    Bool.and_eq_true, decide_eq_true_eq]
  constructor
  · rintro ⟨hs, hall⟩
    exact ⟨hs, fun c hc => by rcases hall c hc with ⟨⟨h1, h2⟩, h3⟩; exact ⟨h1, h2, h3⟩⟩
  · rintro ⟨hs, hall⟩
    exact ⟨hs, fun c hc => by rcases hall c hc with ⟨h1, h2, h3⟩; exact ⟨⟨h1, h2⟩, h3⟩⟩

theorem mem_brickPushes (ops : NonUnitOps U B) (b : B)
    (vb : VolumeSortedBrick U B) :
    vb ∈ brickPushes ops b ↔
      (0 < ops.length b ∧ 0 < ops.width b ∧ 0 < ops.height b) ∧
        (vb = ⟨Brick.nonUnit b⟩ ∨
          (ops.length b ≠ ops.width b ∧ vb = ⟨Brick.nonUnit (ops.rotate90 b)⟩)) := by
  unfold brickPushes
  by_cases hpos : 0 < ops.length b ∧ 0 < ops.width b ∧ 0 < ops.height b
  · rw [if_pos hpos]
    by_cases hne : ops.length b ≠ ops.width b
    · rw [if_pos hne]
      simp [hpos, hne]
    · rw [if_neg hne]
      simp [hpos, hne]
  · rw [if_neg hpos]
    simp [hpos]

theorem filterExclusions_pred [DecidableEq C] (ops : NonUnitOps U B)
    (exclusions : List (B × C)) (color : C) (vb : VolumeSortedBrick U B)
    (bs : List (VolumeSortedBrick U B)) :
    vb ∈ filterExclusions ops exclusions color bs ↔
      vb ∈ bs ∧ ∀ nb, vb.brick = Brick.nonUnit nb →
        ¬∃ e ∈ exclusions, color = e.2 ∧ ops.isRotationOf e.1 nb = true := by
  unfold filterExclusions
  rw [List.mem_filter]
  obtain ⟨bk⟩ := vb
  cases bk with
  | unit u0 => simp
  | nonUnit nb0 =>
    constructor
    · rintro ⟨hmem, hpred⟩
      refine ⟨hmem, ?_⟩
      rintro nb hnb ⟨e, he, hcol, hrot⟩
      cases hnb
      have hfalse : exclusions.any
          (fun e => decide (color = e.2) && ops.isRotationOf e.1 nb0) = false := by
        cases hx : exclusions.any
            (fun e => decide (color = e.2) && ops.isRotationOf e.1 nb0) with
        | false => rfl
        | true =>
          have : (!(exclusions.any
              (fun e => decide (color = e.2) && ops.isRotationOf e.1 nb0))) = true :=
            hpred
          rw [hx] at this
          exact absurd this (by simp)
      have hband := List.any_eq_false.mp hfalse e he
      rw [hrot] at hband
      simp [hcol] at hband
    · rintro ⟨hmem, hpred⟩
      refine ⟨hmem, ?_⟩
      have hfalse : exclusions.any
          (fun e => decide (color = e.2) && ops.isRotationOf e.1 nb0) = false := by
        refine List.any_eq_false.mpr ?_
        intro e he
        by_cases hcol : color = e.2
        · cases hrot : ops.isRotationOf e.1 nb0 with
          | false => simp [hrot]
          | true => exact absurd ⟨e, he, hcol, hrot⟩ (hpred nb0 rfl)
        · simp [hcol]
      show (!(exclusions.any
          (fun e => decide (color = e.2) && ops.isRotationOf e.1 nb0))) = true
      rw [hfalse]
      rfl

/-- C6: at this concrete input the 2 x 1 orientation of the catalog shape is
grouped for unit brick 0, and the exclusion list holds only the other
orientation paired with color 5; yet filtering for a color-5 chunk drops both
orientations, leaving only the unit brick, because is_rotation_of ignores
orientation.  This falsifies that only the specific excluded
(orientation, color) pair is removed. -/
theorem C6_counterexample :
    (⟨Brick.nonUnit twoByOnePlate⟩ : VolumeSortedBrick ℕ TestBrick) ∈
        (assocLookup (bricksByType testOps [twoByOnePlate]) 0).getD [] ∧
      (twoByOnePlate, 5) ∉ [(oneByTwoVariant, (5 : ℕ))] ∧
      filterExclusions testOps [(oneByTwoVariant, 5)] 5
          ((assocLookup (bricksByType testOps [twoByOnePlate]) 0).getD []) =
        [⟨Brick.unit 0⟩] := by
  decide

/-- C6 (amended): catalog shapes are partitioned by unit-brick identity; a
square positive shape contributes exactly its own orientation, a rectangular
positive shape contributes both orientations, zero-dimension entries are
ignored, and the unit brick is always present; a non-unit candidate is then
usable for a chunk unless some excluded shape with the chunk's color is a
rotation of it (per is_rotation_of, which ignores orientation, so an exclusion
removes every orientation of the shape for that color). -/
theorem C6_theorem [DecidableEq U] [DecidableEq C] (ops : NonUnitOps U B)
    (catalog : List B) (exclusions : List (B × C)) (color : C) (u : U)
    (vb : VolumeSortedBrick U B) :
    vb ∈ filterExclusions ops exclusions color
        ((assocLookup (bricksByType ops catalog) u).getD []) ↔
      (((vb = ⟨Brick.unit u⟩ ∧ ∃ b ∈ catalog, ops.unitBrick b = u) ∨
        ∃ b ∈ catalog, ops.unitBrick b = u ∧
          (0 < ops.length b ∧ 0 < ops.width b ∧ 0 < ops.height b) ∧
          (vb = ⟨Brick.nonUnit b⟩ ∨
            (ops.length b ≠ ops.width b ∧ vb = ⟨Brick.nonUnit (ops.rotate90 b)⟩))) ∧
       ∀ nb, vb.brick = Brick.nonUnit nb →
         ¬∃ e ∈ exclusions, color = e.2 ∧ ops.isRotationOf e.1 nb = true) := by
  rw [filterExclusions_pred, mem_bricksByType]
  constructor
  · rintro ⟨hmem, hexcl⟩
    refine ⟨?_, hexcl⟩
    rcases hmem with h | ⟨b, hb, hbu, hin⟩
    · exact Or.inl h
    · exact Or.inr ⟨b, hb, hbu, (mem_brickPushes ops b vb).mp hin⟩
  · rintro ⟨h, hexcl⟩
    refine ⟨?_, hexcl⟩
    rcases h with h | ⟨b, hb, hbu, hin⟩
    · exact Or.inl h
    · exact Or.inr ⟨b, hb, hbu, (mem_brickPushes ops b vb).mpr hin⟩

theorem bricksByType_contains [DecidableEq U] (ops : NonUnitOps U B)
    (catalog : List B) (u : U) :
    (assocLookup (bricksByType ops catalog) u).isSome =
      catalog.any fun b => decide (ops.unitBrick b = u) := by
  rw [assocLookup_bricksByType]
  rcases hlk : assocLookup (catalog.foldl (addBrickToPartitions ops) []) u with _ | v
  · have h := lookup_foldl_isSome ops catalog [] u
    rw [hlk] at h
    simpa [assocLookup] using h
  · have h := lookup_foldl_isSome ops catalog [] u
    rw [hlk] at h
    simpa [assocLookup] using h

theorem bricksByType_eq_none [DecidableEq U] (ops : NonUnitOps U B)
    (catalog : List B) (u : U) :
    assocLookup (bricksByType ops catalog) u = none ↔
      ¬∃ b ∈ catalog, ops.unitBrick b = u := by
  have hc := bricksByType_contains ops catalog u
  constructor
  · intro h ⟨b, hb, hbu⟩
    rw [h] at hc
    have : catalog.any (fun b => decide (ops.unitBrick b = u)) = true :=
      List.any_eq_true.mpr ⟨b, hb, by simp [hbu]⟩
    rw [this] at hc
    exact Bool.false_ne_true hc
  · intro h
    rcases hlk : assocLookup (bricksByType ops catalog) u with _ | v
    · rfl
    · rw [hlk] at hc
      rcases List.any_eq_true.mp hc.symm with ⟨b, hb, hbu⟩
      exact absurd ⟨b, hb, by simpa using hbu⟩ h

theorem reduceChunk_foreign [DecidableEq U] [DecidableEq C] (ops : NonUnitOps U B)
    (byType : List (U × List (VolumeSortedBrick U B))) (exclusions : List (B × C))
    (chunk : Chunk U B C) (h : assocLookup byType chunk.unitBrick = none) :
    reduceChunk ops byType exclusions chunk = chunk := by
  unfold reduceChunk
  rw [h]

theorem reduceChunk_fields [DecidableEq U] [DecidableEq C] (ops : NonUnitOps U B)
    (byType : List (U × List (VolumeSortedBrick U B))) (exclusions : List (B × C))
    (chunk : Chunk U B C) :
    (reduceChunk ops byType exclusions chunk).unitBrick = chunk.unitBrick ∧
      (reduceChunk ops byType exclusions chunk).color = chunk.color ∧
      (reduceChunk ops byType exclusions chunk).l = chunk.l ∧
      (reduceChunk ops byType exclusions chunk).w = chunk.w ∧
      (reduceChunk ops byType exclusions chunk).h = chunk.h ∧
      (reduceChunk ops byType exclusions chunk).length = chunk.length ∧
      (reduceChunk ops byType exclusions chunk).width = chunk.width ∧
      (reduceChunk ops byType exclusions chunk).height = chunk.height ∧
      (reduceChunk ops byType exclusions chunk).wsIncluded = chunk.wsIncluded := by
  unfold reduceChunk
  rcases assocLookup byType chunk.unitBrick with _ | bs
  · exact ⟨rfl, rfl, rfl, rfl, rfl, rfl, rfl, rfl, rfl⟩
  · exact ⟨rfl, rfl, rfl, rfl, rfl, rfl, rfl, rfl, rfl⟩

/-- C7: at this concrete input the chunk is 2 x 2 x 2 and the catalog offers a
2 x 2 x 1 plate and a 1 x 1 x 2 brick, so the tallest catalog height available
for the chunk is 2 and a height-2 brick fits at the origin; yet the reducer,
which orders candidates by volume and not by height, covers the chunk with two
height-1 plates.  This falsifies tallest-height-first layering. -/
theorem C7_counterexample :
    ((testChunk222.reduceBricks testOps
        ((assocLookup (bricksByType testOps [twoByTwoPlate, oneOneTwoBrick]) 0).getD
          [])).bricks.map fun b => b.brick.height testOps) = [1, 1] ∧
      (⟨Brick.nonUnit oneOneTwoBrick⟩ : VolumeSortedBrick ℕ TestBrick) ∈
        (assocLookup (bricksByType testOps [twoByTwoPlate, oneOneTwoBrick]) 0).getD [] ∧
      Chunk.fits 0 0 0 1 1 2
        [[({0, 1} : Finset ℕ), {0, 1}], [{0, 1}, {0, 1}]] = true := by
  decide

/-- C7 (amended): the candidate list a chunk is reduced with is ordered by
descending volume, not by height, with the always-available unit brick among
the candidates; at each seed cell candidates are tried in that order, so the
largest-volume fitting brick is consumed first and space no catalog brick
covers falls to the unit brick. -/
theorem C7_theorem [DecidableEq U] [DecidableEq C] (ops : NonUnitOps U B)
    (catalog : List B) (exclusions : List (B × C)) (color : C) (u : U)
    (bs : List (VolumeSortedBrick U B))
    (h : assocLookup (bricksByType ops catalog) u = some bs) :
    (filterExclusions ops exclusions color bs).Pairwise
        (fun a b => b.volume ops ≤ a.volume ops) ∧
      ⟨Brick.unit u⟩ ∈ filterExclusions ops exclusions color bs := by
  rw [assocLookup_bricksByType] at h
  rcases hlk : assocLookup (catalog.foldl (addBrickToPartitions ops) []) u with _ | v
  · rw [hlk] at h
    exact absurd h (by simp)
  · rw [hlk] at h
    have hbs : bs = sortBricksByVolume ops (v ++ [⟨Brick.unit u⟩]) := by
      have := h.symm
      simpa using this
    constructor
    · refine List.Pairwise.sublist (List.filter_sublist _) ?_
      rw [hbs]
      exact sorted_sortBricksByVolume ops _
    · rw [filterExclusions_pred]
      refine ⟨?_, ?_⟩
      · rw [hbs, mem_sortBricksByVolume]
        simp
      · intro nb hnb
        exact absurd hnb (by simp)

/-- C7 witness instantiation at a concrete catalog. -/
theorem C7_witness :
    ((filterExclusions testOps [] 3
        [⟨Brick.nonUnit twoByTwoPlate⟩, ⟨Brick.unit 0⟩]).Pairwise
      (fun a b => b.volume testOps ≤ a.volume testOps)) ∧
      (⟨Brick.unit 0⟩ : VolumeSortedBrick ℕ TestBrick) ∈
        filterExclusions testOps [] 3 [⟨Brick.nonUnit twoByTwoPlate⟩, ⟨Brick.unit 0⟩] :=
  C7_theorem testOps [twoByTwoPlate] [] 3 0
    [⟨Brick.nonUnit twoByTwoPlate⟩, ⟨Brick.unit 0⟩] (by decide)

theorem reduced_sections_eq [DecidableEq U] [DecidableEq C] (ops : NonUnitOps U B)
    (m : Mosaic U B C) (catalog : List B) (exclusions : List (B × C))
    (hpos : ∀ s ∈ m.sections, ∀ c ∈ s.chunks,
      0 < c.length ∧ 0 < c.width ∧ 0 < c.height) :
    (Mosaic.new (m.sections.map fun s =>
      { s with chunks := s.chunks.map (reduceChunk ops (bricksByType ops catalog) exclusions) })
      m.length m.width).sections = m.sections.map fun s =>
      { s with chunks := s.chunks.map (reduceChunk ops (bricksByType ops catalog) exclusions) } := by
  unfold Mosaic.new
  apply List.filter_eq_self.mpr
  intro s' hs'
  rcases List.mem_map.mp hs' with ⟨s, hs, rfl⟩
  refine List.all_eq_true.mpr ?_
  intro c' hc'
  rcases List.mem_map.mp hc' with ⟨c, hc, rfl⟩
  rcases hpos s hs c hc with ⟨h1, h2, h3⟩
  rcases reduceChunk_fields ops (bricksByType ops catalog) exclusions c with
    ⟨_, _, _, _, _, hlen, hwid, hhei, _⟩
  simp [hlen, hwid, hhei, h1, h2, h3]

/-- C10: a chunk whose unit-brick identity matches no catalog entry passes
through reduce_bricks unchanged, brick list included, and with an empty
catalog reduce_bricks is the identity on the whole mosaic.  Stated for mosaics
whose chunks all have positive dimensions, which Mosaic::new guarantees for
every mosaic the library constructs. -/
theorem C10_theorem [DecidableEq U] [DecidableEq C] (ops : NonUnitOps U B)
    (m : Mosaic U B C) (catalog : List B) (exclusions : List (B × C))
    (hpos : ∀ s ∈ m.sections, ∀ c ∈ s.chunks,
      0 < c.length ∧ 0 < c.width ∧ 0 < c.height) :
    ∃ m', m.reduceBricks ops catalog exclusions = Except.ok m' ∧
      List.Forall₂ (fun s' s : MosaicSection U B C =>
        s'.l = s.l ∧ s'.w = s.w ∧ s'.h = s.h ∧
          List.Forall₂ (fun c' c : Chunk U B C =>
            (¬∃ b ∈ catalog, ops.unitBrick b = c.unitBrick) → c' = c)
            s'.chunks s.chunks)
        m'.sections m.sections ∧
      (catalog = [] → m.reduceBricks ops catalog exclusions = Except.ok m) := by
  have hsecs := reduced_sections_eq ops m catalog exclusions hpos
  refine ⟨_, rfl, ?_, ?_⟩
  · rw [hsecs]
    refine List.forall₂_map_left_iff.mpr (List.forall₂_same.mpr ?_)
    intro s _
    refine ⟨rfl, rfl, rfl, ?_⟩
    refine List.forall₂_map_left_iff.mpr (List.forall₂_same.mpr ?_)
    intro c _ hno
    exact reduceChunk_foreign _ _ _ _
      ((bricksByType_eq_none ops catalog c.unitBrick).mpr hno)
  · intro hcat
    subst hcat
    have hnone : ∀ c : Chunk U B C,
        assocLookup (bricksByType ops ([] : List B)) c.unitBrick = none := by
      intro c
      rfl
    have hmapid : (m.sections.map fun s =>
        { s with chunks := s.chunks.map (reduceChunk ops (bricksByType ops ([] : List B)) exclusions) }) =
        m.sections := by
      rw [show (m.sections.map fun s =>
          { s with chunks := s.chunks.map (reduceChunk ops (bricksByType ops ([] : List B)) exclusions) }) =
          m.sections.map id from
        List.map_congr_left fun s _ => by
          have hcm : s.chunks.map
              (reduceChunk ops (bricksByType ops ([] : List B)) exclusions) =
              s.chunks := by
            rw [show s.chunks.map
                (reduceChunk ops (bricksByType ops ([] : List B)) exclusions) =
                s.chunks.map id from
              List.map_congr_left fun c _ =>
                reduceChunk_foreign _ _ _ _ (hnone c)]
            exact List.map_id _
          simp [hcm]]
      exact List.map_id _
    show Except.ok (Mosaic.new (m.sections.map fun s =>
        { s with chunks := s.chunks.map (reduceChunk ops (bricksByType ops ([] : List B)) exclusions) })
        m.length m.width) = Except.ok m
    rw [hmapid]
    have hfil : m.sections.filter sectionAllPositive = m.sections := by
      apply List.filter_eq_self.mpr
      intro s hs
      refine List.all_eq_true.mpr ?_
      intro c hc
      rcases hpos s hs c hc with ⟨h1, h2, h3⟩
      simp [h1, h2, h3]
    unfold Mosaic.new
    rw [hfil]

/-- C10 witness instantiation: the foreign chunk of the concrete test mosaic
is untouched. -/
theorem C10_witness :
    ∃ m', testMosaic.reduceBricks testOps [twoByOnePlate] [] = Except.ok m' ∧
      List.Forall₂ (fun s' s : MosaicSection ℕ TestBrick ℕ =>
        s'.l = s.l ∧ s'.w = s.w ∧ s'.h = s.h ∧
          List.Forall₂ (fun c' c : Chunk ℕ TestBrick ℕ =>
            (¬∃ b ∈ [twoByOnePlate], testOps.unitBrick b = c.unitBrick) → c' = c)
            s'.chunks s.chunks)
        m'.sections testMosaic.sections ∧
      ([twoByOnePlate] = [] →
        testMosaic.reduceBricks testOps [twoByOnePlate] [] = Except.ok testMosaic) :=
  C10_theorem testOps testMosaic [twoByOnePlate] [] (by decide)

theorem getD_mapIdx {α β : Type} (f : ℕ → α → β) (l : List α) (i : ℕ)
    (d : α) (dβ : β) (hi : i < l.length) :
    (l.mapIdx f).getD i dβ = f i (l.getD i d) := by
  induction l generalizing f i with
  | nil => simp at hi
  | cons a t ih =>
    rw [List.mapIdx_cons]
    cases i with
    | zero => simp [List.getD]
    | succ j =>
      have hj : j < t.length := by simpa using hi
      simp only [List.getD_cons_succ]
      exact ih (fun k x => f (k + 1) x) j hj

theorem getD_mapIdx_out {α β : Type} (f : ℕ → α → β) (l : List α) (i : ℕ)
    (dβ : β) (hi : l.length ≤ i) :
    (l.mapIdx f).getD i dβ = dβ := by
  have hlen : (l.mapIdx f).length = l.length := by simp
  have : (l.mapIdx f).length ≤ i := by omega
  exact List.getD_eq_default _ _ this

theorem getD_le_sum (xs : List ℕ) (i : ℕ) : xs.getD i 0 ≤ xs.sum := by
  induction xs generalizing i with
  | nil => simp [List.getD]
  | cons a t ih =>
    cases i with
    | zero => simp [List.getD]
    | succ j =>
      have := ih j
      simp only [List.getD_cons_succ, List.sum_cons]
      omega

theorem mem_gridCells (grid : List (List (Finset ℕ))) (h l w : ℕ) :
    (h, l, w) ∈ gridCells grid ↔
      h < grid.length ∧ l < (grid.getD h []).length ∧
        w ∈ (grid.getD h []).getD l ∅ := by
  unfold gridCells
  simp only [Finset.mem_biUnion, Finset.mem_range, Finset.mem_image]
  constructor
  · rintro ⟨h0, hh0, l0, hl0, w0, hw0, heq⟩
    obtain ⟨rfl, rfl, rfl⟩ : h0 = h ∧ l0 = l ∧ w0 = w := by
      simpa using heq
    exact ⟨hh0, hl0, hw0⟩
  · rintro ⟨hh, hl, hw⟩
    exact ⟨h, hh, l, hl, w, hw, rfl⟩

theorem sum_range_getD (xs : List ℕ) :
    ∑ i ∈ Finset.range xs.length, xs.getD i 0 = xs.sum := by
  induction xs with
  | nil => simp
  | cons a t ih =>
    rw [List.length_cons, Finset.sum_range_succ']
    simp only [List.getD_cons_succ, List.getD_cons_zero, List.sum_cons]
    rw [ih]
    omega

theorem card_rowCells (row : List (Finset ℕ)) (h : ℕ) :
    ((Finset.range row.length).biUnion fun l =>
      (row.getD l ∅).image fun w => (h, l, w)).card = (row.map Finset.card).sum := by
  rw [Finset.card_biUnion]
  · have hpt : ∀ l, ((row.getD l ∅).image fun w => (h, l, w)).card =
        (row.map Finset.card).getD l 0 := by
      intro l
      rw [Finset.card_image_of_injective _ fun a b hab => by simpa using hab]
      exact (List.getD_map row ∅ Finset.card).symm
    rw [Finset.sum_congr rfl fun l _ => hpt l]
    have hs := sum_range_getD (row.map Finset.card)
    rw [List.length_map] at hs
    exact hs
  · intro a _ b _ hab
    refine Finset.disjoint_left.mpr fun p hpa hpb => ?_
    rcases Finset.mem_image.mp hpa with ⟨wa, _, rfl⟩
    rcases Finset.mem_image.mp hpb with ⟨wb, _, heq⟩
    simp only [Prod.mk.injEq] at heq
    exact hab heq.2.1.symm

theorem card_gridCells (grid : List (List (Finset ℕ))) :
    (gridCells grid).card =
      (grid.map fun row => (row.map Finset.card).sum).sum := by
  unfold gridCells
  rw [Finset.card_biUnion]
  · rw [Finset.sum_congr rfl fun h _ => card_rowCells (grid.getD h []) h]
    have hpt : ∀ h, ((grid.getD h []).map Finset.card).sum =
        (grid.map fun row => (row.map Finset.card).sum).getD h 0 := by
      intro h
      exact (List.getD_map grid [] fun row => (row.map Finset.card).sum).symm
    rw [Finset.sum_congr rfl fun h _ => hpt h]
    have hs := sum_range_getD (grid.map fun row => (row.map Finset.card).sum)
    rw [List.length_map] at hs
    exact hs
  · intro a _ b _ hab
    refine Finset.disjoint_left.mpr fun p hpa hpb => ?_
    simp only [Finset.mem_biUnion, Finset.mem_image] at hpa hpb
    rcases hpa with ⟨la, _, wa, _, rfl⟩
    rcases hpb with ⟨lb, _, wb, _, heq⟩
    simp only [Prod.mk.injEq] at heq
    exact hab heq.1.symm

theorem fitsLayer_spec (l w L W : ℕ) (row : List (Finset ℕ))
    (hf : Chunk.fitsLayer l w L W row = true) :
    l + L ≤ row.length ∧ ∀ i, l ≤ i → i < l + L →
      ((row.getD i ∅).filter fun x => w ≤ x ∧ x < w + W) = Finset.Ico w (w + W) := by
  unfold Chunk.fitsLayer at hf
  by_cases hlen : row.length < l + L
  · rw [if_pos hlen] at hf
    exact absurd hf (by simp)
  · rw [if_neg hlen] at hf
    refine ⟨by omega, ?_⟩
    intro i hil hiL
    have hi : i ∈ List.range' l L := by
      rw [List.mem_range'_1]
      omega
    have hcnt := List.all_eq_true.mp hf i hi
    rw [decide_eq_true_eq] at hcnt
    have hsub : ((row.getD i ∅).filter fun x => w ≤ x ∧ x < w + W) ⊆
        Finset.Ico w (w + W) := by
      intro x hx
      rw [Finset.mem_filter] at hx
      rw [Finset.mem_Ico]
      exact hx.2
    refine Finset.eq_of_subset_of_card_le hsub ?_
    rw [Nat.card_Ico]
    omega

theorem fits_spec (l w h L W H : ℕ) (grid : List (List (Finset ℕ)))
    (hf : Chunk.fits l w h L W H grid = true) :
    h + H ≤ grid.length ∧ brickBox l w h L W H ⊆ gridCells grid := by
  unfold Chunk.fits at hf
  by_cases hg : 255 - H < h ∨ 255 - L < l ∨ 255 - W < w
  · rw [if_pos hg] at hf
    exact absurd hf (by simp)
  · rw [if_neg hg] at hf
    by_cases hlen : grid.length < h + H
    · rw [if_pos hlen] at hf
      exact absurd hf (by simp)
    · rw [if_neg hlen] at hf
      refine ⟨by omega, ?_⟩
      intro p hp
      obtain ⟨ph, pl, pw⟩ := p
      unfold brickBox at hp
      simp only [Finset.mem_product, Finset.mem_Ico] at hp
      obtain ⟨⟨hh1, hh2⟩, ⟨hl1, hl2⟩, hw1, hw2⟩ := hp
      have hmem : ph ∈ List.range' h H := by
        rw [List.mem_range'_1]
        omega
      have hlayer := List.all_eq_true.mp hf ph hmem
      rcases fitsLayer_spec l w L W _ hlayer with ⟨hrl, hwin⟩
      rw [mem_gridCells]
      refine ⟨by omega, by omega, ?_⟩
      have hx : pw ∈ ((grid.getD ph []).getD pl ∅).filter
          fun x => w ≤ x ∧ x < w + W := by
        rw [hwin pl hl1 hl2, Finset.mem_Ico]
        omega
      exact (Finset.mem_filter.mp hx).1

theorem card_brickBox (l w h L W H : ℕ) :
    (brickBox l w h L W H).card = L * W * H := by
  unfold brickBox
  rw [Finset.card_product, Finset.card_product, Nat.card_Ico, Nat.card_Ico,
    Nat.card_Ico]
  simp only [Nat.add_sub_cancel_left]
  ring

theorem length_removeBrickLayer (l w L W : ℕ) (row : List (Finset ℕ)) :
    (Chunk.removeBrickLayer l w L W row).length = row.length := by
  simp [Chunk.removeBrickLayer]

theorem mem_removeBrickLayer (l w L W : ℕ) (row : List (Finset ℕ)) (i x : ℕ) :
    x ∈ (Chunk.removeBrickLayer l w L W row).getD i ∅ ↔
      x ∈ row.getD i ∅ ∧ ¬(l ≤ i ∧ i < l + L ∧ w ≤ x ∧ x < w + W) := by
  unfold Chunk.removeBrickLayer
  by_cases hi : i < row.length
  · rw [getD_mapIdx _ row i ∅ ∅ hi]
    by_cases hcond : l ≤ i ∧ i < l + L
    · rw [if_pos hcond]
      rw [Finset.mem_filter]
      constructor
      · rintro ⟨hx, hnot⟩
        exact ⟨hx, fun hc => hnot ⟨hc.2.2.1, hc.2.2.2⟩⟩
      · rintro ⟨hx, hnot⟩
        exact ⟨hx, fun hc => hnot ⟨hcond.1, hcond.2, hc.1, hc.2⟩⟩
    · rw [if_neg hcond]
      constructor
      · intro hx
        exact ⟨hx, fun hc => hcond ⟨hc.1, hc.2.1⟩⟩
      · exact fun hx => hx.1
  · rw [getD_mapIdx_out _ row i ∅ (by omega)]
    rw [List.getD_eq_default _ _ (by omega : row.length ≤ i)]
    simp

theorem length_removeBrick (l w h L W H : ℕ) (grid : List (List (Finset ℕ))) :
    (Chunk.removeBrick l w h L W H grid).length = grid.length := by
  simp [Chunk.removeBrick]

theorem rowLength_removeBrick (l w h L W H : ℕ) (grid : List (List (Finset ℕ)))
    (i : ℕ) :
    ((Chunk.removeBrick l w h L W H grid).getD i []).length =
      (grid.getD i []).length := by
  unfold Chunk.removeBrick
  by_cases hi : i < grid.length
  · rw [getD_mapIdx _ grid i [] [] hi]
    by_cases hcond : h ≤ i ∧ i < h + H
    · rw [if_pos hcond, length_removeBrickLayer]
    · rw [if_neg hcond]
  · rw [getD_mapIdx_out _ grid i [] (by omega)]
    rw [List.getD_eq_default _ _ (by omega : grid.length ≤ i)]

theorem mem_removeBrick_cell (l w h L W H : ℕ) (grid : List (List (Finset ℕ)))
    (i j x : ℕ) :
    x ∈ ((Chunk.removeBrick l w h L W H grid).getD i []).getD j ∅ ↔
      x ∈ (grid.getD i []).getD j ∅ ∧
        ¬(h ≤ i ∧ i < h + H ∧ l ≤ j ∧ j < l + L ∧ w ≤ x ∧ x < w + W) := by
  unfold Chunk.removeBrick
  by_cases hi : i < grid.length
  · rw [getD_mapIdx _ grid i [] [] hi]
    by_cases hcond : h ≤ i ∧ i < h + H
    · rw [if_pos hcond, mem_removeBrickLayer]
      constructor
      · rintro ⟨hx, hnot⟩
        exact ⟨hx, fun hc => hnot ⟨hc.2.2.1, hc.2.2.2.1, hc.2.2.2.2⟩⟩
      · rintro ⟨hx, hnot⟩
        exact ⟨hx, fun hc => hnot ⟨hcond.1, hcond.2, hc.1, hc.2.1, hc.2.2⟩⟩
    · rw [if_neg hcond]
      constructor
      · intro hx
        exact ⟨hx, fun hc => hcond ⟨hc.1, hc.2.1⟩⟩
      · exact fun hx => hx.1
  · rw [getD_mapIdx_out _ grid i [] (by omega)]
    rw [List.getD_eq_default _ _ (by omega : grid.length ≤ i)]
    simp

theorem gridCells_removeBrick (l w h L W H : ℕ)
    (grid : List (List (Finset ℕ))) :
    gridCells (Chunk.removeBrick l w h L W H grid) =
      gridCells grid \ brickBox l w h L W H := by
  ext p
  obtain ⟨ph, pl, pw⟩ := p
  rw [Finset.mem_sdiff, mem_gridCells, mem_gridCells, length_removeBrick,
    rowLength_removeBrick]
  have hbox : (ph, pl, pw) ∈ brickBox l w h L W H ↔
      (h ≤ ph ∧ ph < h + H ∧ l ≤ pl ∧ pl < l + L ∧ w ≤ pw ∧ pw < w + W) := by
    unfold brickBox
    simp only [Finset.mem_product, Finset.mem_Ico]
    tauto
  rw [hbox]
  have hcell := mem_removeBrick_cell l w h L W H grid ph pl pw
  simp only at hcell ⊢
  rw [hcell]
  tauto

theorem gridLe_refl (g : List (List (Finset ℕ))) : gridLe g g :=
  ⟨rfl, fun _ => rfl, fun _ _ => Finset.Subset.refl _⟩

theorem gridLe_trans {g1 g2 g3 : List (List (Finset ℕ))}
    (h12 : gridLe g1 g2) (h23 : gridLe g2 g3) : gridLe g1 g3 :=
  ⟨h12.1.trans h23.1, fun i => (h12.2.1 i).trans (h23.2.1 i),
    fun i j => (h12.2.2 i j).trans (h23.2.2 i j)⟩

theorem gridLe_removeBrick (l w h L W H : ℕ) (grid : List (List (Finset ℕ))) :
    gridLe (Chunk.removeBrick l w h L W H grid) grid := by
  refine ⟨length_removeBrick _ _ _ _ _ _ _, rowLength_removeBrick _ _ _ _ _ _ _, ?_⟩
  intro i j x hx
  exact ((mem_removeBrick_cell l w h L W H grid i j x).mp hx).1

theorem card_gridCells_removeBrick (l w h L W H : ℕ)
    (grid : List (List (Finset ℕ)))
    (hf : Chunk.fits l w h L W H grid = true) :
    (gridCells (Chunk.removeBrick l w h L W H grid)).card + L * W * H =
      (gridCells grid).card := by
  rw [gridCells_removeBrick]
  rcases fits_spec l w h L W H grid hf with ⟨_, hsub⟩
  rw [Finset.card_sdiff hsub, card_brickBox]
  have hle : L * W * H ≤ (gridCells grid).card := by
    have := Finset.card_le_card hsub
    rw [card_brickBox] at this
    exact this
  omega

theorem packPlace_spec (ops : NonUnitOps U B) (sz : VolumeSortedBrick U B)
    (l w h : ℕ) (st : PackState U B) :
    packVolume ops (packPlace ops sz l w h st) +
        (gridCells (packPlace ops sz l w h st).grid).card =
      packVolume ops st + (gridCells st.grid).card ∧
      gridLe (packPlace ops sz l w h st).grid st.grid := by
  unfold packPlace
  by_cases hf : Chunk.fits l w h (sz.brick.length ops) (sz.brick.width ops)
      (sz.brick.height ops) st.grid
  · rw [if_pos hf]
    constructor
    · have hvol : ∀ bricks grid, packVolume ops ({ grid := grid, bricks := bricks ++ [⟨l, w, h, sz.brick⟩] } : PackState U B) = (bricks.map (brickVolume ops)).sum + brickVolume ops ⟨l, w, h, sz.brick⟩ := by
        intro bricks grid
        unfold packVolume
        simp
      rw [hvol]
      have hcard := card_gridCells_removeBrick l w h (sz.brick.length ops)
        (sz.brick.width ops) (sz.brick.height ops) st.grid hf
      unfold packVolume brickVolume
      dsimp only
      omega
    · exact gridLe_removeBrick _ _ _ _ _ _ _
  · rw [if_neg hf]
    exact ⟨rfl, gridLe_refl _⟩

theorem placeSizes_spec (ops : NonUnitOps U B)
    (sizes : List (VolumeSortedBrick U B)) (l w h : ℕ) (st : PackState U B) :
    packVolume ops (placeSizes ops sizes l w h st) +
        (gridCells (placeSizes ops sizes l w h st).grid).card =
      packVolume ops st + (gridCells st.grid).card ∧
      gridLe (placeSizes ops sizes l w h st).grid st.grid := by
  induction sizes generalizing st with
  | nil => exact ⟨rfl, gridLe_refl _⟩
  | cons sz rest ih =>
    have hstep : placeSizes ops (sz :: rest) l w h st =
        placeSizes ops rest l w h (packPlace ops sz l w h st) := by
      simp only [placeSizes, List.foldl_cons]
    rw [hstep]
    rcases ih (packPlace ops sz l w h st) with ⟨hinv, hle⟩
    rcases packPlace_spec ops sz l w h st with ⟨hinv2, hle2⟩
    exact ⟨by omega, gridLe_trans hle hle2⟩

theorem fits_unit (l w h : ℕ) (grid : List (List (Finset ℕ)))
    (hh : h < grid.length) (hl : l < (grid.getD h []).length)
    (hw : w ∈ (grid.getD h []).getD l ∅)
    (hhb : h ≤ 254) (hlb : l ≤ 254) (hwb : w ≤ 254) :
    Chunk.fits l w h 1 1 1 grid = true := by
  unfold Chunk.fits
  rw [if_neg (by omega : ¬(255 - 1 < h ∨ 255 - 1 < l ∨ 255 - 1 < w))]
  rw [if_neg (by omega : ¬grid.length < h + 1)]
  refine List.all_eq_true.mpr ?_
  intro i hi
  rw [List.mem_range'_1] at hi
  have hieq : i = h := by omega
  subst hieq
  unfold Chunk.fitsLayer
  rw [if_neg (by omega : ¬(grid.getD i []).length < l + 1)]
  refine List.all_eq_true.mpr ?_
  intro j hj
  rw [List.mem_range'_1] at hj
  have hjeq : j = l := by omega
  subst hjeq
  rw [decide_eq_true_eq]
  have hmem : w ∈ ((grid.getD i []).getD j ∅).filter
      fun x => w ≤ x ∧ x < w + 1 :=
    Finset.mem_filter.mpr ⟨hw, le_refl w, by omega⟩
  have := Finset.card_pos.mpr ⟨w, hmem⟩
  omega

theorem gridBounded_of_le {g' g : List (List (Finset ℕ))}
    (hle : gridLe g' g) (hb : gridBounded g) : gridBounded g' :=
  fun i j x hx => hb i j x (hle.2.2 i j hx)

theorem placeSizes_seed (ops : NonUnitOps U B) (u : U)
    (sizes : List (VolumeSortedBrick U B)) (l w h : ℕ)
    (hunit : (⟨Brick.unit u⟩ : VolumeSortedBrick U B) ∈ sizes)
    (hhb : h ≤ 254) (hlb : l ≤ 254) (hwb : w ≤ 254) :
    ∀ st : PackState U B, h < st.grid.length →
      l < (st.grid.getD h []).length →
      w ∈ (st.grid.getD h []).getD l ∅ →
      w ∉ ((placeSizes ops sizes l w h st).grid.getD h []).getD l ∅ := by
  induction sizes with
  | nil => simp at hunit
  | cons sz rest ih =>
    intro st hh hl hw
    have hstep : placeSizes ops (sz :: rest) l w h st =
        placeSizes ops rest l w h (packPlace ops sz l w h st) := by
      simp only [placeSizes, List.foldl_cons]
    rw [hstep]
    rcases List.mem_cons.mp hunit with heq | hrest
    · subst heq
      have hfu := fits_unit l w h st.grid hh hl hw hhb hlb hwb
      have hnot : w ∉ ((packPlace ops ⟨Brick.unit u⟩ l w h st).grid.getD h []).getD l ∅ := by
        unfold packPlace
        simp only [Brick.length, Brick.width, Brick.height]
        rw [if_pos hfu]
        dsimp only
        rw [mem_removeBrick_cell]
        rintro ⟨_, hcon⟩
        exact hcon ⟨le_refl h, by omega, le_refl l, by omega, le_refl w, by omega⟩
      intro hmem
      rcases placeSizes_spec ops rest l w h (packPlace ops ⟨Brick.unit u⟩ l w h st) with ⟨_, hle⟩
      exact hnot (hle.2.2 h l hmem)
    · rcases packPlace_spec ops sz l w h st with ⟨_, hlep⟩
      by_cases hwst : w ∈ ((packPlace ops sz l w h st).grid.getD h []).getD l ∅
      · exact ih hrest (packPlace ops sz l w h st)
          (by rw [hlep.1]; exact hh) (by rw [hlep.2.1 h]; exact hl) hwst
      · intro hmem
        rcases placeSizes_spec ops rest l w h (packPlace ops sz l w h st) with ⟨_, hle⟩
        exact hwst (hle.2.2 h l hmem)

theorem cellCard_le_totalCells (st : PackState U B) (h l : ℕ) :
    ((st.grid.getD h []).getD l ∅).card ≤ st.totalCells := by
  unfold PackState.totalCells
  have h1 : ((st.grid.getD h []).getD l ∅).card =
      ((st.grid.getD h []).map Finset.card).getD l 0 :=
    (List.getD_map (st.grid.getD h []) ∅ Finset.card).symm
  have h2 := getD_le_sum ((st.grid.getD h []).map Finset.card) l
  have h3 : ((st.grid.getD h []).map Finset.card).sum =
      (st.grid.map fun row => (row.map Finset.card).sum).getD h 0 :=
    (List.getD_map st.grid [] fun row => (row.map Finset.card).sum).symm
  have h4 := getD_le_sum (st.grid.map fun row => (row.map Finset.card).sum) h
  omega

theorem packCellLoop_spec (ops : NonUnitOps U B) (u : U)
    (sizes : List (VolumeSortedBrick U B)) (h l : ℕ)
    (hunit : (⟨Brick.unit u⟩ : VolumeSortedBrick U B) ∈ sizes)
    (hhb : h ≤ 254) (hlb : l ≤ 254) :
    ∀ (fuel : ℕ) (st : PackState U B), gridBounded st.grid →
      ((st.grid.getD h []).getD l ∅).card < fuel →
      packVolume ops (packCellLoop ops sizes h l fuel st) +
          (gridCells (packCellLoop ops sizes h l fuel st).grid).card =
        packVolume ops st + (gridCells st.grid).card ∧
      gridLe (packCellLoop ops sizes h l fuel st).grid st.grid ∧
      ((packCellLoop ops sizes h l fuel st).grid.getD h []).getD l ∅ = ∅ := by
  intro fuel
  induction fuel with
  | zero =>
    intro st _ hcard
    simp at hcard
  | succ f ihf =>
    intro st hbnd hcard
    by_cases hne : ((st.grid.getD h []).getD l ∅).Nonempty
    · have hloop : packCellLoop ops sizes h l (f + 1) st =
          packCellLoop ops sizes h l f
            (placeSizes ops sizes l
              (((st.grid.getD h []).getD l ∅).min' hne) h st) := by
        simp only [packCellLoop]
        rw [dif_pos hne]
      set w := ((st.grid.getD h []).getD l ∅).min' hne with hwdef
      have hwmem : w ∈ (st.grid.getD h []).getD l ∅ := Finset.min'_mem _ hne
      have hh : h < st.grid.length := by
        by_contra hcon
        have : st.grid.getD h [] = [] := List.getD_eq_default _ _ (by omega)
        rw [this] at hwmem
        simp [List.getD] at hwmem
      have hl : l < (st.grid.getD h []).length := by
        by_contra hcon
        have : (st.grid.getD h []).getD l ∅ = ∅ :=
          List.getD_eq_default _ _ (by omega)
        rw [this] at hwmem
        exact absurd hwmem (Finset.not_mem_empty w)
      have hwb : w ≤ 254 := by
        have := hbnd h l w hwmem
        omega
      set st2 := placeSizes ops sizes l w h st with hst2
      rcases placeSizes_spec ops sizes l w h st with ⟨hinv2, hle2⟩
      have hout : w ∉ ((st2.grid.getD h []).getD l ∅) :=
        placeSizes_seed ops u sizes l w h hunit hhb hlb hwb st hh hl hwmem
      have hsub : ((st2.grid.getD h []).getD l ∅) ⊆
          (st.grid.getD h []).getD l ∅ := hle2.2.2 h l
      have hcard2 : ((st2.grid.getD h []).getD l ∅).card <
          ((st.grid.getD h []).getD l ∅).card :=
        Finset.card_lt_card (Finset.ssubset_iff_of_subset hsub |>.mpr ⟨w, hwmem, hout⟩)
      have hbnd2 : gridBounded st2.grid := gridBounded_of_le hle2 hbnd
      rcases ihf st2 hbnd2 (by omega) with ⟨hinv3, hle3, hempty3⟩
      rw [hloop]
      exact ⟨by rw [← hwdef] at *; rw [← hst2] at *; omega,
        gridLe_trans (by rw [← hwdef, ← hst2] at *; exact hle3) hle2,
        by rw [← hwdef, ← hst2] at *; exact hempty3⟩
    · have hloop : packCellLoop ops sizes h l (f + 1) st = st := by
        simp only [packCellLoop]
        rw [dif_neg hne]
      rw [hloop]
      exact ⟨rfl, gridLe_refl _,
        Finset.not_nonempty_iff_eq_empty.mp hne⟩

theorem getD_replicate {α : Type} (n : ℕ) (v d : α) (i : ℕ) (hi : i < n) :
    (List.replicate n v).getD i d = v := by
  induction n generalizing i with
  | zero => omega
  | succ m ih =>
    cases i with
    | zero => simp [List.replicate]
    | succ j => simpa [List.replicate] using ih j (by omega)

theorem packRow_spec (ops : NonUnitOps U B) (u : U)
    (sizes : List (VolumeSortedBrick U B)) (h : ℕ)
    (hunit : (⟨Brick.unit u⟩ : VolumeSortedBrick U B) ∈ sizes)
    (hhb : h ≤ 254) :
    ∀ (ls : List ℕ), (∀ x ∈ ls, x ≤ 254) → ∀ st : PackState U B,
      gridBounded st.grid →
      packVolume ops (ls.foldl
            (fun st l => packCellLoop ops sizes h l (st.totalCells + 1) st) st) +
          (gridCells (ls.foldl
            (fun st l => packCellLoop ops sizes h l (st.totalCells + 1) st) st).grid).card =
        packVolume ops st + (gridCells st.grid).card ∧
      gridLe (ls.foldl
          (fun st l => packCellLoop ops sizes h l (st.totalCells + 1) st) st).grid
        st.grid ∧
      ∀ l ∈ ls, (((ls.foldl
          (fun st l => packCellLoop ops sizes h l (st.totalCells + 1) st) st).grid.getD
            h []).getD l ∅) = ∅ := by
  intro ls
  induction ls with
  | nil =>
    intro _ st _
    exact ⟨rfl, gridLe_refl _, by simp⟩
  | cons l0 ls2 ih =>
    intro hls st hbnd
    have hl0 : l0 ≤ 254 := hls l0 (by simp)
    have hcard : ((st.grid.getD h []).getD l0 ∅).card < st.totalCells + 1 := by
      have := cellCard_le_totalCells st h l0
      omega
    rcases packCellLoop_spec ops u sizes h l0 hunit hhb hl0
        (st.totalCells + 1) st hbnd hcard with ⟨hinv1, hle1, hempty1⟩
    set st1 := packCellLoop ops sizes h l0 (st.totalCells + 1) st with hst1
    have hbnd1 : gridBounded st1.grid := gridBounded_of_le hle1 hbnd
    rcases ih (fun x hx => hls x (by simp [hx])) st1 hbnd1 with ⟨hinv2, hle2, hall2⟩
    rw [List.foldl_cons]
    refine ⟨by rw [← hst1] at *; omega, gridLe_trans (by rw [← hst1] at *; exact hle2) hle1, ?_⟩
    intro l hlmem
    rcases List.mem_cons.mp hlmem with rfl | hmem2
    · have hsub := hle2.2.2 h l
      rw [hempty1] at hsub
      rw [← hst1] at *
      exact Finset.subset_empty.mp hsub
    · rw [← hst1] at *
      exact hall2 l hmem2

theorem packGrid_spec (ops : NonUnitOps U B) (u : U)
    (sizes : List (VolumeSortedBrick U B)) (ls : List ℕ)
    (hunit : (⟨Brick.unit u⟩ : VolumeSortedBrick U B) ∈ sizes)
    (hls : ∀ x ∈ ls, x ≤ 254) :
    ∀ (hs : List ℕ), (∀ x ∈ hs, x ≤ 254) → ∀ st : PackState U B,
      gridBounded st.grid →
      packVolume ops (hs.foldl
            (fun st h => ls.foldl
              (fun st l => packCellLoop ops sizes h l (st.totalCells + 1) st) st) st) +
          (gridCells (hs.foldl
            (fun st h => ls.foldl
              (fun st l => packCellLoop ops sizes h l (st.totalCells + 1) st) st) st).grid).card =
        packVolume ops st + (gridCells st.grid).card ∧
      gridLe (hs.foldl
          (fun st h => ls.foldl
            (fun st l => packCellLoop ops sizes h l (st.totalCells + 1) st) st) st).grid
        st.grid ∧
      ∀ h ∈ hs, ∀ l ∈ ls, (((hs.foldl
          (fun st h => ls.foldl
            (fun st l => packCellLoop ops sizes h l (st.totalCells + 1) st) st) st).grid.getD
            h []).getD l ∅) = ∅ := by
  intro hs
  induction hs with
  | nil =>
    intro _ st _
    exact ⟨rfl, gridLe_refl _, by simp⟩
  | cons h0 hs2 ih =>
    intro hhs st hbnd
    have hh0 : h0 ≤ 254 := hhs h0 (by simp)
    rcases packRow_spec ops u sizes h0 hunit hh0 ls hls st hbnd with
      ⟨hinv1, hle1, hall1⟩
    set st1 := ls.foldl
      (fun st l => packCellLoop ops sizes h0 l (st.totalCells + 1) st) st with hst1
    have hbnd1 : gridBounded st1.grid := gridBounded_of_le hle1 hbnd
    rcases ih (fun x hx => hhs x (by simp [hx])) st1 hbnd1 with ⟨hinv2, hle2, hall2⟩
    rw [List.foldl_cons]
    refine ⟨by rw [← hst1] at *; omega, gridLe_trans (by rw [← hst1] at *; exact hle2) hle1, ?_⟩
    intro h hhmem l hlmem
    rcases List.mem_cons.mp hhmem with rfl | hmem2
    · have hsub := hle2.2.2 h l
      rw [hall1 l hlmem] at hsub
      rw [← hst1] at *
      exact Finset.subset_empty.mp hsub
    · rw [← hst1] at *
      exact hall2 h hmem2 l hlmem

theorem reduceBricks_volume (ops : NonUnitOps U B) (chunk : Chunk U B C)
    (sizes : List (VolumeSortedBrick U B)) (u : U)
    (hunit : (⟨Brick.unit u⟩ : VolumeSortedBrick U B) ∈ sizes)
    (hhgt : chunk.height ≤ 255) (hlen : chunk.length ≤ 255)
    (hws : chunk.wsIncluded.length ≤ chunk.length)
    (hbnd : ∀ s ∈ chunk.wsIncluded, ∀ x ∈ s, x < 255) :
    chunkVolume ops (chunk.reduceBricks ops sizes) =
      chunk.height * colsCells chunk := by
  have hrepl : ((List.range chunk.height).map fun _ => chunk.wsIncluded) =
      List.replicate chunk.height chunk.wsIncluded := by
    rw [List.map_const', List.length_range]
  have hgrid0len :
      ((List.range chunk.height).map fun _ => chunk.wsIncluded).length =
        chunk.height := by simp
  have hrow : ∀ i, i < chunk.height →
      ((List.range chunk.height).map fun _ => chunk.wsIncluded).getD i [] =
        chunk.wsIncluded := by
    intro i hi
    rw [hrepl]
    exact getD_replicate _ _ _ i hi
  have hbnd0 : gridBounded ((List.range chunk.height).map fun _ => chunk.wsIncluded) := by
    intro i j x hx
    by_cases hi : i < chunk.height
    · rw [hrow i hi] at hx
      by_cases hj : j < chunk.wsIncluded.length
      · refine hbnd _ ?_ x hx
        have := List.getD_eq_getElem chunk.wsIncluded ∅ hj
        rw [this]
        exact List.getElem_mem hj
      · rw [List.getD_eq_default _ _ (by omega)] at hx
        exact absurd hx (Finset.not_mem_empty x)
    · have hout : ((List.range chunk.height).map fun _ => chunk.wsIncluded).getD i [] = [] :=
        List.getD_eq_default _ _ (by rw [hgrid0len]; omega)
      rw [hout] at hx
      simp [List.getD] at hx
  rcases packGrid_spec ops u sizes (List.range chunk.length) hunit
      (fun x hx => by rw [List.mem_range] at hx; omega)
      (List.range chunk.height)
      (fun x hx => by rw [List.mem_range] at hx; omega)
      { grid := (List.range chunk.height).map fun _ => chunk.wsIncluded,
        bricks := [] } hbnd0 with ⟨hinv, hle, hall⟩
  have hempty : gridCells ((List.range chunk.height).foldl
      (fun st h => (List.range chunk.length).foldl
        (fun st l => packCellLoop ops sizes h l (st.totalCells + 1) st) st)
      { grid := (List.range chunk.height).map fun _ => chunk.wsIncluded,
        bricks := [] }).grid = ∅ := by
    rw [Finset.eq_empty_iff_forall_not_mem]
    rintro ⟨ph, pl, pw⟩ hmem
    rw [mem_gridCells] at hmem
    rcases hmem with ⟨hph, hpl, hpw⟩
    rw [hle.1, hgrid0len] at hph
    rw [hle.2.1 ph, hrow ph hph] at hpl
    have := hall ph (List.mem_range.mpr hph) pl (List.mem_range.mpr (by omega))
    rw [this] at hpw
    exact absurd hpw (Finset.not_mem_empty pw)
  have hcard0 : (gridCells ((List.range chunk.height).map
      fun _ => chunk.wsIncluded)).card = chunk.height * colsCells chunk := by
    rw [card_gridCells, hrepl]
    rw [List.map_replicate, List.sum_replicate, smul_eq_mul]
    rfl
  rw [hempty] at hinv
  simp only [Finset.card_empty, add_zero] at hinv
  show packVolume ops ((List.range chunk.height).foldl
      (fun st h => (List.range chunk.length).foldl
        (fun st l => packCellLoop ops sizes h l (st.totalCells + 1) st) st)
      { grid := (List.range chunk.height).map fun _ => chunk.wsIncluded,
        bricks := [] }) = chunk.height * colsCells chunk
  have hzero : packVolume ops ({ grid := (List.range chunk.height).map fun _ => chunk.wsIncluded, bricks := [] } : PackState U B) = 0 := rfl
  rw [hinv, hzero, Nat.zero_add, hcard0]

theorem unit_mem_usable [DecidableEq U] [DecidableEq C] (ops : NonUnitOps U B)
    (catalog : List B) (exclusions : List (B × C)) (color : C) (u : U)
    (bs : List (VolumeSortedBrick U B))
    (h : assocLookup (bricksByType ops catalog) u = some bs) :
    (⟨Brick.unit u⟩ : VolumeSortedBrick U B) ∈
      filterExclusions ops exclusions color bs := by
  rw [assocLookup_bricksByType] at h
  rcases hlk : assocLookup (catalog.foldl (addBrickToPartitions ops) []) u with _ | v
  · rw [hlk] at h
    exact absurd h (by simp)
  · rw [hlk] at h
    have hbs : bs = sortBricksByVolume ops (v ++ [⟨Brick.unit u⟩]) := by
      simpa using h.symm
    rw [filterExclusions_pred]
    refine ⟨?_, ?_⟩
    · rw [hbs, mem_sortBricksByVolume]
      simp
    · intro nb hnb
      exact absurd hnb (by simp)

theorem reduceChunk_volume [DecidableEq U] [DecidableEq C] (ops : NonUnitOps U B)
    (catalog : List B) (exclusions : List (B × C)) (chunk : Chunk U B C)
    (hwf : ChunkWF ops chunk) :
    chunkVolume ops (reduceChunk ops (bricksByType ops catalog) exclusions chunk) =
      chunkVolume ops chunk := by
  unfold reduceChunk
  rcases hlk : assocLookup (bricksByType ops catalog) chunk.unitBrick with _ | bs
  · rfl
  · obtain ⟨hvol, _, _, _, hlen, hhgt, hws, hbnd⟩ := hwf
    rw [reduceBricks_volume ops chunk _ chunk.unitBrick
      (unit_mem_usable ops catalog exclusions chunk.color chunk.unitBrick bs hlk)
      hhgt hlen hws hbnd]
    exact hvol.symm

/-- C3: reduce_bricks leaves the total voxel volume of each chunk unchanged.
Stated for mosaics whose chunks satisfy the well-formedness invariant that
Mosaic::from_image establishes: positive u8-ranged dimensions, the column
vector no longer than the length, column entries in u8 range, and a brick list
carrying exactly height times the footprint cells of volume. -/
theorem C3_theorem [DecidableEq U] [DecidableEq C] (ops : NonUnitOps U B)
    (m : Mosaic U B C) (catalog : List B) (exclusions : List (B × C))
    (hwf : ∀ s ∈ m.sections, ∀ c ∈ s.chunks, ChunkWF ops c) :
    ∃ m', m.reduceBricks ops catalog exclusions = Except.ok m' ∧
      List.Forall₂ (fun s' s : MosaicSection U B C =>
        List.Forall₂ (fun c' c : Chunk U B C =>
          chunkVolume ops c' = chunkVolume ops c) s'.chunks s.chunks)
        m'.sections m.sections := by
  have hpos : ∀ s ∈ m.sections, ∀ c ∈ s.chunks,
      0 < c.length ∧ 0 < c.width ∧ 0 < c.height := by
    intro s hs c hc
    obtain ⟨_, h1, h2, h3, _⟩ := hwf s hs c hc
    exact ⟨h1, h2, h3⟩
  refine ⟨_, rfl, ?_⟩
  rw [reduced_sections_eq ops m catalog exclusions hpos]
  refine List.forall₂_map_left_iff.mpr (List.forall₂_same.mpr ?_)
  intro s hs
  dsimp only
  refine List.forall₂_map_left_iff.mpr (List.forall₂_same.mpr ?_)
  intro c hc
  exact reduceChunk_volume ops catalog exclusions c (hwf s hs c hc)

/-- C3 witness instantiation at the concrete test mosaic and catalog. -/
theorem C3_witness :
    ∃ m', testMosaic.reduceBricks testOps [twoByTwoPlate] [] = Except.ok m' ∧
      List.Forall₂ (fun s' s : MosaicSection ℕ TestBrick ℕ =>
        List.Forall₂ (fun c' c : Chunk ℕ TestBrick ℕ =>
          chunkVolume testOps c' = chunkVolume testOps c) s'.chunks s.chunks)
        m'.sections testMosaic.sections :=
  C3_theorem testOps testMosaic [twoByTwoPlate] [] (by decide)

/-- C8: chunk construction for a section/slab returns PointerTooSmall exactly
when length times width times max height exceeds usize::MAX, in which case it
aborts before building anything; otherwise the visited bitset (modelled here
as a set of coordinates, its allocation size by visitedBitsetSize) covers
exactly length times width times max height voxels.  The length and width of a
real section are at least 1; without that the Rust code would divide by
zero. -/
theorem C8_theorem {τ : Type} [DecidableEq U] [DecidableEq C]
    (length width maxHeight : ℕ) (heightFn : ℕ → ℕ → ℕ)
    (brickFn : τ → ℕ → ℕ → ℕ → C → τ × U) (colorFn : ℕ → ℕ → C) (t0 : τ)
    (hl : 1 ≤ length) (hw : 1 ≤ width) :
    ((buildChunks (B := B) length width maxHeight heightFn brickFn colorFn t0 =
        Except.error MosaicError.pointerTooSmall) ↔
      usizeMax < length * width * maxHeight) ∧
      visitedBitsetSize length width maxHeight = length * width * maxHeight := by
  refine ⟨?_, rfl⟩
  have hdiv : usizeMax / length / width / maxHeight =
      usizeMax / (length * width * maxHeight) := by
    rw [Nat.div_div_eq_div_mul, Nat.div_div_eq_div_mul, Nat.mul_assoc]
  constructor
  · intro herr
    by_cases hc : 0 < maxHeight ∧ usizeMax / length / width / maxHeight = 0
    · rcases hc with ⟨hmh, hz⟩
      rw [hdiv] at hz
      have hpos : 0 < length * width * maxHeight :=
        Nat.mul_pos (Nat.mul_pos (by omega) (by omega)) hmh
      exact (Nat.div_eq_zero_iff hpos).mp hz
    · unfold buildChunks at herr
      rw [if_neg hc] at herr
      exact absurd herr (by simp)
  · intro hlt
    have hmh : 0 < maxHeight := by
      rcases Nat.eq_zero_or_pos maxHeight with hz | hp
      · rw [hz, Nat.mul_zero] at hlt
        omega
      · exact hp
    have hpos : 0 < length * width * maxHeight :=
      Nat.mul_pos (Nat.mul_pos (by omega) (by omega)) hmh
    have hz : usizeMax / length / width / maxHeight = 0 := by
      rw [hdiv]
      exact (Nat.div_eq_zero_iff hpos).mpr hlt
    unfold buildChunks
    rw [if_pos ⟨hmh, hz⟩]

/-- C8 witness instantiation at a concrete 1 x 1 x 1 slab. -/
theorem C8_witness :
    ((buildChunks (B := TestBrick) 1 1 1 (fun _ _ => 1)
        (fun (t : Unit) _ _ _ (_ : ℕ) => (t, (0 : ℕ))) (fun _ _ => 0) () =
      Except.error MosaicError.pointerTooSmall) ↔ usizeMax < 1 * 1 * 1) ∧
      visitedBitsetSize 1 1 1 = 1 * 1 * 1 :=
  C8_theorem 1 1 1 (fun _ _ => 1) (fun t _ _ _ _ => (t, 0)) (fun _ _ => 0) ()
    (by decide) (by decide)

theorem getD_map_range {β : Type} (f : ℕ → β) (n i : ℕ) (d : β) (hi : i < n) :
    ((List.range n).map f).getD i d = f i := by
  rw [List.getD_eq_getElem _ _ (by simpa using hi)]
  simp

theorem mem_sliceWs (chunkLength minL minW : ℕ) (coords : Finset (ℕ × ℕ))
    (i x : ℕ) :
    x ∈ (sliceWs chunkLength minL minW coords).getD i ∅ ↔
      i < chunkLength ∧ ∃ p ∈ coords, p.1 - minL = i ∧ p.2 - minW = x := by
  unfold sliceWs
  by_cases hi : i < chunkLength
  · rw [getD_map_range _ _ _ _ hi]
    simp only [Finset.mem_image, Finset.mem_filter]
    constructor
    · rintro ⟨p, ⟨hp, hpi⟩, rfl⟩
      exact ⟨hi, p, hp, hpi, rfl⟩
    · rintro ⟨_, p, hp, hpi, rfl⟩
      exact ⟨p, ⟨hp, hpi⟩, rfl⟩
  · rw [List.getD_eq_default _ _ (by simpa using (by omega : chunkLength ≤ i))]
    simp only [Finset.not_mem_empty, false_iff]
    rintro ⟨hcon, _⟩
    exact hi hcon

theorem length_partialSums (s : ℕ) (t : List ℕ) :
    (partialSums s t).length = t.length := by
  induction t generalizing s with
  | nil => rfl
  | cons h0 t2 ih => simp [partialSums, ih]

theorem sliceFold_spec (u : U) (c : C) (m : List (ℕ × Finset (ℕ × ℕ)))
    (minL maxL minW maxW : ℕ) :
    ∀ (heights : List ℕ) (s : ℕ) (acc : List (Chunk U B C)),
      (heights.foldl
        (fun (acc2 : ℕ × List (Chunk U B C)) height =>
          (acc2.1 + height,
           acc2.2 ++ [mkSlice u c m minL maxL minW maxW acc2.1 height]))
        (s, acc)).2 =
      acc ++ ((partialSums s heights).zip heights).map
        (fun p => mkSlice u c m minL maxL minW maxW p.1 p.2) := by
  intro heights
  induction heights with
  | nil =>
    intro s acc
    simp [partialSums]
  | cons h0 t ih =>
    intro s acc
    rw [List.foldl_cons, ih]
    simp [partialSums, List.append_assoc]

theorem partialSums_runLengthsGo {α : Type} [DecidableEq α] (vs : List α) :
    ∀ (v : α) (k b : ℕ), 0 < k →
      partialSums b (runLengthsGo v k vs) =
        b :: changeBoundariesGo v (b + k) vs := by
  induction vs with
  | nil =>
    intro v k b hk
    simp only [runLengthsGo, changeBoundariesGo]
    rw [if_pos hk]
    rfl
  | cons c rest ih =>
    intro v k b hk
    simp only [runLengthsGo, changeBoundariesGo]
    by_cases hne : v ≠ c
    · rw [if_pos hne, if_pos (fun h => hne h.symm)]
      simp only [partialSums]
      rw [ih c 1 (b + k) (by omega)]
    · rw [if_neg hne, if_neg (fun h : c ≠ v => hne (fun hvc => h hvc.symm))]
      rw [ih v (k + 1) b (by omega), Nat.add_assoc]

/-- C4: at this concrete input the region's bottom layer occupies columns
l = 0 and l = 1 but its top layer occupies only l = 1, so a recomputed
bounding box for the second slice would have offset l = 1 and length 1; the
code instead gives both slices the whole region's box: offset 0, length 2,
with a leading empty column set in the second slice.  This falsifies the
claim's recomputed-per-slice bounding box. -/
theorem C4_counterexample :
    ((sliceChunk (B := TestBrick) (0 : ℕ) (7 : ℕ)
        [(0, {(0, 0), (1, 0)}), (1, {(1, 0)})] 0 1 0 0 0).map
      fun ch => (ch.h, ch.l, ch.length, ch.wsIncluded)) =
      [(0, 0, 2, [{0}, {0}]), (1, 0, 2, [∅, {0}])] ∧
      (∀ p ∈ ({(1, 0)} : Finset (ℕ × ℕ)), 1 ≤ p.1) := by
  decide

/-- C4 (amended): a new output chunk begins at the region's minimum height and
exactly at each height whose column set differs from the previous height's;
every slice carries the whole flood-filled region's bounding box (offsets
min_l, min_w and extents computed from the region's min and max, not
recomputed per slice), and its own per-column membership sets built from its
own start height's coordinates. -/
theorem C4_theorem (u : U) (c : C) (s0 : Finset (ℕ × ℕ))
    (rest : List (ℕ × Finset (ℕ × ℕ))) (minL maxL minW maxW minH : ℕ) :
    ((sliceChunk (B := B) u c ((minH, s0) :: rest) minL maxL minW maxW minH).map
        fun ch => ch.h) =
      changeBoundaries minH (s0 :: rest.map Prod.snd) ∧
      (∀ slice ∈ sliceChunk (B := B) u c ((minH, s0) :: rest) minL maxL minW maxW minH,
        slice.l = minL ∧ slice.w = minW ∧ slice.length = maxL - minL + 1 ∧
          slice.width = maxW - minW + 1) ∧
      (∀ slice ∈ sliceChunk (B := B) u c ((minH, s0) :: rest) minL maxL minW maxW minH,
        ∀ i x, x ∈ slice.wsIncluded.getD i ∅ ↔
          i < maxL - minL + 1 ∧
            ∃ p ∈ (assocLookup ((minH, s0) :: rest) slice.h).getD ∅,
              p.1 - minL = i ∧ p.2 - minW = x) := by
  have hbody : sliceChunk (B := B) u c ((minH, s0) :: rest) minL maxL minW maxW minH =
      ((partialSums minH (runLengthsGo s0 1 (rest.map Prod.snd))).zip
        (runLengthsGo s0 1 (rest.map Prod.snd))).map
        fun p => mkSlice u c ((minH, s0) :: rest) minL maxL minW maxW p.1 p.2 := by
    show ((runLengthsGo s0 1 (rest.map Prod.snd)).foldl
      (fun (acc2 : ℕ × List (Chunk U B C)) height =>
        (acc2.1 + height,
         acc2.2 ++ [mkSlice u c ((minH, s0) :: rest) minL maxL minW maxW acc2.1 height]))
      (minH, [])).2 = _
    rw [sliceFold_spec]
    rfl
  refine ⟨?_, ?_, ?_⟩
  · rw [hbody, List.map_map]
    have hfst : ∀ p : ℕ × ℕ,
        ((fun ch : Chunk U B C => ch.h) ∘
          fun p : ℕ × ℕ => mkSlice u c ((minH, s0) :: rest) minL maxL minW maxW p.1 p.2) p =
          p.1 := fun p => rfl
    rw [List.map_congr_left fun p _ => hfst p]
    rw [List.map_fst_zip]
    · rw [partialSums_runLengthsGo (rest.map Prod.snd) s0 1 minH (by omega)]
      rfl
    · rw [length_partialSums]
  · intro slice hslice
    rw [hbody] at hslice
    rcases List.mem_map.mp hslice with ⟨p, _, rfl⟩
    exact ⟨rfl, rfl, rfl, rfl⟩
  · intro slice hslice i x
    rw [hbody] at hslice
    rcases List.mem_map.mp hslice with ⟨p, _, rfl⟩
    exact mem_sliceWs _ _ _ _ i x

theorem foldl_pair_fst {σ T α : Type} (g : σ → α → σ × T) (l : List α) :
    ∀ (acc : σ × List T),
      (l.foldl (fun a x => ((g a.1 x).1, a.2 ++ [(g a.1 x).2])) acc).1 =
        l.foldl (fun s x => (g s x).1) acc.1 := by
  induction l with
  | nil => intro acc; rfl
  | cons x xs ih => intro acc; rw [List.foldl_cons, List.foldl_cons, ih]

theorem foldl_pair_len {σ T α : Type} (g : σ → α → σ × T) (l : List α) :
    ∀ (acc : σ × List T),
      (l.foldl (fun a x => ((g a.1 x).1, a.2 ++ [(g a.1 x).2])) acc).2.length =
        acc.2.length + l.length := by
  induction l with
  | nil => intro acc; rfl
  | cons x xs ih =>
    intro acc
    rw [List.foldl_cons, ih]
    simp
    omega

theorem fromFn_fst_aux {σ T : Type} (f : σ → ℕ → ℕ → σ × T) (len : ℕ)
    (ws : List ℕ) :
    ∀ (acc : σ × List T),
      (ws.foldl
        (fun acc w =>
          (List.range len).foldl
            (fun (a : σ × List T) l => ((f a.1 l w).1, a.2 ++ [(f a.1 l w).2]))
            acc)
        acc).1 =
      ws.foldl (fun s w => (List.range len).foldl (fun s l => (f s l w).1) s)
        acc.1 := by
  induction ws with
  | nil => intro acc; rfl
  | cons w ws ih =>
    intro acc
    rw [List.foldl_cons, List.foldl_cons, ih]
    congr 1
    exact foldl_pair_fst (fun s l => f s l w) (List.range len) acc

theorem fromFn_fst {σ T : Type} (f : σ → ℕ → ℕ → σ × T) (len wid : ℕ) (s : σ) :
    (Pixels.fromFn f len wid s).1 =
      (List.range wid).foldl
        (fun s w => (List.range len).foldl (fun s l => (f s l w).1) s) s :=
  fromFn_fst_aux f len (List.range wid) (s, [])

theorem fromFn_len_aux {σ T : Type} (f : σ → ℕ → ℕ → σ × T) (len : ℕ)
    (ws : List ℕ) :
    ∀ (acc : σ × List T),
      (ws.foldl
        (fun acc w =>
          (List.range len).foldl
            (fun (a : σ × List T) l => ((f a.1 l w).1, a.2 ++ [(f a.1 l w).2]))
            acc)
        acc).2.length =
      acc.2.length + ws.length * len := by
  induction ws with
  | nil => intro acc; simp
  | cons w ws ih =>
    intro acc
    rw [List.foldl_cons, ih]
    have := foldl_pair_len (fun s l => f s l w) (List.range len) acc
    rw [this]
    simp
    ring

theorem fromFn_length {σ T : Type} (f : σ → ℕ → ℕ → σ × T) (len wid : ℕ)
    (s : σ) :
    (Pixels.fromFn f len wid s).2.valuesByRow.length = wid * len := by
  have := fromFn_len_aux f len (List.range wid) (s, [])
  simpa using this

theorem withPalette_fst {σ C₀ : Type} [Inhabited C₀]
    (nearest : σ → RawColor → σ × Option C₀) (p : Pixels RawColor) (s : σ) :
    (p.withPalette nearest s).1 =
      p.valuesByRow.foldl (fun s c => (nearest s c).1) s :=
  foldl_pair_fst (fun s c => ((nearest s c).1, (nearest s c).2.getD default))
    p.valuesByRow (s, [])

theorem flatMap_singleton {α β : Type} (g : α → β) (l : List α) :
    (l.flatMap fun x => [g x]) = l.map g := by
  induction l with
  | nil => rfl
  | cons x xs ih => simp [List.flatMap_cons, ih]

theorem foldl_addNearest {α : Type} (l : List α) :
    ∀ log : CallLog,
      l.foldl (fun s _ => { s with nearestCalls := s.nearestCalls + 1 }) log =
        { log with nearestCalls := log.nearestCalls + l.length } := by
  induction l with
  | nil => intro log; cases log; simp
  | cons x xs ih =>
    intro log
    rw [List.foldl_cons, ih]
    cases log
    simp
    omega

theorem foldl_addPixel {α : Type} (e : α → List (ℕ × ℕ)) (l : List α) :
    ∀ log : CallLog,
      l.foldl (fun s x => { s with pixelCalls := s.pixelCalls ++ e x }) log =
        { log with pixelCalls := log.pixelCalls ++ l.flatMap e } := by
  induction l with
  | nil => intro log; cases log; simp
  | cons x xs ih =>
    intro log
    rw [List.foldl_cons, ih]
    cases log
    simp

theorem foldl_addHeight {α : Type} (e : α → List (ℕ × ℕ)) (l : List α) :
    ∀ log : CallLog,
      l.foldl (fun s x => { s with heightCalls := s.heightCalls ++ e x }) log =
        { log with heightCalls := log.heightCalls ++ l.flatMap e } := by
  induction l with
  | nil => intro log; cases log; simp
  | cons x xs ih =>
    intro log
    rw [List.foldl_cons, ih]
    cases log
    simp

theorem le_foldl_max (xs : List ℕ) : ∀ b : ℕ, b ≤ xs.foldl max b := by
  induction xs with
  | nil => intro b; exact Nat.le_refl b
  | cons y ys ih =>
    intro b
    rw [List.foldl_cons]
    exact Nat.le_trans (Nat.le_max_left b y) (ih (max b y))

theorem mem_le_foldl_max (xs : List ℕ) :
    ∀ a ∈ xs, ∀ b : ℕ, a ≤ xs.foldl max b := by
  induction xs with
  | nil => intro a ha; cases ha
  | cons y ys ih =>
    intro a ha b
    rw [List.foldl_cons]
    rcases List.mem_cons.mp ha with rfl | ha2
    · exact Nat.le_trans (Nat.le_max_right b a) (le_foldl_max ys (max b a))
    · exact ih a ha2 (max b y)

theorem le_max_getD (l : List ℕ) (a : ℕ) (h : a ∈ l) : a ≤ l.max?.getD 0 := by
  cases l with
  | nil => cases h
  | cons x xs =>
    have hm : (x :: xs).max? = some (xs.foldl max x) := rfl
    rw [hm]
    rcases List.mem_cons.mp h with rfl | h2
    · exact le_foldl_max xs a
    · exact mem_le_foldl_max xs a h2 x

theorem value_le_maxOrZero (p : Pixels ℕ) (l w : ℕ) :
    p.value l w ≤ p.maxOrZero := by
  unfold Pixels.value Pixels.maxOrZero
  by_cases hi : w * p.length + l < p.valuesByRow.length
  · rw [List.getD_eq_getElem _ _ hi]
    exact le_max_getD _ _ (List.getElem_mem hi)
  · rw [List.getD_eq_default _ _ (by omega)]
    exact Nat.zero_le _

theorem length_tileCoords (sL sW len wid : ℕ) :
    (tileCoords sL sW len wid).length = wid * len := by
  unfold tileCoords
  rw [List.length_flatMap]
  have hmap : (List.range wid).map
      (List.length ∘ fun w => (List.range len).map fun l => (l + sL, w + sW)) =
      (List.range wid).map fun _ => len := by
    apply List.map_congr_left
    intro w _
    simp
  rw [hmap, List.map_const', List.sum_replicate, List.length_range, smul_eq_mul]

theorem mem_tileCoords (sL sW len wid : ℕ) (p : ℕ × ℕ) :
    p ∈ tileCoords sL sW len wid ↔
      sL ≤ p.1 ∧ p.1 < sL + len ∧ sW ≤ p.2 ∧ p.2 < sW + wid := by
  unfold tileCoords
  simp only [List.mem_flatMap, List.mem_map, List.mem_range]
  constructor
  · rintro ⟨w, hw, l, hl, rfl⟩
    exact ⟨by omega, by omega, by omega, by omega⟩
  · rintro ⟨h1, h2, h3, h4⟩
    refine ⟨p.2 - sW, by omega, p.1 - sL, by omega, ?_⟩
    cases p with
    | mk a b => simp only [Prod.mk.injEq]; omega

theorem nodup_tileCoords (sL sW len : ℕ) :
    ∀ wid : ℕ, (tileCoords sL sW len wid).Nodup := by
  intro wid
  induction wid with
  | zero => exact List.nodup_nil
  | succ wid ih =>
    have hsplit : tileCoords sL sW len (wid + 1) =
        tileCoords sL sW len wid ++
          ((List.range len).map fun l => (l + sL, wid + sW)) := by
      unfold tileCoords
      rw [List.range_succ, List.flatMap_append]
      simp
    rw [hsplit, List.nodup_append]
    refine ⟨ih, ?_, ?_⟩
    · apply List.Nodup.map
      · intro a b hab
        simpa using hab
      · exact List.nodup_range len
    · intro p hp hp2
      rcases (mem_tileCoords sL sW len wid p).mp hp with ⟨_, _, _, h4⟩
      rcases List.mem_map.mp hp2 with ⟨l, _, rfl⟩
      simp at h4
      omega

theorem assocLookup_eq_none_iff {κ : Type} [DecidableEq κ] {α : Type}
    (m : List (κ × α)) (k : κ) :
    assocLookup m k = none ↔ k ∉ m.map Prod.fst := by
  induction m with
  | nil => simp [assocLookup]
  | cons q rest ih =>
    obtain ⟨k0, v⟩ := q
    by_cases hk : k = k0
    · subst hk
      simp [assocLookup]
    · simp only [assocLookup, if_neg hk, List.map_cons, List.mem_cons]
      rw [ih]
      constructor
      · intro h1 h2
        rcases h2 with h2 | h2
        · exact hk h2
        · exact h1 h2
      · intro h1 h2
        exact h1 (Or.inr h2)

theorem isNewPos_fst {τ : Type} [DecidableEq U] [DecidableEq C]
    (brickFn : τ → ℕ → ℕ → ℕ → C → τ × U) (colorFn : ℕ → ℕ → C)
    (visited : Finset (ℕ × ℕ × ℕ)) (l w h : ℕ) (sb : U) (sc : C) (t : τ) :
    (isNewPos brickFn colorFn visited l w h sb sc t).1 = t ∨
      (isNewPos brickFn colorFn visited l w h sb sc t).1 =
        (brickFn t l w h sc).1 := by
  unfold isNewPos
  by_cases hv : (l, w, h) ∈ visited
  · rw [if_pos hv]
    exact Or.inl rfl
  · rw [if_neg hv]
    exact Or.inr rfl

theorem foldl_preserve {α β : Type} (f : β → α → β) (P : β → Prop) :
    ∀ (l : List α) (b : β), P b → (∀ b' a, a ∈ l → P b' → P (f b' a)) →
      P (l.foldl f b) := by
  intro l
  induction l with
  | nil => intro b hb _; exact hb
  | cons x xs ih =>
    intro b hb hstep
    rw [List.foldl_cons]
    exact ih (f b x) (hstep b x (List.mem_cons_self x xs) hb)
      fun b' a ha => hstep b' a (List.mem_cons_of_mem x ha)

theorem bfsLoop_brickSt {τ : Type} [DecidableEq U] [DecidableEq C]
    (heightFn : ℕ → ℕ → ℕ) (brickFn : τ → ℕ → ℕ → ℕ → C → τ × U)
    (colorFn : ℕ → ℕ → C) (length width H : ℕ) (sb : U) (sc : C)
    (P : τ → Prop)
    (hstep : ∀ t l w h c, l < length → w < width → h < H → P t →
      P ((brickFn t l w h c).1))
    (hHF : ∀ l w, heightFn l w ≤ H) :
    ∀ (fuel : ℕ) (st : BfsState τ),
      P st.brickSt →
      (∀ q ∈ st.queue, q.1 < length ∧ q.2.1 < width ∧ q.2.2 < H) →
      P (bfsLoop heightFn brickFn colorFn length width sb sc fuel st).brickSt := by
  intro fuel
  induction fuel with
  | zero => intro st hP _; exact hP
  | succ fuel ih =>
    intro st hP hq
    rcases hqe : st.queue with _ | ⟨⟨l, w, h⟩, rest⟩
    · have hred : bfsLoop heightFn brickFn colorFn length width sb sc
          (fuel + 1) st = st := by
        simp only [bfsLoop, hqe]
      rw [hred]
      exact hP
    · have hpop : l < length ∧ w < width ∧ h < H := by
        have := hq (l, w, h) (by rw [hqe]; exact List.mem_cons_self _ _)
        exact this
      obtain ⟨hl, hw, hh⟩ := hpop
      simp only [bfsLoop, hqe]
      by_cases hv : (l, w, h) ∈ st.visited
      · rw [if_pos hv]
        refine ih _ hP fun q hq2 => hq q ?_
        rw [hqe]
        exact List.mem_cons_of_mem _ hq2
      · rw [if_neg hv]
        generalize hg1 : (if 0 < l ∧ h < heightFn (l - 1) w then
            isNewPos brickFn colorFn (insert (l, w, h) st.visited) (l - 1) w h
              sb sc st.brickSt
          else (st.brickSt, false)) = r1
        generalize hg2 : (if l < length - 1 ∧ h < heightFn (l + 1) w then
            isNewPos brickFn colorFn (insert (l, w, h) st.visited) (l + 1) w h
              sb sc r1.1
          else (r1.1, false)) = r2
        generalize hg3 : (if 0 < w ∧ h < heightFn l (w - 1) then
            isNewPos brickFn colorFn (insert (l, w, h) st.visited) l (w - 1) h
              sb sc r2.1
          else (r2.1, false)) = r3
        generalize hg4 : (if w < width - 1 ∧ h < heightFn l (w + 1) then
            isNewPos brickFn colorFn (insert (l, w, h) st.visited) l (w + 1) h
              sb sc r3.1
          else (r3.1, false)) = r4
        generalize hg5 : (if 0 < h then
            isNewPos brickFn colorFn (insert (l, w, h) st.visited) l w (h - 1)
              sb sc r4.1
          else (r4.1, false)) = r5
        generalize hg6 : (if h < heightFn l w - 1 then
            isNewPos brickFn colorFn (insert (l, w, h) st.visited) l w (h + 1)
              sb sc r5.1
          else (r5.1, false)) = r6
        have p1 : P r1.1 := by
          rw [← hg1]
          by_cases hgu : 0 < l ∧ h < heightFn (l - 1) w
          · rw [if_pos hgu]
            rcases isNewPos_fst brickFn colorFn (insert (l, w, h) st.visited)
                (l - 1) w h sb sc st.brickSt with he | he <;> rw [he]
            · exact hP
            · exact hstep _ _ _ _ _ (by omega) hw hh hP
          · rw [if_neg hgu]
            exact hP
        have p2 : P r2.1 := by
          rw [← hg2]
          by_cases hgu : l < length - 1 ∧ h < heightFn (l + 1) w
          · rw [if_pos hgu]
            rcases isNewPos_fst brickFn colorFn (insert (l, w, h) st.visited)
                (l + 1) w h sb sc r1.1 with he | he <;> rw [he]
            · exact p1
            · exact hstep _ _ _ _ _ (by omega) hw hh p1
          · rw [if_neg hgu]
            exact p1
        have p3 : P r3.1 := by
          rw [← hg3]
          by_cases hgu : 0 < w ∧ h < heightFn l (w - 1)
          · rw [if_pos hgu]
            rcases isNewPos_fst brickFn colorFn (insert (l, w, h) st.visited)
                l (w - 1) h sb sc r2.1 with he | he <;> rw [he]
            · exact p2
            · exact hstep _ _ _ _ _ hl (by omega) hh p2
          · rw [if_neg hgu]
            exact p2
        have p4 : P r4.1 := by
          rw [← hg4]
          by_cases hgu : w < width - 1 ∧ h < heightFn l (w + 1)
          · rw [if_pos hgu]
            rcases isNewPos_fst brickFn colorFn (insert (l, w, h) st.visited)
                l (w + 1) h sb sc r3.1 with he | he <;> rw [he]
            · exact p3
            · exact hstep _ _ _ _ _ hl (by omega) hh p3
          · rw [if_neg hgu]
            exact p3
        have p5 : P r5.1 := by
          rw [← hg5]
          by_cases hgu : 0 < h
          · rw [if_pos hgu]
            rcases isNewPos_fst brickFn colorFn (insert (l, w, h) st.visited)
                l w (h - 1) sb sc r4.1 with he | he <;> rw [he]
            · exact p4
            · exact hstep _ _ _ _ _ hl hw (by omega) p4
          · rw [if_neg hgu]
            exact p4
        have p6 : P r6.1 := by
          rw [← hg6]
          by_cases hgu : h < heightFn l w - 1
          · rw [if_pos hgu]
            rcases isNewPos_fst brickFn colorFn (insert (l, w, h) st.visited)
                l w (h + 1) sb sc r5.1 with he | he <;> rw [he]
            · exact p5
            · have hfb := hHF l w
              exact hstep _ _ _ _ _ hl hw (by omega) p5
          · rw [if_neg hgu]
            exact p5
        refine ih _ p6 ?_
        intro q hq2
        simp only [List.mem_append] at hq2
        rcases hq2 with ((((((hq2 | hq2) | hq2) | hq2) | hq2) | hq2) | hq2)
        · refine hq q ?_
          rw [hqe]
          exact List.mem_cons_of_mem _ hq2
        · cases hb : r1.2 with
          | true =>
            rw [hb, if_pos rfl] at hq2
            rcases List.mem_singleton.mp hq2 with rfl
            exact ⟨show l - 1 < length by omega, hw, hh⟩
          | false =>
            rw [hb] at hq2
            simp at hq2
        · cases hb : r2.2 with
          | true =>
            rw [hb, if_pos rfl] at hq2
            rcases List.mem_singleton.mp hq2 with rfl
            by_cases hgu : l < length - 1 ∧ h < heightFn (l + 1) w
            · exact ⟨show l + 1 < length by omega, hw, hh⟩
            · rw [if_neg hgu] at hg2
              rw [← hg2] at hb
              simp at hb
          | false =>
            rw [hb] at hq2
            simp at hq2
        · cases hb : r3.2 with
          | true =>
            rw [hb, if_pos rfl] at hq2
            rcases List.mem_singleton.mp hq2 with rfl
            exact ⟨hl, show w - 1 < width by omega, hh⟩
          | false =>
            rw [hb] at hq2
            simp at hq2
        · cases hb : r4.2 with
          | true =>
            rw [hb, if_pos rfl] at hq2
            rcases List.mem_singleton.mp hq2 with rfl
            by_cases hgu : w < width - 1 ∧ h < heightFn l (w + 1)
            · exact ⟨hl, show w + 1 < width by omega, hh⟩
            · rw [if_neg hgu] at hg4
              rw [← hg4] at hb
              simp at hb
          | false =>
            rw [hb] at hq2
            simp at hq2
        · cases hb : r5.2 with
          | true =>
            rw [hb, if_pos rfl] at hq2
            rcases List.mem_singleton.mp hq2 with rfl
            exact ⟨hl, hw, show h - 1 < H by omega⟩
          | false =>
            rw [hb] at hq2
            simp at hq2
        · cases hb : r6.2 with
          | true =>
            rw [hb, if_pos rfl] at hq2
            rcases List.mem_singleton.mp hq2 with rfl
            by_cases hgu : h < heightFn l w - 1
            · have hfb := hHF l w
              exact ⟨hl, hw, show h + 1 < H by omega⟩
            · rw [if_neg hgu] at hg6
              rw [← hg6] at hb
              simp at hb
          | false =>
            rw [hb] at hq2
            simp at hq2

theorem processSeed_brickSt {τ : Type} [DecidableEq U] [DecidableEq C]
    (heightFn : ℕ → ℕ → ℕ) (brickFn : τ → ℕ → ℕ → ℕ → C → τ × U)
    (colorFn : ℕ → ℕ → C) (length width maxHeight H : ℕ)
    (P : τ → Prop)
    (hstep : ∀ t l w h c, l < length → w < width → h < H → P t →
      P ((brickFn t l w h c).1))
    (hHF : ∀ l w, heightFn l w ≤ H)
    (st : BuildState τ U B C) (l w h : ℕ)
    (hl : l < length) (hw : w < width) (hh : h < heightFn l w)
    (hP : P st.brickSt) :
    P ((processSeed (B := B) heightFn brickFn colorFn length width maxHeight
        st l w h).brickSt) := by
  have hhH : h < H := by
    have := hHF l w
    omega
  unfold processSeed
  by_cases hv : (l, w, h) ∈ st.visited
  · rw [if_pos hv]
    exact hP
  · rw [if_neg hv]
    refine bfsLoop_brickSt heightFn brickFn colorFn length width H _ _ P hstep
      hHF _ _ ?_ ?_
    · exact hstep _ _ _ _ _ hl hw hhH hP
    · intro q hq
      rcases List.mem_singleton.mp hq with rfl
      exact ⟨hl, hw, hhH⟩

theorem buildChunks_brickSt {τ : Type} [DecidableEq U] [DecidableEq C]
    (length width maxHeight H : ℕ) (heightFn : ℕ → ℕ → ℕ)
    (brickFn : τ → ℕ → ℕ → ℕ → C → τ × U) (colorFn : ℕ → ℕ → C)
    (P : τ → Prop)
    (hstep : ∀ t l w h c, l < length → w < width → h < H → P t →
      P ((brickFn t l w h c).1))
    (hHF : ∀ l w, heightFn l w ≤ H)
    (t0 : τ) (t' : τ) (chunks : List (Chunk U B C))
    (heq : buildChunks (B := B) length width maxHeight heightFn brickFn colorFn
      t0 = .ok (t', chunks))
    (hP : P t0) : P t' := by
  unfold buildChunks at heq
  by_cases hg : 0 < maxHeight ∧ usizeMax / length / width / maxHeight = 0
  · rw [if_pos hg] at heq
    cases heq
  · rw [if_neg hg] at heq
    dsimp only at heq
    injection heq with h1
    injection h1 with hfst hsnd
    rw [← hfst]
    refine foldl_preserve _ (fun st : BuildState τ U B C => P st.brickSt) _ _
      hP ?_
    intro st w hwmem hPst
    refine foldl_preserve _ (fun st : BuildState τ U B C => P st.brickSt) _ _
      hPst ?_
    intro st2 l hlmem hPst2
    refine foldl_preserve _ (fun st : BuildState τ U B C => P st.brickSt) _ _
      hPst2 ?_
    intro st3 h hhmem hPst3
    exact processSeed_brickSt heightFn brickFn colorFn length width maxHeight H
      P hstep hHF st3 l w h (List.mem_range.mp hlmem) (List.mem_range.mp hwmem)
      (List.mem_range.mp hhmem) hPst3

theorem buildChunks_log [DecidableEq U] [DecidableEq C]
    (pF : ℕ → ℕ → RawColor) (nF : RawColor → Option C) (hF : ℕ → ℕ → C → ℕ)
    (bF : ℕ → ℕ → ℕ → C → U) (sL sW sH len wid slabH : ℕ)
    (heightFn : ℕ → ℕ → ℕ) (colorFn : ℕ → ℕ → C)
    (hHF : ∀ l w, heightFn l w ≤ slabH) (log : CallLog)
    (t' : CallLog × List ((ℕ × ℕ × ℕ) × U)) (chunks : List (Chunk U B C))
    (heq : buildChunks (B := B) len wid slabH heightFn
      (memoBrick (loggedCallbacks pF nF hF bF) sL sW sH) colorFn (log, []) =
      .ok (t', chunks)) :
    ∃ ks : List (ℕ × ℕ × ℕ),
      t'.1 = { log with brickCalls := log.brickCalls ++ ks } ∧ ks.Nodup ∧
      ∀ k ∈ ks, sL ≤ k.1 ∧ k.1 < sL + len ∧ sW ≤ k.2.1 ∧ k.2.1 < sW + wid ∧
        sH ≤ k.2.2 ∧ k.2.2 < sH + slabH := by
  have hP := buildChunks_brickSt len wid slabH slabH heightFn
    (memoBrick (loggedCallbacks pF nF hF bF) sL sW sH) colorFn
    (fun t : CallLog × List ((ℕ × ℕ × ℕ) × U) =>
      t.1.brickCalls = log.brickCalls ++
        t.2.map (fun p => (p.1.1 + sL, p.1.2.1 + sW, p.1.2.2 + sH)) ∧
      t.1.pixelCalls = log.pixelCalls ∧
      t.1.nearestCalls = log.nearestCalls ∧
      t.1.heightCalls = log.heightCalls ∧
      (t.2.map Prod.fst).Nodup ∧
      ∀ k ∈ t.2, k.1.1 < len ∧ k.1.2.1 < wid ∧ k.1.2.2 < slabH)
    ?_ hHF (log, []) t' chunks heq ?_
  · obtain ⟨h1, h1p, h1n, h1h, h2, h3⟩ := hP
    refine ⟨t'.2.map (fun p => (p.1.1 + sL, p.1.2.1 + sW, p.1.2.2 + sH)),
      ?_, ?_, ?_⟩
    · obtain ⟨tlog, tcache⟩ := t'
      obtain ⟨c1, c2, c3, c4⟩ := tlog
      simp only at h1 h1p h1n h1h
      simp only [CallLog.mk.injEq]
      exact ⟨h1p, h1n, h1h, h1⟩
    · have hmm : (t'.2.map fun p : (ℕ × ℕ × ℕ) × U =>
          (p.1.1 + sL, p.1.2.1 + sW, p.1.2.2 + sH)) =
          (t'.2.map Prod.fst).map fun k => (k.1 + sL, k.2.1 + sW, k.2.2 + sH) := by
        rw [List.map_map]
        exact List.map_congr_left fun p _ => rfl
      rw [hmm]
      refine List.Nodup.map ?_ h2
      intro a b hab
      obtain ⟨a1, a2, a3⟩ := a
      obtain ⟨b1, b2, b3⟩ := b
      simp only [Prod.mk.injEq] at hab ⊢
      omega
    · intro k hk
      rcases List.mem_map.mp hk with ⟨p, hp, rfl⟩
      have := h3 p hp
      dsimp only
      omega
  · intro t l w h c hl hw hh hPt
    obtain ⟨h1, h1p, h1n, h1h, h2, h3⟩ := hPt
    rcases hlk : assocLookup t.2 (l, w, h) with _ | u
    · simp only [memoBrick, hlk, loggedCallbacks]
      refine ⟨?_, ?_, ?_, ?_, ?_, ?_⟩
      · simp only [List.map_append, List.map_cons, List.map_nil]
        rw [h1]
        simp [List.append_assoc]
      · exact h1p
      · exact h1n
      · exact h1h
      · simp only [List.map_append, List.map_cons, List.map_nil]
        rw [List.nodup_append]
        refine ⟨h2, List.nodup_singleton _, ?_⟩
        intro a ha hax
        rcases List.mem_singleton.mp hax with rfl
        exact (assocLookup_eq_none_iff t.2 (l, w, h)).mp hlk ha
      · intro k hk
        rcases List.mem_append.mp hk with hk2 | hk2
        · exact h3 k hk2
        · rcases List.mem_singleton.mp hk2 with rfl
          exact ⟨hl, hw, hh⟩
    · simp only [memoBrick, hlk]
      exact ⟨h1, h1p, h1n, h1h, h2, h3⟩
  · exact ⟨by simp, rfl, rfl, rfl, by simp, by simp⟩

theorem slabLoop_log [Inhabited C] [DecidableEq U] [DecidableEq C]
    (pF : ℕ → ℕ → RawColor) (nF : RawColor → Option C) (hF : ℕ → ℕ → C → ℕ)
    (bF : ℕ → ℕ → ℕ → C → U) (sL sW len wid : ℕ) (colors : Pixels C)
    (heightMap : Pixels ℕ) (maxHeight : ℕ)
    (hmax : ∀ l w, heightMap.value l w ≤ maxHeight) :
    ∀ (fuel sectionH : ℕ) (log s' : CallLog)
      (res : Except MosaicError (List (MosaicSection U B C))),
      slabLoop (B := B) (loggedCallbacks pF nF hF bF) sL sW len wid colors
        heightMap maxHeight fuel sectionH log = (s', res) →
      ∃ ks : List (ℕ × ℕ × ℕ),
        s' = { log with brickCalls := log.brickCalls ++ ks } ∧ ks.Nodup ∧
        ∀ k ∈ ks, sL ≤ k.1 ∧ k.1 < sL + len ∧ sW ≤ k.2.1 ∧ k.2.1 < sW + wid ∧
          sectionH ≤ k.2.2 := by
  intro fuel
  induction fuel with
  | zero =>
    intro sectionH log s' res heq
    simp only [slabLoop] at heq
    injection heq with h1 h2
    refine ⟨[], ?_, List.nodup_nil, by simp⟩
    rw [← h1]
    simp
  | succ fuel ih =>
    intro sectionH log s' res heq
    simp only [slabLoop] at heq
    split at heq
    case isTrue hlt =>
      split at heq
      case h_1 e hbc =>
        injection heq with h1 h2
        refine ⟨[], ?_, List.nodup_nil, by simp⟩
        rw [← h1]
        simp
      case h_2 t2 chunks hbc =>
        have hclos : ∀ l w,
            (if sectionH < heightMap.value l w then
              min sectionSize (heightMap.value l w - sectionH)
            else 0) ≤ min sectionSize (maxHeight - sectionH) := by
          intro l w
          have := hmax l w
          split
          · omega
          · exact Nat.zero_le _
        obtain ⟨ks0, hk0eq, hk0nd, hk0b⟩ :=
          buildChunks_log pF nF hF bF sL sW sectionH len wid
            (min sectionSize (maxHeight - sectionH)) _ _ hclos log t2 chunks hbc
        split at heq
        case h_1 s3 e hrec =>
          injection heq with h1 h2
          obtain ⟨ks1, hk1eq, hk1nd, hk1b⟩ :=
            ih (sectionH + min sectionSize (maxHeight - sectionH))
              t2.1 s3 (.error e) hrec
          refine ⟨ks0 ++ ks1, ?_, ?_, ?_⟩
          · rw [← h1, hk1eq, hk0eq]
            simp [List.append_assoc]
          · rw [List.nodup_append]
            refine ⟨hk0nd, hk1nd, ?_⟩
            intro a ha0 ha1
            have hb0 := hk0b a ha0
            have hb1 := hk1b a ha1
            omega
          · intro k hk
            rcases List.mem_append.mp hk with hk2 | hk2
            · have := hk0b k hk2
              exact ⟨this.1, this.2.1, this.2.2.1, this.2.2.2.1, this.2.2.2.2.1⟩
            · have := hk1b k hk2
              exact ⟨this.1, this.2.1, this.2.2.1, this.2.2.2.1, by omega⟩
        case h_2 s3 secs hrec =>
          injection heq with h1 h2
          obtain ⟨ks1, hk1eq, hk1nd, hk1b⟩ :=
            ih (sectionH + min sectionSize (maxHeight - sectionH))
              t2.1 s3 (.ok secs) hrec
          refine ⟨ks0 ++ ks1, ?_, ?_, ?_⟩
          · rw [← h1, hk1eq, hk0eq]
            simp [List.append_assoc]
          · rw [List.nodup_append]
            refine ⟨hk0nd, hk1nd, ?_⟩
            intro a ha0 ha1
            have hb0 := hk0b a ha0
            have hb1 := hk1b a ha1
            omega
          · intro k hk
            rcases List.mem_append.mp hk with hk2 | hk2
            · have := hk0b k hk2
              exact ⟨this.1, this.2.1, this.2.2.1, this.2.2.2.1, this.2.2.2.2.1⟩
            · have := hk1b k hk2
              exact ⟨this.1, this.2.1, this.2.2.1, this.2.2.2.1, by omega⟩
    case isFalse hlt =>
      injection heq with h1 h2
      refine ⟨[], ?_, List.nodup_nil, by simp⟩
      rw [← h1]
      simp

theorem pixelFold_log (sL sW len : ℕ) (ws : List ℕ) :
    ∀ (log : CallLog),
      ws.foldl
        (fun s w =>
          (List.range len).foldl
            (fun s l => { s with pixelCalls := s.pixelCalls ++ [(l + sL, w + sW)] })
            s)
        log =
      { log with pixelCalls := log.pixelCalls ++
          ws.flatMap fun w => (List.range len).map fun l => (l + sL, w + sW) } := by
  induction ws with
  | nil => intro log; cases log; simp
  | cons w ws ih =>
    intro log
    rw [List.foldl_cons, foldl_addPixel, ih]
    simp only [List.flatMap_cons, flatMap_singleton]
    cases log
    simp [List.append_assoc]

theorem heightFold_log (sL sW len : ℕ) (ws : List ℕ) :
    ∀ (log : CallLog),
      ws.foldl
        (fun s w =>
          (List.range len).foldl
            (fun s l => { s with heightCalls := s.heightCalls ++ [(l + sL, w + sW)] })
            s)
        log =
      { log with heightCalls := log.heightCalls ++
          ws.flatMap fun w => (List.range len).map fun l => (l + sL, w + sW) } := by
  induction ws with
  | nil => intro log; cases log; simp
  | cons w ws ih =>
    intro log
    rw [List.foldl_cons, foldl_addHeight, ih]
    simp only [List.flatMap_cons, flatMap_singleton]
    cases log
    simp [List.append_assoc]

theorem sectionPixels_fst (pF : ℕ → ℕ → RawColor) (nF : RawColor → Option C)
    (hF : ℕ → ℕ → C → ℕ) (bF : ℕ → ℕ → ℕ → C → U) (sL sW len wid : ℕ)
    (log : CallLog) :
    (Pixels.fromFn
      (fun s l w => (loggedCallbacks pF nF hF bF).pixel s (l + sL) (w + sW))
      len wid log).1 =
      { log with pixelCalls := log.pixelCalls ++ tileCoords sL sW len wid } := by
  refine Eq.trans (fromFn_fst _ len wid log) ?_
  exact pixelFold_log sL sW len (List.range wid) log

theorem sectionHeights_fst (pF : ℕ → ℕ → RawColor) (nF : RawColor → Option C)
    (hF : ℕ → ℕ → C → ℕ) (bF : ℕ → ℕ → ℕ → C → U) (sL sW len wid : ℕ)
    (colorAt : ℕ → ℕ → C) (log : CallLog) :
    (Pixels.fromFn
      (fun s l w =>
        (loggedCallbacks pF nF hF bF).height s (l + sL) (w + sW) (colorAt l w))
      len wid log).1 =
      { log with heightCalls := log.heightCalls ++ tileCoords sL sW len wid } := by
  refine Eq.trans (fromFn_fst _ len wid log) ?_
  exact heightFold_log sL sW len (List.range wid) log

theorem sectionNearest_fst (pF : ℕ → ℕ → RawColor) (nF : RawColor → Option C)
    (hF : ℕ → ℕ → C → ℕ) (bF : ℕ → ℕ → ℕ → C → U) [Inhabited C]
    (p : Pixels RawColor) (log : CallLog) :
    (p.withPalette (loggedCallbacks (U := U) pF nF hF bF).nearest log).1 =
      { log with nearestCalls := log.nearestCalls + p.valuesByRow.length } := by
  refine Eq.trans (withPalette_fst _ p log) ?_
  exact foldl_addNearest p.valuesByRow log

theorem colsLoop_mem (iW sL sLen : ℕ) :
    ∀ (fuel sW : ℕ), ∀ t ∈ colsLoop iW sL sLen fuel sW,
      t.1 = sL ∧ t.2.2.1 = sLen ∧ sW ≤ t.2.1 := by
  intro fuel
  induction fuel with
  | zero => intro sW t ht; cases ht
  | succ fuel ih =>
    intro sW t ht
    simp only [colsLoop] at ht
    split at ht
    case isTrue hlt =>
      rcases List.mem_cons.mp ht with rfl | ht2
      · exact ⟨rfl, rfl, Nat.le_refl sW⟩
      · have := ih (sW + min sectionSize (iW - sW)) t ht2
        exact ⟨this.1, this.2.1, by omega⟩
    case isFalse hlt => cases ht

theorem colsLoop_pairwise (iW sL sLen : ℕ) :
    ∀ (fuel sW : ℕ),
      List.Pairwise (fun a b : ℕ × ℕ × ℕ × ℕ => a.2.1 + a.2.2.2 ≤ b.2.1)
        (colsLoop iW sL sLen fuel sW) := by
  intro fuel
  induction fuel with
  | zero => intro sW; exact List.Pairwise.nil
  | succ fuel ih =>
    intro sW
    simp only [colsLoop]
    split
    case isTrue hlt =>
      rw [List.pairwise_cons]
      constructor
      · intro b hb
        have := colsLoop_mem iW sL sLen fuel
          (sW + min sectionSize (iW - sW)) b hb
        dsimp only
        omega
      · exact ih (sW + min sectionSize (iW - sW))
    case isFalse hlt => exact List.Pairwise.nil

theorem rowsLoop_mem_lower (iL iW : ℕ) :
    ∀ (fuel sL : ℕ), ∀ t ∈ rowsLoop iL iW fuel sL, sL ≤ t.1 := by
  intro fuel
  induction fuel with
  | zero => intro sL t ht; cases ht
  | succ fuel ih =>
    intro sL t ht
    simp only [rowsLoop] at ht
    split at ht
    case isTrue hlt =>
      rcases List.mem_append.mp ht with ht2 | ht2
      · have := colsLoop_mem iW sL (min sectionSize (iL - sL)) iW 0 t ht2
        omega
      · have := ih (sL + min sectionSize (iL - sL)) t ht2
        omega
    case isFalse hlt => cases ht

theorem rowsLoop_pairwise (iL iW : ℕ) :
    ∀ (fuel sL : ℕ),
      List.Pairwise
        (fun a b : ℕ × ℕ × ℕ × ℕ =>
          a.1 + a.2.2.1 ≤ b.1 ∨ a.2.1 + a.2.2.2 ≤ b.2.1)
        (rowsLoop iL iW fuel sL) := by
  intro fuel
  induction fuel with
  | zero => intro sL; exact List.Pairwise.nil
  | succ fuel ih =>
    intro sL
    simp only [rowsLoop]
    split
    case isTrue hlt =>
      rw [List.pairwise_append]
      refine ⟨?_, ?_, ?_⟩
      · refine List.Pairwise.imp (fun hab => Or.inr hab) ?_
        exact colsLoop_pairwise iW sL (min sectionSize (iL - sL)) iW 0
      · exact ih (sL + min sectionSize (iL - sL))
      · intro a ha b hb
        have hma := colsLoop_mem iW sL (min sectionSize (iL - sL)) iW 0 a ha
        have hmb := rowsLoop_mem_lower iL iW fuel
          (sL + min sectionSize (iL - sL)) b hb
        exact Or.inl (by omega)
    case isFalse hlt => exact List.Pairwise.nil

theorem makeSections_pairwise (iL iW : ℕ) :
    List.Pairwise
      (fun a b : ℕ × ℕ × ℕ × ℕ =>
        a.1 + a.2.2.1 ≤ b.1 ∨ a.2.1 + a.2.2.2 ≤ b.2.1)
      (makeSections iL iW) :=
  rowsLoop_pairwise iL iW iL 0

theorem sectionsLoop_log [Inhabited C] [DecidableEq U] [DecidableEq C]
    (pF : ℕ → ℕ → RawColor) (nF : RawColor → Option C) (hF : ℕ → ℕ → C → ℕ)
    (bF : ℕ → ℕ → ℕ → C → U) :
    ∀ (secs : List (ℕ × ℕ × ℕ × ℕ)),
      List.Pairwise
        (fun a b : ℕ × ℕ × ℕ × ℕ =>
          a.1 + a.2.2.1 ≤ b.1 ∨ a.2.1 + a.2.2.2 ≤ b.2.1) secs →
      ∀ (log s' : CallLog) (res : Except MosaicError (List (MosaicSection U B C))),
        sectionsLoop (B := B) (loggedCallbacks pF nF hF bF) secs log =
          (s', res) →
        ∃ P H Bk,
          s'.pixelCalls = log.pixelCalls ++ P ∧
          s'.nearestCalls = log.nearestCalls + P.length ∧
          s'.heightCalls = log.heightCalls ++ H ∧
          s'.brickCalls = log.brickCalls ++ Bk ∧
          P.Nodup ∧ H.Nodup ∧ Bk.Nodup ∧
          (∀ p ∈ P, ∃ t ∈ secs, p ∈ tileCoords t.1 t.2.1 t.2.2.1 t.2.2.2) ∧
          (∀ p ∈ H, ∃ t ∈ secs, p ∈ tileCoords t.1 t.2.1 t.2.2.1 t.2.2.2) ∧
          (∀ k ∈ Bk, ∃ t ∈ secs,
            (k.1, k.2.1) ∈ tileCoords t.1 t.2.1 t.2.2.1 t.2.2.2) := by
  intro secs
  induction secs with
  | nil =>
    intro _ log s' res heq
    simp only [sectionsLoop] at heq
    injection heq with hA hB
    refine ⟨[], [], [], ?_, ?_, ?_, ?_, List.nodup_nil, List.nodup_nil,
      List.nodup_nil, by simp, by simp, by simp⟩ <;> rw [← hA] <;> simp
  | cons t0 rest ih =>
    intro hdisj log s' res heq
    obtain ⟨sL, sW, len, wid⟩ := t0
    rw [List.pairwise_cons] at hdisj
    have hsep : ∀ t' ∈ rest, sL + len ≤ t'.1 ∨ sW + wid ≤ t'.2.1 :=
      fun t' ht' => hdisj.1 t' ht'
    simp only [sectionsLoop] at heq
    set pr := Pixels.fromFn
      (fun s l w =>
        (loggedCallbacks (U := U) (C := C) pF nF hF bF).pixel s (l + sL) (w + sW))
      len wid log with hpr
    set cr := pr.2.withPalette
      (loggedCallbacks (U := U) (C := C) pF nF hF bF).nearest pr.1 with hcrdef
    set hr := Pixels.fromFn
      (fun s l w =>
        (loggedCallbacks (U := U) (C := C) pF nF hF bF).height s (l + sL)
          (w + sW) (cr.2.value l w))
      len wid cr.1 with hhrdef
    have h1 : pr.1 =
        { log with pixelCalls := log.pixelCalls ++ tileCoords sL sW len wid } := by
      rw [hpr]
      exact sectionPixels_fst pF nF hF bF sL sW len wid log
    have hlen : pr.2.valuesByRow.length = wid * len := by
      rw [hpr]
      exact fromFn_length _ len wid log
    have h2 : cr.1 =
        { pr.1 with nearestCalls := pr.1.nearestCalls + pr.2.valuesByRow.length } := by
      rw [hcrdef]
      exact sectionNearest_fst pF nF hF bF pr.2 pr.1
    have h3 : hr.1 =
        { cr.1 with heightCalls := cr.1.heightCalls ++ tileCoords sL sW len wid } := by
      rw [hhrdef]
      exact sectionHeights_fst pF nF hF bF sL sW len wid _ cr.1
    have hfp : hr.1.pixelCalls = log.pixelCalls ++ tileCoords sL sW len wid := by
      rw [h3, h2, h1]
    have hfn : hr.1.nearestCalls = log.nearestCalls + wid * len := by
      rw [h3, h2, hlen, h1]
    have hfh : hr.1.heightCalls = log.heightCalls ++ tileCoords sL sW len wid := by
      rw [h3, h2, h1]
    have hfb : hr.1.brickCalls = log.brickCalls := by
      rw [h3, h2, h1]
    have hmax : ∀ l w, hr.2.value l w ≤ hr.2.maxOrZero :=
      fun l w => value_le_maxOrZero hr.2 l w
    split at heq
    case h_1 s2 e hsl =>
      obtain ⟨ks, hkeq, hknd, hkb⟩ :=
        slabLoop_log pF nF hF bF sL sW len wid cr.2 hr.2 hr.2.maxOrZero hmax
          hr.2.maxOrZero 0 hr.1 s2 (.error e) hsl
      injection heq with hA hB
      have hs2pix : s2.pixelCalls = log.pixelCalls ++ tileCoords sL sW len wid := by
        rw [hkeq, hfp]
      have hs2near : s2.nearestCalls = log.nearestCalls + wid * len := by
        rw [hkeq, hfn]
      have hs2h : s2.heightCalls = log.heightCalls ++ tileCoords sL sW len wid := by
        rw [hkeq, hfh]
      have hs2b : s2.brickCalls = log.brickCalls ++ ks := by
        rw [hkeq, hfb]
      refine ⟨tileCoords sL sW len wid, tileCoords sL sW len wid, ks,
        ?_, ?_, ?_, ?_, nodup_tileCoords sL sW len wid,
        nodup_tileCoords sL sW len wid, hknd, ?_, ?_, ?_⟩
      · rw [← hA, hs2pix]
      · rw [← hA, hs2near, length_tileCoords]
      · rw [← hA, hs2h]
      · rw [← hA, hs2b]
      · intro p hp
        exact ⟨(sL, sW, len, wid), List.mem_cons_self _ _, hp⟩
      · intro p hp
        exact ⟨(sL, sW, len, wid), List.mem_cons_self _ _, hp⟩
      · intro k hk
        have := hkb k hk
        refine ⟨(sL, sW, len, wid), List.mem_cons_self _ _, ?_⟩
        rw [mem_tileCoords]
        exact ⟨this.1, this.2.1, this.2.2.1, this.2.2.2.1⟩
    case h_2 s2 secs0 hsl =>
      obtain ⟨ks, hkeq, hknd, hkb⟩ :=
        slabLoop_log pF nF hF bF sL sW len wid cr.2 hr.2 hr.2.maxOrZero hmax
          hr.2.maxOrZero 0 hr.1 s2 (.ok secs0) hsl
      have hs2pix : s2.pixelCalls = log.pixelCalls ++ tileCoords sL sW len wid := by
        rw [hkeq, hfp]
      have hs2near : s2.nearestCalls = log.nearestCalls + wid * len := by
        rw [hkeq, hfn]
      have hs2h : s2.heightCalls = log.heightCalls ++ tileCoords sL sW len wid := by
        rw [hkeq, hfh]
      have hs2b : s2.brickCalls = log.brickCalls ++ ks := by
        rw [hkeq, hfb]
      have hkb2 : ∀ k ∈ ks, (k.1, k.2.1) ∈ tileCoords sL sW len wid := by
        intro k hk
        have := hkb k hk
        rw [mem_tileCoords]
        exact ⟨this.1, this.2.1, this.2.2.1, this.2.2.2.1⟩
      have hrest :
          ∀ (s3 : CallLog) res2,
            sectionsLoop (B := B) (loggedCallbacks pF nF hF bF) rest s2 =
              (s3, res2) →
            s' = s3 →
            ∃ P H Bk,
              s'.pixelCalls = log.pixelCalls ++ P ∧
              s'.nearestCalls = log.nearestCalls + P.length ∧
              s'.heightCalls = log.heightCalls ++ H ∧
              s'.brickCalls = log.brickCalls ++ Bk ∧
              P.Nodup ∧ H.Nodup ∧ Bk.Nodup ∧
              (∀ p ∈ P, ∃ t ∈ (sL, sW, len, wid) :: rest,
                p ∈ tileCoords t.1 t.2.1 t.2.2.1 t.2.2.2) ∧
              (∀ p ∈ H, ∃ t ∈ (sL, sW, len, wid) :: rest,
                p ∈ tileCoords t.1 t.2.1 t.2.2.1 t.2.2.2) ∧
              (∀ k ∈ Bk, ∃ t ∈ (sL, sW, len, wid) :: rest,
                (k.1, k.2.1) ∈ tileCoords t.1 t.2.1 t.2.2.1 t.2.2.2) := by
        intro s3 res2 hrec hA
        obtain ⟨P', H', Bk', c1, c2, c3, c4, n1, n2, n3, m1, m2, m3⟩ :=
          ih hdisj.2 s2 s3 res2 hrec
        refine ⟨tileCoords sL sW len wid ++ P',
          tileCoords sL sW len wid ++ H', ks ++ Bk', ?_, ?_, ?_, ?_,
          ?_, ?_, ?_, ?_, ?_, ?_⟩
        · rw [hA, c1, hs2pix, List.append_assoc]
        · rw [hA, c2, hs2near, List.length_append, length_tileCoords]
          omega
        · rw [hA, c3, hs2h, List.append_assoc]
        · rw [hA, c4, hs2b, List.append_assoc]
        · rw [List.nodup_append]
          refine ⟨nodup_tileCoords sL sW len wid, n1, ?_⟩
          intro p hp hp2
          obtain ⟨t, ht, hmemt⟩ := m1 p hp2
          have hb1 := (mem_tileCoords sL sW len wid p).mp hp
          have hb2 := (mem_tileCoords t.1 t.2.1 t.2.2.1 t.2.2.2 p).mp hmemt
          have := hsep t ht
          omega
        · rw [List.nodup_append]
          refine ⟨nodup_tileCoords sL sW len wid, n2, ?_⟩
          intro p hp hp2
          obtain ⟨t, ht, hmemt⟩ := m2 p hp2
          have hb1 := (mem_tileCoords sL sW len wid p).mp hp
          have hb2 := (mem_tileCoords t.1 t.2.1 t.2.2.1 t.2.2.2 p).mp hmemt
          have := hsep t ht
          omega
        · rw [List.nodup_append]
          refine ⟨hknd, n3, ?_⟩
          intro k hk hk2
          obtain ⟨t, ht, hmemt⟩ := m3 k hk2
          have hb1 := (mem_tileCoords sL sW len wid (k.1, k.2.1)).mp (hkb2 k hk)
          have hb2 :=
            (mem_tileCoords t.1 t.2.1 t.2.2.1 t.2.2.2 (k.1, k.2.1)).mp hmemt
          have := hsep t ht
          simp only at hb1 hb2
          omega
        · intro p hp
          rcases List.mem_append.mp hp with hp2 | hp2
          · exact ⟨(sL, sW, len, wid), List.mem_cons_self _ _, hp2⟩
          · obtain ⟨t, ht, hmemt⟩ := m1 p hp2
            exact ⟨t, List.mem_cons_of_mem _ ht, hmemt⟩
        · intro p hp
          rcases List.mem_append.mp hp with hp2 | hp2
          · exact ⟨(sL, sW, len, wid), List.mem_cons_self _ _, hp2⟩
          · obtain ⟨t, ht, hmemt⟩ := m2 p hp2
            exact ⟨t, List.mem_cons_of_mem _ ht, hmemt⟩
        · intro k hk
          rcases List.mem_append.mp hk with hk2 | hk2
          · exact ⟨(sL, sW, len, wid), List.mem_cons_self _ _, hkb2 k hk2⟩
          · obtain ⟨t, ht, hmemt⟩ := m3 k hk2
            exact ⟨t, List.mem_cons_of_mem _ ht, hmemt⟩
      split at heq
      case h_1 s3 e2 hrec =>
        injection heq with hA hB
        exact hrest s3 (.error e2) hrec hA.symm
      case h_2 s3 secsRest hrec =>
        injection heq with hA hB
        exact hrest s3 (.ok secsRest) hrec hA.symm

/-- C9: running Mosaic::from_image with callbacks that log every invocation
shows each caller-supplied callback is invoked at most once per coordinate,
regardless of the flood fill's traversal order: the pixel accessor is queried
at pairwise distinct (l, w) positions, the palette nearest lookup runs exactly
once per buffered pixel, the height callback is queried at pairwise distinct
(l, w) positions, and the brick selector is queried at pairwise distinct
(l, w, h) voxels. -/
theorem C9_theorem [Inhabited C] [DecidableEq U] [DecidableEq C]
    (pF : ℕ → ℕ → RawColor) (nF : RawColor → Option C) (hF : ℕ → ℕ → C → ℕ)
    (bF : ℕ → ℕ → ℕ → C → U) (imageLength imageWidth : ℕ) :
    ((fromImage (B := B) (loggedCallbacks pF nF hF bF) imageLength imageWidth
        ⟨[], 0, [], []⟩).1.pixelCalls).Nodup ∧
    (fromImage (B := B) (loggedCallbacks pF nF hF bF) imageLength imageWidth
        ⟨[], 0, [], []⟩).1.nearestCalls =
      ((fromImage (B := B) (loggedCallbacks pF nF hF bF) imageLength imageWidth
        ⟨[], 0, [], []⟩).1.pixelCalls).length ∧
    ((fromImage (B := B) (loggedCallbacks pF nF hF bF) imageLength imageWidth
        ⟨[], 0, [], []⟩).1.heightCalls).Nodup ∧
    ((fromImage (B := B) (loggedCallbacks pF nF hF bF) imageLength imageWidth
        ⟨[], 0, [], []⟩).1.brickCalls).Nodup := by
  rcases hsec : sectionsLoop (U := U) (B := B) (loggedCallbacks pF nF hF bF)
      (makeSections imageLength imageWidth) ⟨[], 0, [], []⟩ with ⟨s2, res⟩
  have hfi : (fromImage (B := B) (loggedCallbacks pF nF hF bF) imageLength
      imageWidth ⟨[], 0, [], []⟩).1 = s2 := by
    unfold fromImage
    rw [hsec]
    cases res <;> rfl
  obtain ⟨P, H, Bk, c1, c2, c3, c4, n1, n2, n3, _, _, _⟩ :=
    sectionsLoop_log pF nF hF bF (makeSections imageLength imageWidth)
      (makeSections_pairwise imageLength imageWidth) ⟨[], 0, [], []⟩ s2 res hsec
  rw [hfi]
  simp only at c1 c2 c3 c4
  refine ⟨?_, ?_, ?_, ?_⟩
  · rw [c1]
    simpa using n1
  · rw [c2, c1]
    simp
  · rw [c3]
    simpa using n2
  · rw [c4]
    simpa using n3

theorem nodup_lexEnum (m : ℕ) :
    ∀ n : ℕ,
      ((List.range n).flatMap fun l => (List.range m).map fun w => (l, w)).Nodup := by
  intro n
  induction n with
  | zero => exact List.nodup_nil
  | succ n ih =>
    have hsplit :
        ((List.range (n + 1)).flatMap fun l => (List.range m).map fun w => (l, w)) =
        ((List.range n).flatMap fun l => (List.range m).map fun w => (l, w)) ++
          ((List.range m).map fun w => (n, w)) := by
      rw [List.range_succ, List.flatMap_append]
      simp
    rw [hsplit, List.nodup_append]
    refine ⟨ih, ?_, ?_⟩
    · apply List.Nodup.map
      · intro a b hab
        simpa using hab
      · exact List.nodup_range m
    · intro p hp hp2
      rcases List.mem_flatMap.mp hp with ⟨l, hl, hpl⟩
      rcases List.mem_map.mp hpl with ⟨w, _, rfl⟩
      rcases List.mem_map.mp hp2 with ⟨w2, _, heq2⟩
      have : n = l := by simpa using congrArg Prod.fst heq2
      rw [List.mem_range] at hl
      omega

theorem mem_sortedPairs (s : Finset (ℕ × ℕ)) (p : ℕ × ℕ) :
    p ∈ sortedPairs s ↔ p ∈ s := by
  unfold sortedPairs
  rw [List.mem_filter]
  constructor
  · intro h
    simpa using h.2
  · intro h
    refine ⟨?_, by simpa using h⟩
    rw [List.mem_flatMap]
    refine ⟨p.1, ?_, ?_⟩
    · rw [List.mem_range]
      have h2 : p.1 ≤ s.sup (fun p : ℕ × ℕ => p.1) :=
        Finset.le_sup (f := fun p : ℕ × ℕ => p.1) h
      omega
    · rw [List.mem_map]
      refine ⟨p.2, ?_, ?_⟩
      · rw [List.mem_range]
        have h2 : p.2 ≤ s.sup (fun p : ℕ × ℕ => p.2) :=
          Finset.le_sup (f := fun p : ℕ × ℕ => p.2) h
        omega
      · exact Prod.ext rfl rfl

theorem nodup_sortedPairs (s : Finset (ℕ × ℕ)) : (sortedPairs s).Nodup := by
  unfold sortedPairs
  exact List.Nodup.filter _ (nodup_lexEnum _ _)

theorem fromFn_pure_snd_aux {T : Type} (g : ℕ → ℕ → T) (len : ℕ)
    (ws : List ℕ) :
    ∀ (acc : Unit × List T),
      (ws.foldl
        (fun (acc : Unit × List T) w =>
          (List.range len).foldl
            (fun (a : Unit × List T) l => (a.1, a.2 ++ [g l w]))
            acc)
        acc).2 =
      acc.2 ++ ws.flatMap fun w => (List.range len).map fun l => g l w := by
  have hinner : ∀ (w : ℕ) (acc : Unit × List T),
      ((List.range len).foldl
        (fun (a : Unit × List T) l => (a.1, a.2 ++ [g l w])) acc).2 =
      acc.2 ++ (List.range len).map fun l => g l w := by
    intro w
    generalize List.range len = ls
    induction ls with
    | nil => intro acc; simp
    | cons x xs ih =>
      intro acc
      rw [List.foldl_cons, ih]
      simp
  induction ws with
  | nil => intro acc; simp
  | cons w ws ih =>
    intro acc
    rw [List.foldl_cons, ih, hinner]
    simp [List.append_assoc]

theorem fromFn_pure_snd {T : Type} (g : ℕ → ℕ → T) (len wid : ℕ) :
    (Pixels.fromFn (fun s l w => (s, g l w)) len wid ()).2.valuesByRow =
      (List.range wid).flatMap fun w => (List.range len).map fun l => g l w := by
  have := fromFn_pure_snd_aux g len (List.range wid) ((), [])
  simpa using this

theorem getD_lexFlat {T : Type} (g : ℕ → ℕ → T) (len : ℕ) (d : T) :
    ∀ (wid l w : ℕ), l < len → w < wid →
      (((List.range wid).flatMap fun w => (List.range len).map fun l => g l w).getD
        (w * len + l) d) = g l w := by
  intro wid
  induction wid with
  | zero => intro l w _ hw; cases hw
  | succ wid ih =>
    intro l w hl hw
    have hsplit :
        ((List.range (wid + 1)).flatMap fun w => (List.range len).map fun l => g l w) =
        ((List.range wid).flatMap fun w => (List.range len).map fun l => g l w) ++
          ((List.range len).map fun l => g l wid) := by
      rw [List.range_succ, List.flatMap_append]
      simp
    have hlen :
        ((List.range wid).flatMap fun w => (List.range len).map fun l => g l w).length =
          wid * len := by
      rw [List.length_flatMap]
      have hmap : (List.range wid).map
          (List.length ∘ fun w => (List.range len).map fun l => g l w) =
          (List.range wid).map fun _ => len := by
        apply List.map_congr_left
        intro w _
        simp
      rw [hmap, List.map_const', List.sum_replicate, List.length_range,
        smul_eq_mul]
    rw [hsplit]
    by_cases hww : w < wid
    · rw [List.getD_append]
      · exact ih l w hl hww
      · rw [hlen]
        calc w * len + l < w * len + len := by omega
          _ = (w + 1) * len := by ring
          _ ≤ wid * len := Nat.mul_le_mul_right len (by omega)
    · have hwe : w = wid := by omega
      subst hwe
      rw [List.getD_append_right]
      · rw [hlen]
        have hidx : w * len + l - w * len = l := by omega
        rw [hidx]
        exact getD_map_range (fun l => g l w) len l d hl
      · rw [hlen]
        omega

theorem fromFn_pure_value {T : Type} [Inhabited T] (g : ℕ → ℕ → T)
    (len wid l w : ℕ) (hl : l < len) (hw : w < wid) :
    (Pixels.fromFn (fun s l w => (s, g l w)) len wid ()).2.value l w = g l w := by
  unfold Pixels.value
  rw [fromFn_pure_snd]
  exact getD_lexFlat g len default wid l w hl hw

theorem withPalette_pure_snd {C₀ : Type} [Inhabited C₀] (nF : RawColor → Option C₀)
    (p : Pixels RawColor) :
    ∀ (s : Unit),
      (p.withPalette (fun s c => (s, nF c)) s).2.valuesByRow =
        p.valuesByRow.map fun c => (nF c).getD default := by
  intro s
  show (p.valuesByRow.foldl _ (s, [])).2 = _
  generalize p.valuesByRow = l
  have haux : ∀ (acc : Unit × List C₀),
      (l.foldl (fun (a : Unit × List C₀) c => (a.1, a.2 ++ [(nF c).getD default]))
        acc).2 = acc.2 ++ l.map fun c => (nF c).getD default := by
    induction l with
    | nil => intro acc; simp
    | cons x xs ih =>
      intro acc
      rw [List.foldl_cons, ih]
      simp
  simpa using haux (s, [])

theorem withPalette_pure_value {C₀ : Type} [Inhabited C₀]
    (nF : RawColor → Option C₀) (p : Pixels RawColor) (s : Unit) (l w : ℕ)
    (hidx : w * p.length + l < p.valuesByRow.length) :
    (p.withPalette (fun s c => (s, nF c)) s).2.value l w =
      (nF (p.value l w)).getD default := by
  unfold Pixels.value
  rw [withPalette_pure_snd]
  show (p.valuesByRow.map fun c => (nF c).getD default).getD
    (w * p.length + l) default = _
  rw [List.getD_eq_getElem _ _ (by simpa using hidx),
    List.getD_eq_getElem _ _ hidx]
  simp

theorem runLengthsGo_pos {α : Type} [DecidableEq α] :
    ∀ (vs : List α) (v : α) (k : ℕ), 0 < k → ∀ x ∈ runLengthsGo v k vs, 0 < x := by
  intro vs
  induction vs with
  | nil =>
    intro v k hk x hx
    simp only [runLengthsGo, if_pos hk] at hx
    rcases List.mem_singleton.mp hx with rfl
    exact hk
  | cons c rest ih =>
    intro v k hk x hx
    simp only [runLengthsGo] at hx
    by_cases hne : v ≠ c
    · rw [if_pos hne] at hx
      rcases List.mem_cons.mp hx with rfl | hx2
      · exact hk
      · exact ih c 1 (by omega) x hx2
    · rw [if_neg hne] at hx
      exact ih v (k + 1) (by omega) x hx

theorem sum_runLengthsGo {α : Type} [DecidableEq α] :
    ∀ (vs : List α) (v : α) (k : ℕ), 0 < k →
      (runLengthsGo v k vs).sum = k + vs.length := by
  intro vs
  induction vs with
  | nil =>
    intro v k hk
    simp [runLengthsGo, if_pos hk]
  | cons c rest ih =>
    intro v k hk
    simp only [runLengthsGo]
    by_cases hne : v ≠ c
    · rw [if_pos hne, List.sum_cons, ih c 1 (by omega)]
      simp
      omega
    · rw [if_neg hne, ih v (k + 1) (by omega)]
      simp
      omega

theorem partialSums_lower :
    ∀ (hs : List ℕ) (b : ℕ), ∀ x ∈ partialSums b hs, b ≤ x := by
  intro hs
  induction hs with
  | nil => intro b x hx; cases hx
  | cons h t ih =>
    intro b x hx
    simp only [partialSums] at hx
    rcases List.mem_cons.mp hx with rfl | hx2
    · exact Nat.le_refl x
    · have := ih (b + h) x hx2
      omega

theorem zip_partialSums_cover :
    ∀ (hs : List ℕ) (b g : ℕ),
      (b ≤ g ∧ g < b + hs.sum) ↔
        ∃ p ∈ (partialSums b hs).zip hs, p.1 ≤ g ∧ g < p.1 + p.2 := by
  intro hs
  induction hs with
  | nil =>
    intro b g
    simp [partialSums]
  | cons h t ih =>
    intro b g
    simp only [partialSums, List.zip_cons_cons, List.sum_cons]
    constructor
    · rintro ⟨h1, h2⟩
      by_cases hg : g < b + h
      · exact ⟨(b, h), List.mem_cons_self _ _, h1, hg⟩
      · have := (ih (b + h) g).mp ⟨by omega, by omega⟩
        obtain ⟨p, hp, hp2⟩ := this
        exact ⟨p, List.mem_cons_of_mem _ hp, hp2⟩
    · rintro ⟨p, hp, hp1, hp2⟩
      rcases List.mem_cons.mp hp with rfl | hp3
      · constructor
        · exact hp1
        · omega
      · have := (ih (b + h) g).mpr ⟨p, hp3, hp1, hp2⟩
        omega

theorem runs_const {α : Type} [DecidableEq α] (d : α) :
    ∀ (vs : List α) (v : α) (k b : ℕ), 0 < k →
      ∀ p ∈ (partialSums b (runLengthsGo v k vs)).zip (runLengthsGo v k vs),
        b ≤ p.1 ∧ p.1 + p.2 ≤ b + k + vs.length ∧
        ∀ i < p.2, (List.replicate k v ++ vs).getD (p.1 + i - b) d =
          (List.replicate k v ++ vs).getD (p.1 - b) d := by
  intro vs
  induction vs with
  | nil =>
    intro v k b hk p hp
    simp only [runLengthsGo, if_pos hk, partialSums, List.zip_cons_cons,
      List.zip_nil_right] at hp
    rcases List.mem_singleton.mp hp with rfl
    refine ⟨Nat.le_refl b, by simp, ?_⟩
    intro i hi
    simp only [List.append_nil]
    have hsub1 : b + i - b = i := by omega
    have hsub2 : b - b = 0 := by omega
    rw [hsub1, hsub2, List.getD_eq_getElem _ _ (by simpa using hi),
      List.getD_eq_getElem _ _ (by simpa using hk)]
    simp
  | cons c rest ih =>
    intro v k b hk p hp
    simp only [runLengthsGo] at hp
    by_cases hne : v ≠ c
    · rw [if_pos hne] at hp
      simp only [partialSums, List.zip_cons_cons] at hp
      rcases List.mem_cons.mp hp with rfl | hp2
      · refine ⟨Nat.le_refl b, by simp, ?_⟩
        intro i hi
        have hsub1 : b + i - b = i := by omega
        have hsub2 : b - b = 0 := by omega
        rw [hsub1, hsub2]
        have hik : i < (List.replicate k v).length := by simpa using hi
        have h0k : 0 < (List.replicate k v).length := by simpa using hk
        rw [List.getD_eq_getElem _ _ (by simp; omega),
          List.getD_eq_getElem _ _ (by simp)]
        rw [List.getElem_append_left hik, List.getElem_append_left h0k]
        simp
      · obtain ⟨hb, hbound, hconst⟩ := ih c 1 (b + k) (by omega) p hp2
        refine ⟨by omega, by simp at hbound ⊢; omega, ?_⟩
        intro i hi
        have htrans : ∀ j : ℕ, b + k ≤ j →
            (List.replicate k v ++ c :: rest).getD (j - b) d =
              (List.replicate 1 c ++ rest).getD (j - (b + k)) d := by
          intro j hj
          have hj1 : (List.replicate k v).length ≤ j - b := by simp; omega
          rw [List.getD_append_right _ _ _ _ hj1]
          have heqidx : j - b - (List.replicate k v).length = j - (b + k) := by
            simp
            omega
          rw [heqidx]
          rfl
        rw [htrans (p.1 + i) (by omega), htrans p.1 (by omega)]
        exact hconst i hi
    · rw [if_neg hne] at hp
      have hvc : v = c := by
        by_contra hcon
        exact hne hcon
      obtain ⟨hb, hbound, hconst⟩ := ih v (k + 1) b (by omega) p hp
      have hstream : List.replicate (k + 1) v ++ rest =
          List.replicate k v ++ c :: rest := by
        rw [List.replicate_succ', List.append_assoc]
        subst hvc
        rfl
      refine ⟨hb, by simp at hbound ⊢; omega, ?_⟩
      intro i hi
      rw [← hstream]
      exact hconst i hi

theorem nodup_flatMap_pairwise {α β : Type} (l : List α) (f : α → List β)
    (hf : ∀ a ∈ l, (f a).Nodup)
    (hp : List.Pairwise (fun a b => ∀ x ∈ f a, x ∉ f b) l) :
    (l.flatMap f).Nodup := by
  induction l with
  | nil => exact List.nodup_nil
  | cons a l ih =>
    rw [List.flatMap_cons, List.nodup_append]
    rw [List.pairwise_cons] at hp
    refine ⟨hf a (List.mem_cons_self a l), ?_, ?_⟩
    · exact ih (fun b hb => hf b (List.mem_cons_of_mem a hb)) hp.2
    · intro x hx hx2
      rcases List.mem_flatMap.mp hx2 with ⟨b, hb, hxb⟩
      exact hp.1 b hb x hx hxb

theorem assocLookup_range' {β : Type} (dflt : β) :
    ∀ (m : List (ℕ × β)) (a k : ℕ),
      m.map Prod.fst = List.range' a m.length → a ≤ k → k < a + m.length →
      (assocLookup m k).getD dflt = (m.map Prod.snd).getD (k - a) dflt := by
  intro m
  induction m with
  | nil => intro a k _ _ hk; simp at hk; omega
  | cons e rest ih =>
    intro a k hkeys hak hk
    obtain ⟨k0, v⟩ := e
    simp only [List.map_cons, List.length_cons, List.range'_succ,
      List.cons.injEq] at hkeys
    obtain ⟨hk0, hrest⟩ := hkeys
    subst hk0
    by_cases hka : k = k0
    · subst hka
      simp [assocLookup]
    · have hlt : k0 + 1 ≤ k := by omega
      have : assocLookup ((k0, v) :: rest) k = assocLookup rest k := by
        simp [assocLookup, hka]
      rw [this, ih (k0 + 1) k hrest hlt (by simp at hk ⊢; omega)]
      have hidx : k - k0 = (k - (k0 + 1)) + 1 := by omega
      simp only [List.map_cons, hidx, List.getD_cons_succ]

theorem mem_mapCells_range' :
    ∀ (m : List (ℕ × Finset (ℕ × ℕ))) (a : ℕ),
      m.map Prod.fst = List.range' a m.length →
      ∀ v : ℕ × ℕ × ℕ,
        v ∈ mapCells m ↔
          (a ≤ v.2.2 ∧ v.2.2 < a + m.length ∧
            (v.1, v.2.1) ∈ (m.map Prod.snd).getD (v.2.2 - a) ∅) := by
  intro m
  induction m with
  | nil =>
    intro a _ v
    simp [mapCells]
  | cons e rest ih =>
    intro a hkeys v
    obtain ⟨k0, s0⟩ := e
    simp only [List.map_cons, List.length_cons, List.range'_succ,
      List.cons.injEq] at hkeys
    obtain ⟨hk0, hrest⟩ := hkeys
    subst hk0
    show v ∈ (s0.image fun p => (p.1, p.2, k0)) ∪ mapCells rest ↔ _
    rw [Finset.mem_union]
    constructor
    · rintro (hv | hv)
      · rcases Finset.mem_image.mp hv with ⟨p, hp, rfl⟩
        refine ⟨Nat.le_refl k0, by simp, ?_⟩
        have hz : k0 - k0 = 0 := by omega
        simp [hz, hp]
      · rcases (ih (k0 + 1) hrest v).mp hv with ⟨h1, h2, h3⟩
        refine ⟨by omega, by simp at h2 ⊢; omega, ?_⟩
        have hidx : v.2.2 - k0 = (v.2.2 - (k0 + 1)) + 1 := by omega
        simpa [hidx] using h3
    · rintro ⟨h1, h2, h3⟩
      by_cases hva : v.2.2 = k0
      · left
        have hz : v.2.2 - k0 = 0 := by omega
        rw [hz] at h3
        simp only [List.map_cons, List.getD_cons_zero] at h3
        refine Finset.mem_image.mpr ⟨(v.1, v.2.1), h3, ?_⟩
        rw [← hva]
      · right
        refine (ih (k0 + 1) hrest v).mpr ⟨by omega, by simp at h2 ⊢; omega, ?_⟩
        have hidx : v.2.2 - k0 = (v.2.2 - (k0 + 1)) + 1 := by omega
        rw [hidx] at h3
        simpa using h3

theorem zip_partialSums_pairwise :
    ∀ (hs : List ℕ) (b : ℕ), (∀ x ∈ hs, 0 < x) →
      List.Pairwise (fun q q' : ℕ × ℕ => q.1 + q.2 ≤ q'.1)
        ((partialSums b hs).zip hs) := by
  intro hs
  induction hs with
  | nil => intro b _; simp [partialSums]
  | cons h t ih =>
    intro b hpos
    simp only [partialSums, List.zip_cons_cons]
    rw [List.pairwise_cons]
    constructor
    · intro q hq
      have hq1 := (List.of_mem_zip hq).1
      have := partialSums_lower t (b + h) q.1 hq1
      simpa using this
    · exact ih (b + h) fun x hx => hpos x (List.mem_cons_of_mem h hx)

theorem flatMap_congr_mem {α β : Type} (l : List α) (f g : α → List β)
    (h : ∀ a ∈ l, f a = g a) : l.flatMap f = l.flatMap g := by
  induction l with
  | nil => rfl
  | cons a l ih =>
    rw [List.flatMap_cons, List.flatMap_cons, h a (List.mem_cons_self a l),
      ih fun b hb => h b (List.mem_cons_of_mem a hb)]

theorem sliceBricks_cells (u : U) (minL minW height start : ℕ)
    (coords : Finset (ℕ × ℕ))
    (hbound : ∀ p ∈ coords, minL ≤ p.1 ∧ minW ≤ p.2) :
    (((sliceBricks (B := B) u minL minW height coords).map
        fun b => (minL + b.l, minW + b.w, start + b.h)).Nodup) ∧
    (∀ v : ℕ × ℕ × ℕ,
      v ∈ ((sliceBricks (B := B) u minL minW height coords).map
        fun b => (minL + b.l, minW + b.w, start + b.h)) ↔
      ((v.1, v.2.1) ∈ coords ∧ start ≤ v.2.2 ∧ v.2.2 < start + height)) := by
  have heq : ((sliceBricks (B := B) u minL minW height coords).map
      fun b => (minL + b.l, minW + b.w, start + b.h)) =
      (sortedPairs coords).flatMap
        fun p => (List.range height).map fun i => (p.1, p.2, start + i) := by
    unfold sliceBricks
    rw [List.map_flatMap]
    apply flatMap_congr_mem
    intro p hp
    rw [List.map_map]
    apply List.map_congr_left
    intro i _
    have hb := hbound p ((mem_sortedPairs coords p).mp hp)
    obtain ⟨p1, p2⟩ := p
    have hb1 : minL ≤ p1 := hb.1
    have hb2 : minW ≤ p2 := hb.2
    show (minL + (p1 - minL), minW + (p2 - minW), start + i) = (p1, p2, start + i)
    have h1 : minL + (p1 - minL) = p1 := by omega
    have h2 : minW + (p2 - minW) = p2 := by omega
    rw [h1, h2]
  constructor
  · rw [heq]
    apply nodup_flatMap_pairwise
    · intro p hp
      apply List.Nodup.map
      · intro i j hij
        simpa using hij
      · exact List.nodup_range height
    · have hnd := nodup_sortedPairs coords
      refine List.Pairwise.imp_of_mem ?_ hnd
      intro p q hp hq hne x hx hx2
      rcases List.mem_map.mp hx with ⟨i, _, rfl⟩
      rcases List.mem_map.mp hx2 with ⟨j, _, heq2⟩
      obtain ⟨p1, p2⟩ := p
      obtain ⟨q1, q2⟩ := q
      simp only [Prod.mk.injEq] at heq2
      exact hne (Prod.ext (by omega) (by omega))
  · intro v
    rw [heq, List.mem_flatMap]
    constructor
    · rintro ⟨p, hp, hv⟩
      rcases List.mem_map.mp hv with ⟨i, hi, rfl⟩
      rw [List.mem_range] at hi
      have hpc := (mem_sortedPairs coords p).mp hp
      refine ⟨by simpa using hpc, by simp, by simp; omega⟩
    · rintro ⟨h1, h2, h3⟩
      refine ⟨(v.1, v.2.1), (mem_sortedPairs _ _).mpr h1, ?_⟩
      rw [List.mem_map]
      refine ⟨v.2.2 - start, by rw [List.mem_range]; omega, ?_⟩
      obtain ⟨v1, v2, v3⟩ := v
      dsimp only at h2 h3
      have h5 : start + (v3 - start) = v3 := by omega
      show (v1, v2, start + (v3 - start)) = (v1, v2, v3)
      rw [h5]

theorem chunkCells_mkSlice (u : U) (c : C) (m : List (ℕ × Finset (ℕ × ℕ)))
    (minL maxL minW maxW start height : ℕ) :
    chunkCells (mkSlice (B := B) u c m minL maxL minW maxW start height) =
      (sliceBricks (B := B) u minL minW height
        ((assocLookup m start).getD ∅)).map
        fun b => (minL + b.l, minW + b.w, start + b.h) := rfl

theorem sliceChunk_cells (u : U) (c : C)
    (m : List (ℕ × Finset (ℕ × ℕ))) (minL maxL minW maxW minH : ℕ)
    (hkeys : m.map Prod.fst = List.range' minH m.length)
    (hbound : ∀ e ∈ m, ∀ p ∈ e.2, minL ≤ p.1 ∧ minW ≤ p.2) :
    ((sliceChunk (B := B) u c m minL maxL minW maxW minH).flatMap
      chunkCells).Nodup ∧
    (∀ v : ℕ × ℕ × ℕ,
      v ∈ (sliceChunk (B := B) u c m minL maxL minW maxW minH).flatMap
        chunkCells ↔ v ∈ mapCells m) ∧
    (∀ ch ∈ sliceChunk (B := B) u c m minL maxL minW maxW minH,
      0 < ch.length ∧ 0 < ch.width ∧ 0 < ch.height) ∧
    (∀ ch ∈ sliceChunk (B := B) u c m minL maxL minW maxW minH,
      ∀ b ∈ ch.bricks, b.brick = Brick.unit u) := by
  cases m with
  | nil =>
    refine ⟨by simp [sliceChunk], ?_, by simp [sliceChunk], by simp [sliceChunk]⟩
    intro v
    simp [sliceChunk, mapCells]
  | cons e rest =>
    obtain ⟨h0, s0⟩ := e
    have hh0 : h0 = minH ∧ rest.map Prod.fst = List.range' (minH + 1) rest.length := by
      simpa [List.range'_succ] using hkeys
    obtain ⟨hh0e, hrest⟩ := hh0
    subst h0
    have hbody : sliceChunk (B := B) u c ((minH, s0) :: rest) minL maxL minW maxW
        minH =
        ((partialSums minH (runLengthsGo s0 1 (rest.map Prod.snd))).zip
          (runLengthsGo s0 1 (rest.map Prod.snd))).map
          fun q => mkSlice u c ((minH, s0) :: rest) minL maxL minW maxW q.1 q.2 := by
      show ((runLengthsGo s0 1 (rest.map Prod.snd)).foldl _ (minH, [])).2 = _
      rw [sliceFold_spec]
      rfl
    have hpos : ∀ x ∈ runLengthsGo s0 1 (rest.map Prod.snd), 0 < x :=
      runLengthsGo_pos _ s0 1 (by omega)
    have hsum : (runLengthsGo s0 1 (rest.map Prod.snd)).sum =
        1 + (rest.map Prod.snd).length := sum_runLengthsGo _ s0 1 (by omega)
    have hrc := runs_const (∅ : Finset (ℕ × ℕ)) (rest.map Prod.snd) s0 1 minH
      (by omega)
    have hstreameq : List.replicate 1 s0 ++ rest.map Prod.snd =
        s0 :: rest.map Prod.snd := rfl
    rw [hstreameq] at hrc
    have hlook : ∀ q ∈ (partialSums minH (runLengthsGo s0 1 (rest.map Prod.snd))).zip
        (runLengthsGo s0 1 (rest.map Prod.snd)),
        (assocLookup ((minH, s0) :: rest) q.1).getD ∅ =
          (s0 :: rest.map Prod.snd).getD (q.1 - minH) ∅ := by
      intro q hq
      obtain ⟨hq1, hq2, _⟩ := hrc q hq
      have hq2pos : 0 < q.2 := hpos q.2 (List.of_mem_zip hq).2
      have hb2 : q.1 < minH + ((minH, s0) :: rest).length := by
        simp only [List.length_cons]
        simp only [List.length_map] at hq2
        omega
      have := assocLookup_range' (∅ : Finset (ℕ × ℕ)) ((minH, s0) :: rest) minH
        q.1 hkeys hq1 hb2
      rw [this]
      rfl
    have hboundstream : ∀ i, ∀ p ∈ (s0 :: rest.map Prod.snd).getD i ∅,
        minL ≤ p.1 ∧ minW ≤ p.2 := by
      intro i p hp
      by_cases hi : i < (s0 :: rest.map Prod.snd).length
      · rw [List.getD_eq_getElem _ _ hi] at hp
        have hmem : (s0 :: rest.map Prod.snd)[i] ∈
            ((minH, s0) :: rest).map Prod.snd :=
          List.getElem_mem hi
        rcases List.mem_map.mp hmem with ⟨e2, he2, heq2⟩
        rw [← heq2] at hp
        exact hbound e2 he2 p hp
      · rw [List.getD_eq_default _ _ (by omega)] at hp
        exact absurd hp (Finset.not_mem_empty p)
    refine ⟨?_, ?_, ?_, ?_⟩
    · rw [hbody, List.flatMap_map]
      apply nodup_flatMap_pairwise
      · intro q hq
        rw [chunkCells_mkSlice, hlook q hq]
        exact (sliceBricks_cells u minL minW q.2 q.1 _
          (hboundstream (q.1 - minH))).1
      · have hpw := zip_partialSums_pairwise
          (runLengthsGo s0 1 (rest.map Prod.snd)) minH hpos
        refine hpw.imp_of_mem ?_
        intro q q' hq hq' hord x hx hx2
        rw [chunkCells_mkSlice, hlook q hq] at hx
        rw [chunkCells_mkSlice, hlook q' hq'] at hx2
        have a1 := ((sliceBricks_cells u minL minW q.2 q.1 _
          (hboundstream (q.1 - minH))).2 x).mp hx
        have a2 := ((sliceBricks_cells u minL minW q'.2 q'.1 _
          (hboundstream (q'.1 - minH))).2 x).mp hx2
        omega
    · intro v
      rw [hbody, List.flatMap_map, mem_mapCells_range' _ minH hkeys v,
        List.mem_flatMap]
      have hstreamform : (((minH, s0) :: rest).map Prod.snd) =
          s0 :: rest.map Prod.snd := rfl
      rw [hstreamform]
      constructor
      · rintro ⟨q, hq, hv⟩
        rw [chunkCells_mkSlice, hlook q hq] at hv
        obtain ⟨hv1, hv2, hv3⟩ := ((sliceBricks_cells u minL minW q.2 q.1 _
          (hboundstream (q.1 - minH))).2 v).mp hv
        obtain ⟨hq1, hq2, hqc⟩ := hrc q hq
        simp only [List.length_map] at hq2
        refine ⟨by omega, ?_, ?_⟩
        · simp only [List.length_cons]
          omega
        · have := hqc (v.2.2 - q.1) (by omega)
          have hidx : q.1 + (v.2.2 - q.1) = v.2.2 := by omega
          rw [hidx] at this
          rw [this]
          exact hv1
      · rintro ⟨h1, h2, h3⟩
        have h2' : v.2.2 < minH +
            (runLengthsGo s0 1 (rest.map Prod.snd)).sum := by
          rw [hsum]
          simp only [List.length_cons] at h2
          simp only [List.length_map]
          omega
        obtain ⟨q, hq, hql, hqr⟩ :=
          (zip_partialSums_cover (runLengthsGo s0 1 (rest.map Prod.snd)) minH
            v.2.2).mp ⟨h1, h2'⟩
        refine ⟨q, hq, ?_⟩
        rw [chunkCells_mkSlice, hlook q hq]
        apply ((sliceBricks_cells u minL minW q.2 q.1 _
          (hboundstream (q.1 - minH))).2 v).mpr
        refine ⟨?_, hql, hqr⟩
        obtain ⟨hq1, hq2, hqc⟩ := hrc q hq
        have := hqc (v.2.2 - q.1) (by omega)
        have hidx : q.1 + (v.2.2 - q.1) = v.2.2 := by omega
        rw [hidx] at this
        rw [this] at h3
        exact h3
    · intro ch hch
      rw [hbody] at hch
      rcases List.mem_map.mp hch with ⟨q, hq, rfl⟩
      refine ⟨Nat.succ_pos _, Nat.succ_pos _, ?_⟩
      exact hpos q.2 (List.of_mem_zip hq).2
    · intro ch hch b hb
      rw [hbody] at hch
      rcases List.mem_map.mp hch with ⟨q, hq, rfl⟩
      rcases List.mem_flatMap.mp hb with ⟨p, _, hbp⟩
      rcases List.mem_map.mp hbp with ⟨i, _, rfl⟩
      rfl

theorem mapInsert_spec :
    ∀ (m : List (ℕ × Finset (ℕ × ℕ))) (a h : ℕ) (p : ℕ × ℕ),
      m.map Prod.fst = List.range' a m.length →
      a ≤ h + 1 → h ≤ a + m.length →
      (mapInsert m h p).map Prod.fst =
        List.range' (min a h) (mapInsert m h p).length ∧
      min a h + (mapInsert m h p).length = max (a + m.length) (h + 1) := by
  intro m
  induction m with
  | nil =>
    intro a h p _ ha hb
    simp only [List.length_nil, Nat.add_zero] at hb
    have hmin : min a h = h := by omega
    constructor
    · show [h] = List.range' (min a h) 1
      rw [hmin]
      rfl
    · show min a h + 1 = max (a + 0) (h + 1)
      omega
  | cons e rest ih =>
    intro a h p hkeys ha hb
    obtain ⟨k0, s0⟩ := e
    simp only [List.map_cons, List.length_cons, List.range'_succ,
      List.cons.injEq] at hkeys
    obtain ⟨hk0, hrest⟩ := hkeys
    subst k0
    simp only [mapInsert]
    by_cases h1 : h < a
    · rw [if_pos h1]
      have hae : a = h + 1 := by omega
      have hmin : min a h = h := by omega
      constructor
      · show h :: a :: rest.map Prod.fst =
          List.range' (min a h) (rest.length + 1 + 1)
        rw [hmin, hrest, List.range'_succ, hae, List.range'_succ]
      · show min a h + (rest.length + 1 + 1) = max (a + (rest.length + 1)) (h + 1)
        omega
    · rw [if_neg h1]
      by_cases h2 : h = a
      · rw [if_pos h2]
        constructor
        · show a :: rest.map Prod.fst = List.range' (min a h) (rest.length + 1)
          have hmin : min a h = a := by omega
          rw [hmin, hrest, List.range'_succ]
        · show min a h + (rest.length + 1) = max (a + (rest.length + 1)) (h + 1)
          omega
      · rw [if_neg h2]
        have hgt : a < h := by omega
        obtain ⟨ihk, ihl⟩ := ih (a + 1) h p hrest (by omega)
          (by simp only [List.length_cons] at hb; omega)
        have hmin1 : min (a + 1) h = a + 1 := by omega
        rw [hmin1] at ihk ihl
        constructor
        · show a :: (mapInsert rest h p).map Prod.fst =
            List.range' (min a h) ((mapInsert rest h p).length + 1)
          have hmin : min a h = a := by omega
          rw [hmin, ihk, List.range'_succ]
        · show min a h + ((mapInsert rest h p).length + 1) =
            max (a + (rest.length + 1)) (h + 1)
          have hmin : min a h = a := by omega
          omega

theorem mapCells_mapInsert :
    ∀ (m : List (ℕ × Finset (ℕ × ℕ))) (h : ℕ) (p : ℕ × ℕ),
      mapCells (mapInsert m h p) = insert (p.1, p.2, h) (mapCells m) := by
  intro m
  induction m with
  | nil =>
    intro h p
    show ({p} : Finset (ℕ × ℕ)).image (fun q => (q.1, q.2, h)) ∪ ∅ =
      insert (p.1, p.2, h) ∅
    rw [Finset.image_singleton, Finset.union_empty]
    rfl
  | cons e rest ih =>
    intro h p
    obtain ⟨k0, s0⟩ := e
    simp only [mapInsert]
    by_cases h1 : h < k0
    · rw [if_pos h1]
      show ({p} : Finset (ℕ × ℕ)).image (fun q => (q.1, q.2, h)) ∪
        (s0.image (fun q => (q.1, q.2, k0)) ∪ mapCells rest) = _
      rw [Finset.image_singleton]
      rfl
    · rw [if_neg h1]
      by_cases h2 : h = k0
      · rw [if_pos h2]
        subst h2
        show (insert p s0).image (fun q => (q.1, q.2, h)) ∪ mapCells rest = _
        rw [Finset.image_insert, Finset.insert_union]
        rfl
      · rw [if_neg h2]
        show s0.image (fun q => (q.1, q.2, k0)) ∪ mapCells (mapInsert rest h p) = _
        rw [ih h p, Finset.union_insert]
        rfl

theorem mem_key_mapInsert :
    ∀ (m : List (ℕ × Finset (ℕ × ℕ))) (h : ℕ) (p : ℕ × ℕ),
      h ∈ (mapInsert m h p).map Prod.fst := by
  intro m
  induction m with
  | nil => intro h p; exact List.mem_singleton.mpr rfl
  | cons e rest ih =>
    intro h p
    obtain ⟨k0, s0⟩ := e
    simp only [mapInsert]
    by_cases h1 : h < k0
    · rw [if_pos h1]
      exact List.mem_cons_self _ _
    · rw [if_neg h1]
      by_cases h2 : h = k0
      · rw [if_pos h2]
        subst h2
        exact List.mem_cons_self _ _
      · rw [if_neg h2]
        simp only [List.map_cons, List.mem_cons]
        exact Or.inr (ih h p)

theorem mem_bfsDomain (length width : ℕ) (heightFn : ℕ → ℕ → ℕ)
    (v : ℕ × ℕ × ℕ) :
    v ∈ bfsDomain length width heightFn ↔
      v.1 < length ∧ v.2.1 < width ∧ v.2.2 < heightFn v.1 v.2.1 := by
  unfold bfsDomain
  simp only [Finset.mem_biUnion, Finset.mem_image, Finset.mem_range]
  constructor
  · rintro ⟨l, hl, w, hw, h, hh, rfl⟩
    exact ⟨hl, hw, hh⟩
  · rintro ⟨h1, h2, h3⟩
    exact ⟨v.1, h1, v.2.1, h2, v.2.2, h3, by rfl⟩

theorem card_bfsDomain_le (length width H : ℕ) (heightFn : ℕ → ℕ → ℕ)
    (hHF : ∀ l w, heightFn l w ≤ H) :
    (bfsDomain length width heightFn).card ≤ length * width * H := by
  have hsub : bfsDomain length width heightFn ⊆
      Finset.range length ×ˢ (Finset.range width ×ˢ Finset.range H) := by
    intro v hv
    rw [mem_bfsDomain] at hv
    rw [Finset.mem_product, Finset.mem_product]
    refine ⟨Finset.mem_range.mpr hv.1, Finset.mem_range.mpr hv.2.1, ?_⟩
    refine Finset.mem_range.mpr ?_
    have := hHF v.1 v.2.1
    omega
  have := Finset.card_le_card hsub
  rw [Finset.card_product, Finset.card_product] at this
  simp only [Finset.card_range] at this
  rw [Nat.mul_assoc]
  exact this

theorem bfsLoop_master {τ : Type} [DecidableEq U] [DecidableEq C]
    (heightFn : ℕ → ℕ → ℕ) (brickFn : τ → ℕ → ℕ → ℕ → C → τ × U)
    (colorFn : ℕ → ℕ → C) (length width : ℕ) (sb : U) (sc : C)
    (v₀ : Finset (ℕ × ℕ × ℕ)) :
    ∀ (fuel : ℕ) (st : BfsState τ),
      BfsInv length width heightFn v₀ st →
      7 * ((bfsDomain length width heightFn) \ st.visited).card +
        st.queue.length ≤ fuel →
      (bfsLoop heightFn brickFn colorFn length width sb sc fuel st).queue = [] ∧
      BfsInv length width heightFn v₀
        (bfsLoop heightFn brickFn colorFn length width sb sc fuel st) ∧
      st.visited ⊆
        (bfsLoop heightFn brickFn colorFn length width sb sc fuel st).visited ∧
      ∀ q ∈ st.queue,
        q ∈ (bfsLoop heightFn brickFn colorFn length width sb sc fuel st).visited := by
  intro fuel
  induction fuel with
  | zero =>
    intro st hInv hm
    have hq0 : st.queue.length = 0 := by omega
    have hq : st.queue = [] := List.length_eq_zero.mp hq0
    refine ⟨hq, hInv, Finset.Subset.refl _, ?_⟩
    intro q hq2
    rw [hq] at hq2
    cases hq2
  | succ fuel ih =>
    intro st hInv hm
    rcases hqe : st.queue with _ | ⟨⟨l, w, h⟩, rest⟩
    · have hred : bfsLoop heightFn brickFn colorFn length width sb sc
          (fuel + 1) st = st := by
        simp only [bfsLoop, hqe]
      rw [hred]
      refine ⟨hqe, hInv, Finset.Subset.refl _, ?_⟩
      intro q hq2
      cases hq2
    · obtain ⟨hq1, hq2i, hq3, hq4, hq5, hq6, hq7d⟩ := hInv
      have hpopD : (l, w, h) ∈ bfsDomain length width heightFn :=
        hq1 (l, w, h) (by rw [hqe]; exact List.mem_cons_self _ _)
      have hpopb := (mem_bfsDomain length width heightFn (l, w, h)).mp hpopD
      obtain ⟨hl, hw, hh⟩ := hpopb
      dsimp only at hl hw hh
      have hpop5 := hq5 (l, w, h) (by rw [hqe]; exact List.mem_cons_self _ _)
      dsimp only at hpop5
      simp only [bfsLoop, hqe]
      by_cases hv : (l, w, h) ∈ st.visited
      · rw [if_pos hv]
        have hInv2 : BfsInv length width heightFn v₀ { st with queue := rest } := by
          refine ⟨?_, hq2i, hq3, hq4, ?_, hq6, hq7d⟩
          · intro q hq2
            exact hq1 q (by rw [hqe]; exact List.mem_cons_of_mem _ hq2)
          · intro q hq2
            exact hq5 q (by rw [hqe]; exact List.mem_cons_of_mem _ hq2)
        have hm2 : 7 * ((bfsDomain length width heightFn) \
            ({ st with queue := rest } : BfsState τ).visited).card +
            ({ st with queue := rest } : BfsState τ).queue.length ≤ fuel := by
          show 7 * ((bfsDomain length width heightFn) \ st.visited).card +
            rest.length ≤ fuel
          have : st.queue.length = rest.length + 1 := by rw [hqe]; rfl
          omega
        obtain ⟨c1, c2, c3, c4⟩ := ih _ hInv2 hm2
        refine ⟨c1, c2, c3, ?_⟩
        intro q hq2
        rcases List.mem_cons.mp hq2 with rfl | hq7
        · exact c3 hv
        · exact c4 q hq7
      · rw [if_neg hv]
        generalize hg1 : (if 0 < l ∧ h < heightFn (l - 1) w then
            isNewPos brickFn colorFn (insert (l, w, h) st.visited) (l - 1) w h
              sb sc st.brickSt
          else (st.brickSt, false)) = r1
        generalize hg2 : (if l < length - 1 ∧ h < heightFn (l + 1) w then
            isNewPos brickFn colorFn (insert (l, w, h) st.visited) (l + 1) w h
              sb sc r1.1
          else (r1.1, false)) = r2
        generalize hg3 : (if 0 < w ∧ h < heightFn l (w - 1) then
            isNewPos brickFn colorFn (insert (l, w, h) st.visited) l (w - 1) h
              sb sc r2.1
          else (r2.1, false)) = r3
        generalize hg4 : (if w < width - 1 ∧ h < heightFn l (w + 1) then
            isNewPos brickFn colorFn (insert (l, w, h) st.visited) l (w + 1) h
              sb sc r3.1
          else (r3.1, false)) = r4
        generalize hg5 : (if 0 < h then
            isNewPos brickFn colorFn (insert (l, w, h) st.visited) l w (h - 1)
              sb sc r4.1
          else (r4.1, false)) = r5
        generalize hg6 : (if h < heightFn l w - 1 then
            isNewPos brickFn colorFn (insert (l, w, h) st.visited) l w (h + 1)
              sb sc r5.1
          else (r5.1, false)) = r6
        obtain ⟨hkeys2, hlen2⟩ := mapInsert_spec st.coords st.minH h (l, w)
          hq4 hpop5.1 hpop5.2
        have hcells2 : mapCells (mapInsert st.coords h (l, w)) =
            insert (l, w, h) (mapCells st.coords) :=
          mapCells_mapInsert st.coords h (l, w)
        have hpopnc : (l, w, h) ∉ v₀ ∧ (l, w, h) ∉ mapCells st.coords := by
          rw [hq2i, Finset.mem_union] at hv
          exact ⟨fun hc => hv (Or.inl hc), fun hc => hv (Or.inr hc)⟩
        have hhmem : st.minH.min h ≤ h ∧
            h < st.minH.min h + (mapInsert st.coords h (l, w)).length := by
          have := mem_key_mapInsert st.coords h (l, w)
          rw [hkeys2] at this
          have := List.mem_range'_1.mp this
          exact this
        have hInv2 : BfsInv length width heightFn v₀
            { brickSt := r6.1,
              visited := insert (l, w, h) st.visited,
              queue := rest ++
                (if r1.2 then [(l - 1, w, h)] else []) ++
                (if r2.2 then [(l + 1, w, h)] else []) ++
                (if r3.2 then [(l, w - 1, h)] else []) ++
                (if r4.2 then [(l, w + 1, h)] else []) ++
                (if r5.2 then [(l, w, h - 1)] else []) ++
                (if r6.2 then [(l, w, h + 1)] else []),
              coords := mapInsert st.coords h (l, w),
              minL := min st.minL l,
              maxL := max st.maxL l,
              minW := min st.minW w,
              maxW := max st.maxW w,
              minH := min st.minH h } := by
          refine ⟨?_, ?_, ?_, ?_, ?_, ?_, ?_⟩
          · intro q hq7
            simp only [List.mem_append] at hq7
            rcases hq7 with ((((((hq7 | hq7) | hq7) | hq7) | hq7) | hq7) | hq7)
            · exact hq1 q (by rw [hqe]; exact List.mem_cons_of_mem _ hq7)
            · cases hb : r1.2 with
              | true =>
                rw [hb, if_pos rfl] at hq7
                rcases List.mem_singleton.mp hq7 with rfl
                by_cases hgu : 0 < l ∧ h < heightFn (l - 1) w
                · rw [mem_bfsDomain]
                  exact ⟨show l - 1 < length by omega, hw, hgu.2⟩
                · rw [if_neg hgu] at hg1
                  rw [← hg1] at hb
                  simp at hb
              | false =>
                rw [hb] at hq7
                simp at hq7
            · cases hb : r2.2 with
              | true =>
                rw [hb, if_pos rfl] at hq7
                rcases List.mem_singleton.mp hq7 with rfl
                by_cases hgu : l < length - 1 ∧ h < heightFn (l + 1) w
                · rw [mem_bfsDomain]
                  exact ⟨show l + 1 < length by omega, hw, hgu.2⟩
                · rw [if_neg hgu] at hg2
                  rw [← hg2] at hb
                  simp at hb
              | false =>
                rw [hb] at hq7
                simp at hq7
            · cases hb : r3.2 with
              | true =>
                rw [hb, if_pos rfl] at hq7
                rcases List.mem_singleton.mp hq7 with rfl
                by_cases hgu : 0 < w ∧ h < heightFn l (w - 1)
                · rw [mem_bfsDomain]
                  exact ⟨hl, show w - 1 < width by omega, hgu.2⟩
                · rw [if_neg hgu] at hg3
                  rw [← hg3] at hb
                  simp at hb
              | false =>
                rw [hb] at hq7
                simp at hq7
            · cases hb : r4.2 with
              | true =>
                rw [hb, if_pos rfl] at hq7
                rcases List.mem_singleton.mp hq7 with rfl
                by_cases hgu : w < width - 1 ∧ h < heightFn l (w + 1)
                · rw [mem_bfsDomain]
                  exact ⟨hl, show w + 1 < width by omega, hgu.2⟩
                · rw [if_neg hgu] at hg4
                  rw [← hg4] at hb
                  simp at hb
              | false =>
                rw [hb] at hq7
                simp at hq7
            · cases hb : r5.2 with
              | true =>
                rw [hb, if_pos rfl] at hq7
                rcases List.mem_singleton.mp hq7 with rfl
                rw [mem_bfsDomain]
                exact ⟨hl, hw, show h - 1 < heightFn l w by omega⟩
              | false =>
                rw [hb] at hq7
                simp at hq7
            · cases hb : r6.2 with
              | true =>
                rw [hb, if_pos rfl] at hq7
                rcases List.mem_singleton.mp hq7 with rfl
                by_cases hgu : h < heightFn l w - 1
                · rw [mem_bfsDomain]
                  exact ⟨hl, hw, show h + 1 < heightFn l w by omega⟩
                · rw [if_neg hgu] at hg6
                  rw [← hg6] at hb
                  simp at hb
              | false =>
                rw [hb] at hq7
                simp at hq7
          · show insert (l, w, h) st.visited = v₀ ∪ mapCells (mapInsert st.coords h (l, w))
            rw [hcells2, hq2i, Finset.union_insert]
          · show Disjoint v₀ (mapCells (mapInsert st.coords h (l, w)))
            rw [hcells2, Finset.disjoint_insert_right]
            exact ⟨hpopnc.1, hq3⟩
          · exact hkeys2
          · intro q hq7
            simp only [List.mem_append] at hq7
            show min st.minH h ≤ q.2.2 + 1 ∧
              q.2.2 ≤ min st.minH h + (mapInsert st.coords h (l, w)).length
            rcases hq7 with ((((((hq7 | hq7) | hq7) | hq7) | hq7) | hq7) | hq7)
            · have := hq5 q (by rw [hqe]; exact List.mem_cons_of_mem _ hq7)
              omega
            · rcases List.mem_ite_nil_right.mp hq7 with ⟨_, hmem9⟩
              rcases List.mem_singleton.mp hmem9 with rfl
              show min st.minH h ≤ h + 1 ∧
                h ≤ min st.minH h + (mapInsert st.coords h (l, w)).length
              omega
            · rcases List.mem_ite_nil_right.mp hq7 with ⟨_, hmem9⟩
              rcases List.mem_singleton.mp hmem9 with rfl
              show min st.minH h ≤ h + 1 ∧
                h ≤ min st.minH h + (mapInsert st.coords h (l, w)).length
              omega
            · rcases List.mem_ite_nil_right.mp hq7 with ⟨_, hmem9⟩
              rcases List.mem_singleton.mp hmem9 with rfl
              show min st.minH h ≤ h + 1 ∧
                h ≤ min st.minH h + (mapInsert st.coords h (l, w)).length
              omega
            · rcases List.mem_ite_nil_right.mp hq7 with ⟨_, hmem9⟩
              rcases List.mem_singleton.mp hmem9 with rfl
              show min st.minH h ≤ h + 1 ∧
                h ≤ min st.minH h + (mapInsert st.coords h (l, w)).length
              omega
            · rcases List.mem_ite_nil_right.mp hq7 with ⟨_, hmem9⟩
              rcases List.mem_singleton.mp hmem9 with rfl
              show min st.minH h ≤ (h - 1) + 1 ∧
                h - 1 ≤ min st.minH h + (mapInsert st.coords h (l, w)).length
              omega
            · rcases List.mem_ite_nil_right.mp hq7 with ⟨_, hmem9⟩
              rcases List.mem_singleton.mp hmem9 with rfl
              show min st.minH h ≤ (h + 1) + 1 ∧
                h + 1 ≤ min st.minH h + (mapInsert st.coords h (l, w)).length
              omega
          · intro v hv7
            show min st.minL l ≤ v.1 ∧ min st.minW w ≤ v.2.1
            rw [hcells2, Finset.mem_insert] at hv7
            rcases hv7 with rfl | hv7
            · simp only
              omega
            · have := hq6 v hv7
              omega
          · intro v hv7
            rw [hcells2, Finset.mem_insert] at hv7
            rcases hv7 with rfl | hv7
            · exact hpopD
            · exact hq7d v hv7
        have hmeas : (l, w, h) ∈ (bfsDomain length width heightFn) \ st.visited :=
          Finset.mem_sdiff.mpr ⟨hpopD, hv⟩
        have hcard : ((bfsDomain length width heightFn) \
            insert (l, w, h) st.visited).card =
            ((bfsDomain length width heightFn) \ st.visited).card - 1 := by
          have hset : (bfsDomain length width heightFn) \
              insert (l, w, h) st.visited =
              ((bfsDomain length width heightFn) \ st.visited).erase (l, w, h) := by
            ext x
            simp only [Finset.mem_sdiff, Finset.mem_erase, Finset.mem_insert]
            tauto
          rw [hset, Finset.card_erase_of_mem hmeas]
        have hcpos : 0 < ((bfsDomain length width heightFn) \ st.visited).card :=
          Finset.card_pos.mpr ⟨(l, w, h), hmeas⟩
        have hElen : ∀ (b : Bool) (x : ℕ × ℕ × ℕ),
            (if b then [x] else []).length ≤ 1 := by
          intro b x
          cases b <;> simp
        have hqlen : st.queue.length = rest.length + 1 := by rw [hqe]; rfl
        have hm2 : 7 * ((bfsDomain length width heightFn) \
            insert (l, w, h) st.visited).card +
            (rest ++
              (if r1.2 then [(l - 1, w, h)] else []) ++
              (if r2.2 then [(l + 1, w, h)] else []) ++
              (if r3.2 then [(l, w - 1, h)] else []) ++
              (if r4.2 then [(l, w + 1, h)] else []) ++
              (if r5.2 then [(l, w, h - 1)] else []) ++
              (if r6.2 then [(l, w, h + 1)] else [])).length ≤ fuel := by
          rw [hcard]
          simp only [List.length_append]
          have e1 := hElen r1.2 (l - 1, w, h)
          have e2 := hElen r2.2 (l + 1, w, h)
          have e3 := hElen r3.2 (l, w - 1, h)
          have e4 := hElen r4.2 (l, w + 1, h)
          have e5 := hElen r5.2 (l, w, h - 1)
          have e6 := hElen r6.2 (l, w, h + 1)
          omega
        obtain ⟨c1, c2, c3, c4⟩ := ih _ hInv2 hm2
        refine ⟨c1, c2, ?_, ?_⟩
        · intro x hx
          exact c3 (Finset.mem_insert_of_mem hx)
        · intro q hq7
          rcases List.mem_cons.mp hq7 with rfl | hq8
          · exact c3 (Finset.mem_insert_self _ _)
          · refine c4 q ?_
            simp only [List.mem_append]
            exact Or.inl (Or.inl (Or.inl (Or.inl (Or.inl (Or.inl hq8)))))

theorem mem_mapCells_of :
    ∀ (m : List (ℕ × Finset (ℕ × ℕ))) (e : ℕ × Finset (ℕ × ℕ)) (p : ℕ × ℕ),
      e ∈ m → p ∈ e.2 → (p.1, p.2, e.1) ∈ mapCells m := by
  intro m
  induction m with
  | nil => intro e p he _; cases he
  | cons e0 rest ih =>
    intro e p he hp
    rcases List.mem_cons.mp he with rfl | he2
    · show _ ∈ (e.2.image fun q => (q.1, q.2, e.1)) ∪ mapCells rest
      exact Finset.mem_union_left _ (Finset.mem_image.mpr ⟨p, hp, rfl⟩)
    · show _ ∈ (e0.2.image fun q => (q.1, q.2, e0.1)) ∪ mapCells rest
      exact Finset.mem_union_right _ (ih e p he2 hp)

theorem processSeed_cells {τ : Type} [DecidableEq U] [DecidableEq C]
    (heightFn : ℕ → ℕ → ℕ) (brickFn : τ → ℕ → ℕ → ℕ → C → τ × U)
    (colorFn : ℕ → ℕ → C) (length width maxHeight : ℕ)
    (hHF : ∀ l w, heightFn l w ≤ maxHeight)
    (st : BuildState τ U B C) (l w h : ℕ)
    (hl : l < length) (hw : w < width) (hh : h < heightFn l w)
    (hB : BuildInv length width heightFn st) :
    BuildInv length width heightFn
      (processSeed (B := B) heightFn brickFn colorFn length width maxHeight
        st l w h) ∧
    st.visited ⊆ (processSeed (B := B) heightFn brickFn colorFn length width
      maxHeight st l w h).visited ∧
    (l, w, h) ∈ (processSeed (B := B) heightFn brickFn colorFn length width
      maxHeight st l w h).visited := by
  obtain ⟨hb1, hb2, hb3, hb4, hb5⟩ := hB
  unfold processSeed
  by_cases hv : (l, w, h) ∈ st.visited
  · rw [if_pos hv]
    exact ⟨⟨hb1, hb2, hb3, hb4, hb5⟩, Finset.Subset.refl _, hv⟩
  · rw [if_neg hv]
    dsimp only
    have hInv0 : BfsInv length width heightFn st.visited
        ({ brickSt := (brickFn st.brickSt l w h (colorFn l w)).1,
           visited := st.visited, queue := [(l, w, h)], coords := [],
           minL := l, maxL := l, minW := w, maxW := w, minH := h } :
          BfsState τ) := by
      refine ⟨?_, ?_, ?_, ?_, ?_, ?_, ?_⟩
      · intro q hq
        rcases List.mem_singleton.mp hq with rfl
        exact (mem_bfsDomain length width heightFn (l, w, h)).mpr ⟨hl, hw, hh⟩
      · exact (Finset.union_empty st.visited).symm
      · exact Finset.disjoint_empty_right st.visited
      · rfl
      · intro q hq
        rcases List.mem_singleton.mp hq with rfl
        exact ⟨show h ≤ h + 1 by omega, show h ≤ h + 0 by omega⟩
      · intro v hv2
        exact absurd hv2 (Finset.not_mem_empty v)
      · intro v hv2
        exact absurd hv2 (Finset.not_mem_empty v)
    have hm0 : 7 * ((bfsDomain length width heightFn) \ st.visited).card +
        ([(l, w, h)] : List (ℕ × ℕ × ℕ)).length ≤
        7 * (length * width * maxHeight) + 1 := by
      have h1 : ((bfsDomain length width heightFn) \ st.visited).card ≤
          (bfsDomain length width heightFn).card :=
        Finset.card_le_card Finset.sdiff_subset
      have h2 := card_bfsDomain_le length width maxHeight heightFn hHF
      simp only [List.length_singleton]
      omega
    set bfsr := bfsLoop heightFn brickFn colorFn length width
      (brickFn st.brickSt l w h (colorFn l w)).2 (colorFn l w)
      (7 * (length * width * maxHeight) + 1)
      ({ brickSt := (brickFn st.brickSt l w h (colorFn l w)).1,
         visited := st.visited, queue := [(l, w, h)], coords := [],
         minL := l, maxL := l, minW := w, maxW := w, minH := h } :
        BfsState τ) with hbfsr
    obtain ⟨hq0, ⟨m1, m2, m3, m4, m5, m6, m7⟩, hsub, hqin⟩ :=
      bfsLoop_master heightFn brickFn colorFn length width
        (brickFn st.brickSt l w h (colorFn l w)).2 (colorFn l w) st.visited
        (7 * (length * width * maxHeight) + 1)
        ({ brickSt := (brickFn st.brickSt l w h (colorFn l w)).1,
           visited := st.visited, queue := [(l, w, h)], coords := [],
           minL := l, maxL := l, minW := w, maxW := w, minH := h } :
          BfsState τ) hInv0 hm0
    rw [← hbfsr] at m2 m3 m4 m6 m7 hsub hqin
    have hseed := hqin (l, w, h) (List.mem_singleton.mpr rfl)
    have hbound2 : ∀ e ∈ bfsr.coords, ∀ p ∈ e.2,
        bfsr.minL ≤ p.1 ∧ bfsr.minW ≤ p.2 := by
      intro e he p hp
      exact m6 (p.1, p.2, e.1) (mem_mapCells_of _ e p he hp)
    obtain ⟨sn, sm, sp, su⟩ := sliceChunk_cells
      (brickFn st.brickSt l w h (colorFn l w)).2 (colorFn l w) bfsr.coords
      bfsr.minL bfsr.maxL bfsr.minW bfsr.maxW bfsr.minH m4 hbound2
    refine ⟨⟨?_, ?_, ?_, ?_, ?_⟩, hsub, hseed⟩
    · show ((st.chunks ++ _).flatMap chunkCells).Nodup
      rw [List.flatMap_append, List.nodup_append]
      refine ⟨hb1, sn, ?_⟩
      intro x hx hx2
      have hxv : x ∈ st.visited := (hb2 x).mp hx
      have hxc := (sm x).mp hx2
      exact (Finset.disjoint_right.mp m3 hxc) hxv
    · intro v
      show v ∈ (st.chunks ++ _).flatMap chunkCells ↔ _
      rw [List.flatMap_append, List.mem_append]
      show _ ↔ v ∈ _
      rw [m2, Finset.mem_union]
      constructor
      · rintro (hx | hx)
        · exact Or.inl ((hb2 v).mp hx)
        · exact Or.inr ((sm v).mp hx)
      · rintro (hx | hx)
        · exact Or.inl ((hb2 v).mpr hx)
        · exact Or.inr ((sm v).mpr hx)
    · intro v hv2
      show v ∈ bfsDomain length width heightFn
      rw [m2, Finset.mem_union] at hv2
      rcases hv2 with hx | hx
      · exact hb3 v hx
      · exact m7 v hx
    · intro c hc
      rcases List.mem_append.mp hc with hc2 | hc2
      · exact hb4 c hc2
      · exact sp c hc2
    · intro c hc b hb
      rcases List.mem_append.mp hc with hc2 | hc2
      · exact hb5 c hc2 b hb
      · exact ⟨_, su c hc2 b hb⟩

/-- Innermost seed loop of Mosaic::build_chunks: folding process_seed over a
list of in-range heights preserves the build invariant, grows the visited set
monotonically, and afterwards every listed height of column (l, w) is
visited. -/
theorem heightFold_cover {τ : Type} [DecidableEq U] [DecidableEq C]
    (heightFn : ℕ → ℕ → ℕ) (brickFn : τ → ℕ → ℕ → ℕ → C → τ × U)
    (colorFn : ℕ → ℕ → C) (length width maxHeight : ℕ)
    (hHF : ∀ l w, heightFn l w ≤ maxHeight)
    (l w : ℕ) (hl : l < length) (hw : w < width) :
    ∀ (hs : List ℕ) (st : BuildState τ U B C),
      (∀ x ∈ hs, x < heightFn l w) → BuildInv length width heightFn st →
      BuildInv length width heightFn
        (hs.foldl
          (fun st h =>
            processSeed (B := B) heightFn brickFn colorFn length width
              maxHeight st l w h) st) ∧
      st.visited ⊆
        (hs.foldl
          (fun st h =>
            processSeed (B := B) heightFn brickFn colorFn length width
              maxHeight st l w h) st).visited ∧
      ∀ x ∈ hs, (l, w, x) ∈
        (hs.foldl
          (fun st h =>
            processSeed (B := B) heightFn brickFn colorFn length width
              maxHeight st l w h) st).visited := by
  intro hs
  induction hs with
  | nil =>
    intro st _ hB
    exact ⟨hB, Finset.Subset.refl _, by intro x hx; cases hx⟩
  | cons h0 rest ih =>
    intro st hin hB
    have hh0 : h0 < heightFn l w := hin h0 (List.mem_cons_self h0 rest)
    obtain ⟨hB1, hsub1, hmem1⟩ :=
      processSeed_cells heightFn brickFn colorFn length width maxHeight hHF
        st l w h0 hl hw hh0 hB
    obtain ⟨hB2, hsub2, hmem2⟩ :=
      ih (processSeed (B := B) heightFn brickFn colorFn length width maxHeight
        st l w h0) (fun x hx => hin x (List.mem_cons_of_mem h0 hx)) hB1
    rw [List.foldl_cons]
    refine ⟨hB2, Finset.Subset.trans hsub1 hsub2, ?_⟩
    intro x hx
    rcases List.mem_cons.mp hx with rfl | hx2
    · exact hsub2 hmem1
    · exact hmem2 x hx2

/-- Middle seed loop of Mosaic::build_chunks: folding the height loop over a
list of in-range l coordinates preserves the build invariant, grows the
visited set, and visits every cell of the listed columns at width index w. -/
theorem lineFold_cover {τ : Type} [DecidableEq U] [DecidableEq C]
    (heightFn : ℕ → ℕ → ℕ) (brickFn : τ → ℕ → ℕ → ℕ → C → τ × U)
    (colorFn : ℕ → ℕ → C) (length width maxHeight : ℕ)
    (hHF : ∀ l w, heightFn l w ≤ maxHeight)
    (w : ℕ) (hw : w < width) :
    ∀ (ls : List ℕ) (st : BuildState τ U B C),
      (∀ x ∈ ls, x < length) → BuildInv length width heightFn st →
      BuildInv length width heightFn
        (ls.foldl
          (fun st l =>
            (List.range (heightFn l w)).foldl
              (fun st h =>
                processSeed (B := B) heightFn brickFn colorFn length width
                  maxHeight st l w h) st) st) ∧
      st.visited ⊆
        (ls.foldl
          (fun st l =>
            (List.range (heightFn l w)).foldl
              (fun st h =>
                processSeed (B := B) heightFn brickFn colorFn length width
                  maxHeight st l w h) st) st).visited ∧
      ∀ x ∈ ls, ∀ hgt < heightFn x w, (x, w, hgt) ∈
        (ls.foldl
          (fun st l =>
            (List.range (heightFn l w)).foldl
              (fun st h =>
                processSeed (B := B) heightFn brickFn colorFn length width
                  maxHeight st l w h) st) st).visited := by
  intro ls
  induction ls with
  | nil =>
    intro st _ hB
    exact ⟨hB, Finset.Subset.refl _, by intro x hx; cases hx⟩
  | cons l0 rest ih =>
    intro st hin hB
    have hl0 : l0 < length := hin l0 (List.mem_cons_self l0 rest)
    obtain ⟨hB1, hsub1, hmem1⟩ :=
      heightFold_cover heightFn brickFn colorFn length width maxHeight hHF
        l0 w hl0 hw (List.range (heightFn l0 w)) st
        (fun x hx => List.mem_range.mp hx) hB
    obtain ⟨hB2, hsub2, hmem2⟩ :=
      ih ((List.range (heightFn l0 w)).foldl
        (fun st h =>
          processSeed (B := B) heightFn brickFn colorFn length width
            maxHeight st l0 w h) st)
        (fun x hx => hin x (List.mem_cons_of_mem l0 hx)) hB1
    rw [List.foldl_cons]
    refine ⟨hB2, Finset.Subset.trans hsub1 hsub2, ?_⟩
    intro x hx hgt hhgt
    rcases List.mem_cons.mp hx with rfl | hx2
    · exact hsub2 (hmem1 hgt (List.mem_range.mpr hhgt))
    · exact hmem2 x hx2 hgt hhgt

/-- Outer seed loop of Mosaic::build_chunks: folding the line loop over a list
of in-range w coordinates preserves the build invariant and visits every
domain cell of the listed width indices. -/
theorem planeFold_cover {τ : Type} [DecidableEq U] [DecidableEq C]
    (heightFn : ℕ → ℕ → ℕ) (brickFn : τ → ℕ → ℕ → ℕ → C → τ × U)
    (colorFn : ℕ → ℕ → C) (length width maxHeight : ℕ)
    (hHF : ∀ l w, heightFn l w ≤ maxHeight) :
    ∀ (ws : List ℕ) (st : BuildState τ U B C),
      (∀ x ∈ ws, x < width) → BuildInv length width heightFn st →
      BuildInv length width heightFn
        (ws.foldl
          (fun st w =>
            (List.range length).foldl
              (fun st l =>
                (List.range (heightFn l w)).foldl
                  (fun st h =>
                    processSeed (B := B) heightFn brickFn colorFn length width
                      maxHeight st l w h) st) st) st) ∧
      st.visited ⊆
        (ws.foldl
          (fun st w =>
            (List.range length).foldl
              (fun st l =>
                (List.range (heightFn l w)).foldl
                  (fun st h =>
                    processSeed (B := B) heightFn brickFn colorFn length width
                      maxHeight st l w h) st) st) st).visited ∧
      ∀ x ∈ ws, ∀ l < length, ∀ hgt < heightFn l x, (l, x, hgt) ∈
        (ws.foldl
          (fun st w =>
            (List.range length).foldl
              (fun st l =>
                (List.range (heightFn l w)).foldl
                  (fun st h =>
                    processSeed (B := B) heightFn brickFn colorFn length width
                      maxHeight st l w h) st) st) st).visited := by
  intro ws
  induction ws with
  | nil =>
    intro st _ hB
    exact ⟨hB, Finset.Subset.refl _, by intro x hx; cases hx⟩
  | cons w0 rest ih =>
    intro st hin hB
    have hw0 : w0 < width := hin w0 (List.mem_cons_self w0 rest)
    obtain ⟨hB1, hsub1, hmem1⟩ :=
      lineFold_cover heightFn brickFn colorFn length width maxHeight hHF
        w0 hw0 (List.range length) st (fun x hx => List.mem_range.mp hx) hB
    obtain ⟨hB2, hsub2, hmem2⟩ :=
      ih ((List.range length).foldl
        (fun st l =>
          (List.range (heightFn l w0)).foldl
            (fun st h =>
              processSeed (B := B) heightFn brickFn colorFn length width
                maxHeight st l w0 h) st) st)
        (fun x hx => hin x (List.mem_cons_of_mem w0 hx)) hB1
    rw [List.foldl_cons]
    refine ⟨hB2, Finset.Subset.trans hsub1 hsub2, ?_⟩
    intro x hx l hlx hgt hhgt
    rcases List.mem_cons.mp hx with rfl | hx2
    · exact hsub2 (hmem1 l (List.mem_range.mpr hlx) hgt hhgt)
    · exact hmem2 x hx2 l hlx hgt hhgt

/-- Mosaic::build_chunks on success: the returned chunks' brick cells are
pairwise distinct and enumerate exactly the explored domain (every in-range
cell below its column height), every chunk has positive dimensions, and every
recorded brick is a unit brick. -/
theorem buildChunks_cells {τ : Type} [DecidableEq U] [DecidableEq C]
    (length width maxHeight : ℕ) (heightFn : ℕ → ℕ → ℕ)
    (brickFn : τ → ℕ → ℕ → ℕ → C → τ × U) (colorFn : ℕ → ℕ → C) (t0 : τ)
    (hHF : ∀ l w, heightFn l w ≤ maxHeight)
    (r : τ × List (Chunk U B C))
    (hok : buildChunks length width maxHeight heightFn brickFn colorFn t0 =
      Except.ok r) :
    (r.2.flatMap chunkCells).Nodup ∧
    (∀ v : ℕ × ℕ × ℕ, v ∈ r.2.flatMap chunkCells ↔
      v ∈ bfsDomain length width heightFn) ∧
    (∀ c ∈ r.2, 0 < c.length ∧ 0 < c.width ∧ 0 < c.height) ∧
    (∀ c ∈ r.2, ∀ b ∈ c.bricks, ∃ u2 : U, b.brick = Brick.unit u2) := by
  unfold buildChunks at hok
  by_cases hg : 0 < maxHeight ∧ usizeMax / length / width / maxHeight = 0
  · rw [if_pos hg] at hok
    cases hok
  rw [if_neg hg] at hok
  dsimp only at hok
  have hB0 : BuildInv length width heightFn
      ({ brickSt := t0, visited := ∅, chunks := ([] : List (Chunk U B C)) } :
        BuildState τ U B C) := by
    refine ⟨?_, ?_, ?_, ?_, ?_⟩
    · simp [List.flatMap]
    · intro v
      simp [List.flatMap]
    · intro v hv
      exact absurd hv (Finset.not_mem_empty v)
    · intro c hc
      cases hc
    · intro c hc
      cases hc
  obtain ⟨hBf, hsubf, hcov⟩ :=
    planeFold_cover heightFn brickFn colorFn length width maxHeight hHF
      (List.range width)
      ({ brickSt := t0, visited := ∅, chunks := ([] : List (Chunk U B C)) } :
        BuildState τ U B C)
      (fun x hx => List.mem_range.mp hx) hB0
  obtain ⟨hb1, hb2, hb3, hb4, hb5⟩ := hBf
  injection hok with hok2
  subst hok2
  refine ⟨hb1, ?_, hb4, hb5⟩
  intro v
  rw [hb2 v]
  constructor
  · exact hb3 v
  · intro hv
    obtain ⟨h1, h2, h3⟩ := (mem_bfsDomain length width heightFn v).mp hv
    have := hcov v.2.1 (List.mem_range.mpr h2) v.1 h1 v.2.2 h3
    exact this

/-- Cells of a section list produced by the slab loop, with each chunk cell
globalized in height by its section's h offset. -/
def slabCells (secs : List (MosaicSection U B C)) : List (ℕ × ℕ × ℕ) :=
  secs.flatMap fun sec =>
    (sec.chunks.flatMap chunkCells).map fun v => (v.1, v.2.1, sec.h + v.2.2)

/-- Slab loop of Mosaic::from_image on success, for fuel covering the
remaining height: every produced section sits at the tile's l and w offsets,
the height-globalized chunk cells are pairwise distinct and enumerate exactly
the in-range cells from section_h up to each column's height-map value, every
chunk has positive dimensions, and every recorded brick is a unit brick. -/
theorem slabLoop_cells {σ : Type} [Inhabited C] [DecidableEq U] [DecidableEq C]
    (cb : Callbacks σ C U) (sL sW len wid : ℕ) (colors : Pixels C)
    (heightMap : Pixels ℕ) (maxHeight : ℕ)
    (hmax : ∀ l w, heightMap.value l w ≤ maxHeight) :
    ∀ (fuel sectionH : ℕ) (s s' : σ) (secs : List (MosaicSection U B C)),
      maxHeight ≤ fuel + sectionH →
      slabLoop (U := U) (B := B) cb sL sW len wid colors heightMap maxHeight
        fuel sectionH s = (s', Except.ok secs) →
      (∀ sec ∈ secs, sec.l = sL ∧ sec.w = sW) ∧
      (slabCells secs).Nodup ∧
      (∀ v : ℕ × ℕ × ℕ, v ∈ slabCells secs ↔
        v.1 < len ∧ v.2.1 < wid ∧ sectionH ≤ v.2.2 ∧
          v.2.2 < heightMap.value v.1 v.2.1) ∧
      (∀ sec ∈ secs, ∀ c ∈ sec.chunks,
        0 < c.length ∧ 0 < c.width ∧ 0 < c.height) ∧
      (∀ sec ∈ secs, ∀ c ∈ sec.chunks, ∀ b ∈ c.bricks,
        ∃ u2 : U, b.brick = Brick.unit u2) := by
  have h255 : sectionSize = 255 := rfl
  intro fuel
  induction fuel with
  | zero =>
    intro sectionH s s' secs hfuel hres
    simp only [slabLoop] at hres
    injection hres with h1 h2
    injection h2 with h3
    subst h3
    refine ⟨(by intro sec hsec; cases hsec), (by simp [slabCells]), ?_,
      (by intro sec hsec; cases hsec), (by intro sec hsec; cases hsec)⟩
    intro v
    simp only [slabCells, List.flatMap_nil, List.not_mem_nil, false_iff]
    intro hv
    have := hmax v.1 v.2.1
    omega
  | succ fuel ih =>
    intro sectionH s s' secs hfuel hres
    simp only [slabLoop] at hres
    by_cases hlt : sectionH < maxHeight
    · rw [if_pos hlt] at hres
      split at hres
      · exact absurd hres (by simp)
      rename_i t2 chunks heq
      rcases hrec : slabLoop (U := U) (B := B) cb sL sW len wid colors
          heightMap maxHeight fuel
          (sectionH + min sectionSize (maxHeight - sectionH)) t2.1 with ⟨s3, r3⟩
      rcases r3 with e | secs0
      · rw [hrec] at hres
        dsimp only at hres
        exact absurd hres (by simp)
      rw [hrec] at hres
      dsimp only at hres
      injection hres with h1 h2
      injection h2 with h3
      subst h3
      subst h1
      have hHC : ∀ l w,
          (if sectionH < heightMap.value l w then
            min sectionSize (heightMap.value l w - sectionH) else 0) ≤
          min sectionSize (maxHeight - sectionH) := by
        intro l w
        have := hmax l w
        split
        · omega
        · omega
      have hbc := buildChunks_cells (B := B) len wid
        (min sectionSize (maxHeight - sectionH))
        (fun l w => if sectionH < heightMap.value l w then
          min sectionSize (heightMap.value l w - sectionH) else 0)
        (memoBrick cb sL sW sectionH) (fun l w => colors.value l w)
        ((s, []) : σ × List ((ℕ × ℕ × ℕ) × U)) hHC (t2, chunks) heq
      obtain ⟨hn1, hn2, hn3, hn4⟩ := hbc
      dsimp only at hn1 hn2 hn3 hn4
      have hrec2 := ih (sectionH + min sectionSize (maxHeight - sectionH))
        t2.1 s3 secs0 (by omega) hrec
      obtain ⟨hr0, hr1, hr2, hr3, hr4⟩ := hrec2
      have hheadmem : ∀ v : ℕ × ℕ × ℕ,
          v ∈ (chunks.flatMap chunkCells).map
            (fun c => (c.1, c.2.1, sectionH + c.2.2)) ↔
          v.1 < len ∧ v.2.1 < wid ∧ sectionH ≤ v.2.2 ∧
            v.2.2 < sectionH +
              (if sectionH < heightMap.value v.1 v.2.1 then
                min sectionSize (heightMap.value v.1 v.2.1 - sectionH)
              else 0) := by
        intro v
        rw [List.mem_map]
        constructor
        · rintro ⟨c, hc, rfl⟩
          have := (hn2 c).mp hc
          rw [mem_bfsDomain] at this
          dsimp only at this ⊢
          obtain ⟨d1, d2, d3⟩ := this
          exact ⟨d1, d2, by omega, by omega⟩
        · rintro ⟨hv1, hv2, hv3, hv4⟩
          refine ⟨(v.1, v.2.1, v.2.2 - sectionH), ?_, ?_⟩
          · rw [hn2, mem_bfsDomain]
            exact ⟨hv1, hv2, by dsimp only; omega⟩
          · dsimp only
            have hz : sectionH + (v.2.2 - sectionH) = v.2.2 := by omega
            rw [hz]
      refine ⟨?_, ?_, ?_, ?_, ?_⟩
      · intro sec hsec
        rcases List.mem_cons.mp hsec with rfl | hsec2
        · exact ⟨rfl, rfl⟩
        · exact hr0 sec hsec2
      · show ((chunks.flatMap chunkCells).map
            (fun c => (c.1, c.2.1, sectionH + c.2.2)) ++ slabCells secs0).Nodup
        rw [List.nodup_append]
        refine ⟨?_, hr1, ?_⟩
        · refine List.Nodup.map ?_ hn1
          intro a b hab
          injection hab with e1 e2
          injection e2 with e2 e3
          have e4 : a.2.2 = b.2.2 := by omega
          exact Prod.ext e1 (Prod.ext e2 e4)
        · intro x hx hx2
          have h1 := (hheadmem x).mp hx
          have h2 := (hr2 x).mp hx2
          have := hmax x.1 x.2.1
          rcases h1 with ⟨-, -, -, hx4⟩
          rcases h2 with ⟨-, -, hx5, -⟩
          revert hx4
          split
          · omega
          · omega
      · intro v
        show v ∈ (chunks.flatMap chunkCells).map
            (fun c => (c.1, c.2.1, sectionH + c.2.2)) ++ slabCells secs0 ↔ _
        rw [List.mem_append, hheadmem, hr2]
        have := hmax v.1 v.2.1
        constructor
        · rintro (⟨h1, h2, h3, h4⟩ | ⟨h1, h2, h3, h4⟩)
          · refine ⟨h1, h2, h3, ?_⟩
            revert h4
            split
            · omega
            · omega
          · exact ⟨h1, h2, by omega, h4⟩
        · rintro ⟨h1, h2, h3, h4⟩
          by_cases hsp : v.2.2 < sectionH + min sectionSize
              (heightMap.value v.1 v.2.1 - sectionH)
          · refine Or.inl ⟨h1, h2, h3, ?_⟩
            rw [if_pos (by omega)]
            omega
          · exact Or.inr ⟨h1, h2, by omega, h4⟩
      · intro sec hsec
        rcases List.mem_cons.mp hsec with rfl | hsec2
        · exact hn3
        · exact hr3 sec hsec2
      · intro sec hsec
        rcases List.mem_cons.mp hsec with rfl | hsec2
        · exact hn4
        · exact hr4 sec hsec2
    · rw [if_neg hlt] at hres
      injection hres with h1 h2
      injection h2 with h3
      subst h3
      refine ⟨(by intro sec hsec; cases hsec), (by simp [slabCells]), ?_,
        (by intro sec hsec; cases hsec), (by intro sec hsec; cases hsec)⟩
      intro v
      simp only [slabCells, List.flatMap_nil, List.not_mem_nil, false_iff]
      intro hv
      have := hmax v.1 v.2.1
      omega

/-- Every tile of the cols loop stays within the image width. -/
theorem colsLoop_mem_upper (iW sL sLen : ℕ) :
    ∀ (fuel sW : ℕ), ∀ t ∈ colsLoop iW sL sLen fuel sW,
      t.2.1 + t.2.2.2 ≤ iW := by
  intro fuel
  induction fuel with
  | zero => intro sW t ht; cases ht
  | succ fuel ih =>
    intro sW t ht
    simp only [colsLoop] at ht
    split at ht
    case isTrue hlt =>
      rcases List.mem_cons.mp ht with rfl | ht2
      · dsimp only
        omega
      · exact ih _ t ht2
    case isFalse => cases ht

/-- Every w coordinate of the image is covered by a tile of the cols loop once
the fuel dominates the remaining width. -/
theorem colsLoop_cover (iW sL sLen : ℕ) :
    ∀ (fuel sW : ℕ), iW ≤ fuel + sW →
      ∀ gw, sW ≤ gw → gw < iW →
        ∃ t ∈ colsLoop iW sL sLen fuel sW,
          t.2.1 ≤ gw ∧ gw < t.2.1 + t.2.2.2 := by
  have h255 : sectionSize = 255 := rfl
  intro fuel
  induction fuel with
  | zero =>
    intro sW hfuel gw h1 h2
    omega
  | succ fuel ih =>
    intro sW hfuel gw h1 h2
    simp only [colsLoop]
    rw [if_pos (by omega)]
    by_cases hcase : gw < sW + min sectionSize (iW - sW)
    · exact ⟨(sL, sW, sLen, min sectionSize (iW - sW)),
        List.mem_cons_self _ _, h1, hcase⟩
    · obtain ⟨t, ht, hcov⟩ :=
        ih (sW + min sectionSize (iW - sW)) (by omega) gw (by omega) h2
      exact ⟨t, List.mem_cons_of_mem _ ht, hcov⟩

/-- Every tile of the rows loop stays within the image bounds. -/
theorem rowsLoop_mem_upper (iL iW : ℕ) :
    ∀ (fuel sL : ℕ), ∀ t ∈ rowsLoop iL iW fuel sL,
      t.1 + t.2.2.1 ≤ iL ∧ t.2.1 + t.2.2.2 ≤ iW := by
  intro fuel
  induction fuel with
  | zero => intro sL t ht; cases ht
  | succ fuel ih =>
    intro sL t ht
    simp only [rowsLoop] at ht
    split at ht
    case isTrue hlt =>
      rcases List.mem_append.mp ht with ht2 | ht2
      · obtain ⟨he1, he2, -⟩ :=
          colsLoop_mem iW sL (min sectionSize (iL - sL)) iW 0 t ht2
        have := colsLoop_mem_upper iW sL (min sectionSize (iL - sL)) iW 0 t ht2
        omega
      · exact ih _ t ht2
    case isFalse => cases ht

/-- Every in-range coordinate of the image is covered by a tile of the rows
loop once the fuel dominates the remaining length. -/
theorem rowsLoop_cover (iL iW : ℕ) :
    ∀ (fuel sL : ℕ), iL ≤ fuel + sL →
      ∀ gl gw, sL ≤ gl → gl < iL → gw < iW →
        ∃ t ∈ rowsLoop iL iW fuel sL,
          t.1 ≤ gl ∧ gl < t.1 + t.2.2.1 ∧
          t.2.1 ≤ gw ∧ gw < t.2.1 + t.2.2.2 := by
  have h255 : sectionSize = 255 := rfl
  intro fuel
  induction fuel with
  | zero =>
    intro sL hfuel gl gw h1 h2 h3
    omega
  | succ fuel ih =>
    intro sL hfuel gl gw h1 h2 h3
    simp only [rowsLoop]
    rw [if_pos (by omega)]
    by_cases hcase : gl < sL + min sectionSize (iL - sL)
    · obtain ⟨t, ht, hw1, hw2⟩ :=
        colsLoop_cover iW sL (min sectionSize (iL - sL)) iW 0 (by omega) gw
          (Nat.zero_le gw) h3
      obtain ⟨he1, he2, -⟩ :=
        colsLoop_mem iW sL (min sectionSize (iL - sL)) iW 0 t ht
      refine ⟨t, List.mem_append_left _ ht, ?_, ?_, hw1, hw2⟩
      · omega
      · omega
    · obtain ⟨t, ht, hcov⟩ :=
        ih (sL + min sectionSize (iL - sL)) (by omega) gl gw (by omega) h2 h3
      exact ⟨t, List.mem_append_right _ ht, hcov⟩

/-- Tiles of Mosaic::make_sections stay in the image and cover every in-range
coordinate. -/
theorem makeSections_cover (iL iW : ℕ) :
    (∀ t ∈ makeSections iL iW, t.1 + t.2.2.1 ≤ iL ∧ t.2.1 + t.2.2.2 ≤ iW) ∧
    ∀ gl gw, gl < iL → gw < iW →
      ∃ t ∈ makeSections iL iW,
        t.1 ≤ gl ∧ gl < t.1 + t.2.2.1 ∧ t.2.1 ≤ gw ∧ gw < t.2.1 + t.2.2.2 := by
  constructor
  · exact rowsLoop_mem_upper iL iW iL 0
  · intro gl gw h1 h2
    exact rowsLoop_cover iL iW iL 0 (by omega) gl gw (Nat.zero_le gl) h1 h2

/-- Column height implied by the pure callbacks at a global coordinate: the
height callback applied to the palette-quantized pixel, a failed palette
lookup falling back to the default color. -/
def globalHeight [Inhabited C] (pF : ℕ → ℕ → RawColor)
    (nF : RawColor → Option C) (hF : ℕ → ℕ → C → ℕ) (gl gw : ℕ) : ℕ :=
  hF gl gw ((nF (pF gl gw)).getD default)

theorem fromFn_pure_value_any {T : Type} [Inhabited T] (g : ℕ → ℕ → T)
    (len wid l w : ℕ) (s : Unit) (hl : l < len) (hw : w < wid) :
    (Pixels.fromFn (fun s l w => (s, g l w)) len wid s).2.value l w = g l w := by
  cases s
  exact fromFn_pure_value g len wid l w hl hw

theorem sectionCells_offset (sL sW : ℕ) :
    ∀ (secs : List (MosaicSection U B C)),
      (∀ sec ∈ secs, sec.l = sL ∧ sec.w = sW) →
      secs.flatMap sectionCells =
        (slabCells secs).map fun v => (sL + v.1, sW + v.2.1, v.2.2) := by
  intro secs
  induction secs with
  | nil => intro h; rfl
  | cons sec rest ih =>
    intro h
    obtain ⟨h1, h2⟩ := h sec (List.mem_cons_self _ _)
    rw [List.flatMap_cons]
    simp only [slabCells, List.flatMap_cons]
    rw [List.map_append, List.map_map]
    congr 1
    · show sectionCells sec = _
      unfold sectionCells
      rw [h1, h2]
      rfl
    · have := ih fun sec2 hs => h sec2 (List.mem_cons_of_mem _ hs)
      simpa [slabCells] using this

/-- Section loop of Mosaic::from_image with pure callbacks on success: for
pairwise-separated tiles, the global brick cells of the produced sections are
pairwise distinct and enumerate exactly the cells inside some tile's rectangle
below the pure-callback column height, every chunk has positive dimensions,
and every recorded brick is a unit brick. -/
theorem sectionsLoop_cells [Inhabited C] [DecidableEq U] [DecidableEq C]
    (pF : ℕ → ℕ → RawColor) (nF : RawColor → Option C) (hF : ℕ → ℕ → C → ℕ)
    (bF : ℕ → ℕ → ℕ → C → U) :
    ∀ (tiles : List (ℕ × ℕ × ℕ × ℕ)) (s0 s' : Unit)
      (secs : List (MosaicSection U B C)),
      List.Pairwise
        (fun a b : ℕ × ℕ × ℕ × ℕ =>
          a.1 + a.2.2.1 ≤ b.1 ∨ a.2.1 + a.2.2.2 ≤ b.2.1) tiles →
      sectionsLoop (U := U) (B := B) (pureCallbacks pF nF hF bF) tiles s0 =
        (s', Except.ok secs) →
      (∀ v : ℕ × ℕ × ℕ, v ∈ secs.flatMap sectionCells ↔
        ∃ t ∈ tiles, t.1 ≤ v.1 ∧ v.1 < t.1 + t.2.2.1 ∧
          t.2.1 ≤ v.2.1 ∧ v.2.1 < t.2.1 + t.2.2.2 ∧
          v.2.2 < globalHeight pF nF hF v.1 v.2.1) ∧
      (secs.flatMap sectionCells).Nodup ∧
      (∀ sec ∈ secs, ∀ c ∈ sec.chunks,
        0 < c.length ∧ 0 < c.width ∧ 0 < c.height) ∧
      (∀ sec ∈ secs, ∀ c ∈ sec.chunks, ∀ b ∈ c.bricks,
        ∃ u2 : U, b.brick = Brick.unit u2) := by
  intro tiles
  induction tiles with
  | nil =>
    intro s0 s' secs hpw hres
    simp only [sectionsLoop] at hres
    injection hres with h1 h2
    injection h2 with h3
    subst h3
    refine ⟨?_, (by simp), (by intro sec hsec; cases hsec),
      (by intro sec hsec; cases hsec)⟩
    intro v
    simp
  | cons tile rest ih =>
    intro s0 s' secs hpw hres
    obtain ⟨sL, sW, len, wid⟩ := tile
    simp only [sectionsLoop, pureCallbacks] at hres
    set pr := Pixels.fromFn (fun s l w => (s, pF (l + sL) (w + sW))) len wid s0
      with hpr
    set cr := pr.2.withPalette (fun s c => (s, nF c)) pr.1 with hcr
    set hrp := Pixels.fromFn
      (fun s l w => (s, hF (l + sL) (w + sW) (cr.2.value l w))) len wid cr.1
      with hhrp
    have hpc : ({ pixel := fun s l w => (s, pF l w),
                  nearest := fun s c => (s, nF c),
                  height := fun s l w c => (s, hF l w c),
                  brick := fun s l w h c => (s, bF l w h c) } :
        Callbacks Unit C U) = pureCallbacks pF nF hF bF := rfl
    rw [hpc] at hres
    rcases hsl : slabLoop (U := U) (B := B) (pureCallbacks pF nF hF bF) sL sW
        len wid cr.2 hrp.2 hrp.2.maxOrZero hrp.2.maxOrZero 0 hrp.1
      with ⟨s2, r2⟩
    rcases r2 with e | secs1
    · rw [hsl] at hres
      dsimp only at hres
      exact absurd hres (by simp)
    rw [hsl] at hres
    dsimp only at hres
    rcases hrest : sectionsLoop (U := U) (B := B) (pureCallbacks pF nF hF bF)
        rest s2 with ⟨s3, r3⟩
    rcases r3 with e | secsR
    · rw [hrest] at hres
      dsimp only at hres
      exact absurd hres (by simp)
    rw [hrest] at hres
    dsimp only at hres
    injection hres with h1 h2
    injection h2 with h3
    subst h3
    obtain ⟨hi1, hi2, hi3, hi4⟩ :=
      ih s2 s3 secsR (List.Pairwise.sublist (List.sublist_cons_self _ _) hpw)
        hrest
    obtain ⟨hs0, hs1, hs2, hs3, hs4⟩ :=
      slabLoop_cells (U := U) (B := B) (pureCallbacks pF nF hF bF) sL sW len
        wid cr.2 hrp.2 hrp.2.maxOrZero
        (fun l w => value_le_maxOrZero hrp.2 l w) hrp.2.maxOrZero 0 hrp.1 s2
        secs1 (by omega) hsl
    have hval : ∀ l w, l < len → w < wid →
        hrp.2.value l w = globalHeight pF nF hF (l + sL) (w + sW) := by
      intro l w hl hw
      rw [hhrp, fromFn_pure_value_any _ len wid l w cr.1 hl hw]
      unfold globalHeight
      congr 1
      rw [hcr]
      have hidx : w * pr.2.length + l < pr.2.valuesByRow.length := by
        have hlen : pr.2.length = len := by rw [hpr]; rfl
        have hvl : pr.2.valuesByRow.length = wid * len := by
          rw [hpr]; exact fromFn_length _ len wid s0
        rw [hlen, hvl]
        have hx1 : w * len + l < (w + 1) * len := by
          rw [Nat.add_mul]
          omega
        have hx2 : (w + 1) * len ≤ wid * len :=
          Nat.mul_le_mul_right len (by omega)
        omega
      rw [withPalette_pure_value nF pr.2 pr.1 l w hidx]
      congr 1
      rw [hpr, fromFn_pure_value_any _ len wid l w s0 hl hw]
    have hoffs := sectionCells_offset (U := U) (B := B) (C := C) sL sW secs1 hs0
    have hheadmem : ∀ v : ℕ × ℕ × ℕ,
        v ∈ secs1.flatMap sectionCells ↔
          sL ≤ v.1 ∧ v.1 < sL + len ∧ sW ≤ v.2.1 ∧ v.2.1 < sW + wid ∧
            v.2.2 < globalHeight pF nF hF v.1 v.2.1 := by
      intro v
      rw [hoffs, List.mem_map]
      constructor
      · rintro ⟨u, hu, rfl⟩
        obtain ⟨hu1, hu2, -, hu4⟩ := (hs2 u).mp hu
        have hv := hval u.1 u.2.1 hu1 hu2
        dsimp only
        rw [Nat.add_comm u.1 sL, Nat.add_comm u.2.1 sW] at hv
        exact ⟨by omega, by omega, by omega, by omega, by omega⟩
      · rintro ⟨h1, h2, h3, h4, h5⟩
        refine ⟨(v.1 - sL, v.2.1 - sW, v.2.2), ?_, ?_⟩
        · rw [hs2]
          refine ⟨by dsimp only; omega, by dsimp only; omega,
            by dsimp only; omega, ?_⟩
          show v.2.2 < hrp.2.value (v.1 - sL) (v.2.1 - sW)
          rw [hval (v.1 - sL) (v.2.1 - sW) (by omega) (by omega)]
          have he1 : v.1 - sL + sL = v.1 := by omega
          have he2 : v.2.1 - sW + sW = v.2.1 := by omega
          rw [he1, he2]
          exact h5
        · dsimp only
          have he1 : sL + (v.1 - sL) = v.1 := by omega
          have he2 : sW + (v.2.1 - sW) = v.2.1 := by omega
          rw [he1, he2]
    refine ⟨?_, ?_, ?_, ?_⟩
    · intro v
      rw [List.flatMap_append, List.mem_append, hheadmem, hi1]
      constructor
      · rintro (⟨h1, h2, h3, h4, h5⟩ | ⟨t, ht, hbox⟩)
        · exact ⟨(sL, sW, len, wid), List.mem_cons_self _ _, h1, h2, h3, h4, h5⟩
        · exact ⟨t, List.mem_cons_of_mem _ ht, hbox⟩
      · rintro ⟨t, ht, hbox⟩
        rcases List.mem_cons.mp ht with rfl | ht2
        · exact Or.inl hbox
        · exact Or.inr ⟨t, ht2, hbox⟩
    · rw [List.flatMap_append, List.nodup_append]
      have hnhead : (secs1.flatMap sectionCells).Nodup := by
        rw [hoffs]
        refine List.Nodup.map ?_ hs1
        intro a b hab
        injection hab with e1 e2
        injection e2 with e2 e3
        have e4 : a.1 = b.1 := by omega
        have e5 : a.2.1 = b.2.1 := by omega
        exact Prod.ext e4 (Prod.ext e5 e3)
      refine ⟨hnhead, hi2, ?_⟩
      intro x hx hx2
      obtain ⟨hb1, hb2, hb3, hb4, -⟩ := (hheadmem x).mp hx
      obtain ⟨t, ht, ht1, ht2, ht3, ht4, -⟩ := (hi1 x).mp hx2
      have hsep := (List.pairwise_cons.mp hpw).1 t ht
      dsimp only at hsep
      rcases hsep with h | h
      · omega
      · omega
    · intro sec hsec
      rcases List.mem_append.mp hsec with h | h
      · exact hs3 sec h
      · exact hi3 sec h
    · intro sec hsec
      rcases List.mem_append.mp hsec with h | h
      · exact hs4 sec h
      · exact hi4 sec h

theorem pbCells_unit (ops : NonUnitOps U B) (pb : PlacedBrick U B C) (u : U)
    (hu : pb.brick = Brick.unit u) :
    pbCells ops pb = {(pb.l, pb.w, pb.h)} := by
  unfold pbCells
  rw [hu]
  show Finset.Ico pb.l (pb.l + 1) ×ˢ
    (Finset.Ico pb.w (pb.w + 1) ×ˢ Finset.Ico pb.h (pb.h + 1)) = _
  rw [Nat.Ico_succ_singleton, Nat.Ico_succ_singleton, Nat.Ico_succ_singleton,
    Finset.singleton_product_singleton, Finset.singleton_product_singleton]

theorem iter_map_cells (secs : List (MosaicSection U B C)) (L W : ℕ)
    (hfil : ∀ sec ∈ secs, sectionAllPositive sec = true) :
    (Mosaic.new secs L W).iter.map
        (fun pb : PlacedBrick U B C => (pb.l, pb.w, pb.h)) =
      secs.flatMap sectionCells := by
  unfold Mosaic.iter Mosaic.new
  dsimp only
  rw [List.filter_eq_self.mpr hfil]
  rw [List.map_flatMap]
  apply flatMap_congr_mem
  intro sec hsec
  rw [List.map_flatMap]
  unfold sectionCells
  rw [List.map_flatMap]
  apply flatMap_congr_mem
  intro c hc
  rw [List.map_map]
  unfold chunkCells
  rw [List.map_map]
  apply List.map_congr_left
  intro b hb
  show (sec.l + c.l + b.l, sec.w + c.w + b.w, sec.h + c.h + b.h) = _
  show _ = (sec.l + (c.l + b.l), sec.w + (c.w + b.w), sec.h + (c.h + b.h))
  rw [Nat.add_assoc, Nat.add_assoc, Nat.add_assoc]

theorem iter_units (secs : List (MosaicSection U B C)) (L W : ℕ)
    (hu : ∀ sec ∈ secs, ∀ c ∈ sec.chunks, ∀ b ∈ c.bricks,
      ∃ u2 : U, b.brick = Brick.unit u2) :
    ∀ pb ∈ (Mosaic.new secs L W).iter, ∃ u2 : U, pb.brick = Brick.unit u2 := by
  intro pb hpb
  unfold Mosaic.iter Mosaic.new at hpb
  dsimp only at hpb
  rw [List.mem_flatMap] at hpb
  obtain ⟨sec, hsec, hpb2⟩ := hpb
  rw [List.mem_flatMap] at hpb2
  obtain ⟨c, hc, hpb3⟩ := hpb2
  rw [List.mem_map] at hpb3
  obtain ⟨b, hb, rfl⟩ := hpb3
  exact hu sec (List.mem_of_mem_filter hsec) c hc b hb

/-- C1: with pure callbacks, whenever from_image returns Ok, the placed bricks
of iter() cover pairwise disjoint voxel volumes whose union is exactly the set
of in-image voxels lying below the column height that the height callback
reports for the palette-quantized color of that column: no voxel is covered
twice, none implied by the callbacks is missed, and no brick leaves that
set. -/
theorem C1_theorem [Inhabited C] [DecidableEq U] [DecidableEq C]
    (ops : NonUnitOps U B) (pF : ℕ → ℕ → RawColor) (nF : RawColor → Option C)
    (hF : ℕ → ℕ → C → ℕ) (bF : ℕ → ℕ → ℕ → C → U) (L W : ℕ)
    (m : Mosaic U B C)
    (hok : (fromImage (U := U) (B := B) (pureCallbacks pF nF hF bF) L W
      ()).2 = Except.ok m) :
    List.Pairwise (fun a b => Disjoint (pbCells ops a) (pbCells ops b))
      m.iter ∧
    ∀ v : ℕ × ℕ × ℕ,
      (∃ pb ∈ m.iter, v ∈ pbCells ops pb) ↔
      v.1 < L ∧ v.2.1 < W ∧ v.2.2 < globalHeight pF nF hF v.1 v.2.1 := by
  unfold fromImage at hok
  rcases hsec : sectionsLoop (U := U) (B := B) (pureCallbacks pF nF hF bF)
      (makeSections L W) () with ⟨s1, r1⟩
  rw [hsec] at hok
  rcases r1 with e | secs
  · dsimp only at hok
    cases hok
  dsimp only at hok
  injection hok with hok2
  subst hok2
  obtain ⟨hm1, hm2, hm3, hm4⟩ :=
    sectionsLoop_cells (U := U) (B := B) pF nF hF bF (makeSections L W) () s1
      secs (makeSections_pairwise L W) hsec
  have hfil : ∀ sec ∈ secs, sectionAllPositive sec = true := by
    intro sec hsec2
    unfold sectionAllPositive
    rw [List.all_eq_true]
    intro c hc
    obtain ⟨p1, p2, p3⟩ := hm3 sec hsec2 c hc
    simp [p1, p2, p3]
  have hunits := iter_units secs L W hm4
  have hcells := iter_map_cells secs L W hfil
  obtain ⟨hbnd, hcov⟩ := makeSections_cover L W
  constructor
  · have hnd : ((Mosaic.new secs L W).iter.map
        (fun pb : PlacedBrick U B C => (pb.l, pb.w, pb.h))).Nodup := by
      rw [hcells]
      exact hm2
    rw [List.Nodup, List.pairwise_map] at hnd
    refine List.Pairwise.imp_of_mem ?_ hnd
    intro a b ha hb hne
    obtain ⟨ua, hua⟩ := hunits a ha
    obtain ⟨ub, hub⟩ := hunits b hb
    rw [pbCells_unit ops a ua hua, pbCells_unit ops b ub hub]
    rw [Finset.disjoint_singleton]
    exact hne
  · intro v
    constructor
    · rintro ⟨pb, hpb, hv⟩
      obtain ⟨u, hu⟩ := hunits pb hpb
      rw [pbCells_unit ops pb u hu, Finset.mem_singleton] at hv
      subst hv
      have hmem : (pb.l, pb.w, pb.h) ∈ secs.flatMap sectionCells := by
        rw [← hcells]
        exact List.mem_map_of_mem _ hpb
      obtain ⟨t, ht, h1, h2, h3, h4, h5⟩ := (hm1 _).mp hmem
      obtain ⟨hb1, hb2⟩ := hbnd t ht
      exact ⟨by omega, by omega, h5⟩
    · rintro ⟨h1, h2, h3⟩
      obtain ⟨t, ht, hc1, hc2, hc3, hc4⟩ := hcov v.1 v.2.1 h1 h2
      have hmem : v ∈ secs.flatMap sectionCells :=
        (hm1 v).mpr ⟨t, ht, hc1, hc2, hc3, hc4, h3⟩
      rw [← hcells, List.mem_map] at hmem
      obtain ⟨pb, hpb, hv⟩ := hmem
      refine ⟨pb, hpb, ?_⟩
      obtain ⟨u, hu⟩ := hunits pb hpb
      rw [pbCells_unit ops pb u hu, Finset.mem_singleton]
      exact hv.symm

theorem C1_witness :
    List.Pairwise
      (fun a b => Disjoint (pbCells testOps a) (pbCells testOps b))
      (Mosaic.iter (U := ℕ) (B := TestBrick) (C := ℕ)
        ⟨[⟨0, 0, 0, [⟨0, 0, 0, 0, 0, 1, 1, 1, [{0}],
          [⟨0, 0, 0, Brick.unit 0⟩]⟩]⟩], 1, 1⟩) ∧
    ∀ v : ℕ × ℕ × ℕ,
      (∃ pb ∈ Mosaic.iter (U := ℕ) (B := TestBrick) (C := ℕ)
          ⟨[⟨0, 0, 0, [⟨0, 0, 0, 0, 0, 1, 1, 1, [{0}],
            [⟨0, 0, 0, Brick.unit 0⟩]⟩]⟩], 1, 1⟩,
        v ∈ pbCells testOps pb) ↔
      v.1 < 1 ∧ v.2.1 < 1 ∧
        v.2.2 < globalHeight (fun _ _ => ⟨0, 0, 0, 0⟩)
          (fun _ => some (0 : ℕ)) (fun _ _ _ => 1) v.1 v.2.1 :=
  C1_theorem testOps (fun _ _ => ⟨0, 0, 0, 0⟩) (fun _ => some (0 : ℕ))
    (fun _ _ _ => 1) (fun _ _ _ _ => (0 : ℕ)) 1 1
    ⟨[⟨0, 0, 0, [⟨0, 0, 0, 0, 0, 1, 1, 1, [{0}],
      [⟨0, 0, 0, Brick.unit 0⟩]⟩]⟩], 1, 1⟩ (by rfl)

end LegoMosaic
